import Mathlib

/-!
# Verification of the pev2 plan-ingestion core

A shallow embedding, in Lean 4, of the data model and the algorithms of the
plan-ingestion core of this repository:

* `src/services/plan-service.ts` — the enrichment pass (`processNode`,
  `calculatePlannerEstimate`, `calculateActuals`, `childrenDuration`,
  `calculateExclusives`, `isCTE`), `cleanupSource`, and the duplicate-key
  tolerant JSON stream parser `parseJson`;
* `src/services/parsers/text.ts` — the line-oriented text-format parser
  (`splitIntoLines`, `fromText` and its attribute sub-parsers).

JavaScript numbers are modelled by the type `JSV`: exact rationals extended
with `NaN`, `±Infinity` and `undefined` (a missing property), together with
the JS arithmetic, comparison and truthiness rules the source relies on
(`undefined` coerces to `NaN` in arithmetic, `x || y` picks `y` when `x` is
falsy, comparisons with `NaN` are false, division by zero gives `±Infinity`
or `NaN`).

Plan trees are modelled by the mutual inductive `PNode`/`PList` (a node and
its `Plans` list).  The enrichment pass mutates nodes in place and pushes
CTE children onto `plan.ctes` by object reference; the functional rendering
below threads the node-id counter explicitly and returns the list of
relocated (fully processed) CTE subtrees, preserving the push order of the
imperative code (a CTE child is pushed before it is descended into, so it
precedes its own nested CTEs).
-/

section
/- `Rat`'s arithmetic is `@[irreducible]` in Mathlib, which blocks kernel
evaluation of concrete plans in `decide`-based proofs; within this file the
operations are restored to their normal reducibility (this affects
elaboration only — every proof is still checked by the kernel). -/
set_option allowUnsafeReducibility true
attribute [local semireducible] Rat.add Rat.sub Rat.mul Rat.div Rat.inv Rat.neg

/-- JavaScript number/property values: a rational, `NaN`, `±Infinity`, or
`undefined` for a property that was never assigned. -/
inductive JSV where
  | undef
  | num (q : ℚ)
  | nan
  | inf
  | ninf
deriving DecidableEq, Repr

namespace JSV

/-- JS truthiness of the values a numeric property can hold: `undefined`,
`NaN` and `0` are falsy. -/
def truthy : JSV → Bool
  | undef => false
  | nan => false
  | num q => q != 0
  | inf => true
  | ninf => true

/-- JS `a || b`. -/
def jor (a b : JSV) : JSV := if a.truthy then a else b

/-- Coercion applied by JS arithmetic operators: `undefined` becomes `NaN`. -/
def toNum : JSV → JSV
  | undef => nan
  | v => v

/-- JS addition on numbers (after `toNum` coercion). -/
def jadd (a b : JSV) : JSV :=
  match a.toNum, b.toNum with
  | num x, num y => num (x + y)
  | nan, _ => nan
  | _, nan => nan
  | inf, ninf => nan
  | ninf, inf => nan
  | inf, _ => inf
  | _, inf => inf
  | ninf, _ => ninf
  | _, ninf => ninf
  | _, _ => nan

/-- JS subtraction. -/
def jsub (a b : JSV) : JSV :=
  match a.toNum, b.toNum with
  | num x, num y => num (x - y)
  | nan, _ => nan
  | _, nan => nan
  | inf, inf => nan
  | ninf, ninf => nan
  | inf, _ => inf
  | _, inf => ninf
  | ninf, _ => ninf
  | _, ninf => inf
  | _, _ => nan

/-- JS multiplication (`Infinity * 0 = NaN`). -/
def jmul (a b : JSV) : JSV :=
  match a.toNum, b.toNum with
  | num x, num y => num (x * y)
  | nan, _ => nan
  | _, nan => nan
  | inf, inf => inf
  | inf, ninf => ninf
  | ninf, inf => ninf
  | ninf, ninf => inf
  | inf, num y => if y = 0 then nan else if 0 < y then inf else ninf
  | num x, inf => if x = 0 then nan else if 0 < x then inf else ninf
  | ninf, num y => if y = 0 then nan else if 0 < y then ninf else inf
  | num x, ninf => if x = 0 then nan else if 0 < x then ninf else inf
  | _, _ => nan

/-- JS division (`x / 0` is `±Infinity` for `x ≠ 0` and `NaN` for `0 / 0`;
signed zeroes are not modelled). -/
def jdiv (a b : JSV) : JSV :=
  match a.toNum, b.toNum with
  | num x, num y =>
      if y = 0 then (if x = 0 then nan else if 0 < x then inf else ninf)
      else num (x / y)
  | nan, _ => nan
  | _, nan => nan
  | inf, inf => nan
  | inf, ninf => nan
  | ninf, inf => nan
  | ninf, ninf => nan
  | num _, inf => num 0
  | num _, ninf => num 0
  | inf, num y => if 0 ≤ y then inf else ninf
  | ninf, num y => if 0 ≤ y then ninf else inf
  | _, _ => nan

/-- JS `<` on numbers: any comparison involving `NaN` (hence `undefined`)
is false. -/
def jlt (a b : JSV) : Bool :=
  match a.toNum, b.toNum with
  | num x, num y => x < y
  | ninf, num _ => true
  | num _, inf => true
  | ninf, inf => true
  | _, _ => false

end JSV

/-! ## The enrichment pass (`src/services/plan-service.ts`) -/

/-- `EstimateDirection` from `@/enums` (referenced by
`calculatePlannerEstimate`). -/
inductive EDir where
  | none
  | under
  | over
deriving DecidableEq, Repr

/-- The twelve buffer / IO-timing counter properties listed in
`calculateExclusives` (plan-service.ts, lines 380–393). -/
inductive BufProp where
  | sharedHit | sharedRead | sharedDirtied | sharedWritten
  | tempRead | tempWritten
  | localHit | localRead | localDirtied | localWritten
  | ioReadTime | ioWriteTime
deriving DecidableEq, Repr

/-- The per-node properties that the enrichment pass of
`plan-service.ts` reads or writes.  Each numeric property is a `JSV`
(`JSV.undef` models a property that is absent from the parsed node);
`buf p` holds the twelve raw buffer counters and `exbuf p` their
`EXCLUSIVE_*` counterparts.  `Parent Relationship` and `Subplan Name` are
string-valued properties.  `nodeId` is only ever assigned the integer
counter, so it is kept as `Option Nat`. -/
structure NodeData where
  nodeType : String := ""
  startupCost : JSV := .undef
  totalCost : JSV := .undef
  planRows : JSV := .undef
  planWidth : JSV := .undef
  actualStartupTime : JSV := .undef
  actualTotalTime : JSV := .undef
  actualRows : JSV := .undef
  actualLoops : JSV := .undef
  rowsRemovedByFilter : JSV := .undef
  rowsRemovedByJoinFilter : JSV := .undef
  actualRowsRevised : JSV := .undef
  planRowsRevised : JSV := .undef
  rowsRemovedByFilterRevised : JSV := .undef
  rowsRemovedByJoinFilterRevised : JSV := .undef
  parentRelationship : Option String := Option.none
  subplanName : Option String := Option.none
  workersPlanned : JSV := .undef
  workersPlannedByGather : JSV := .undef
  nodeId : Option Nat := Option.none
  exclusiveCost : JSV := .undef
  exclusiveDuration : JSV := .undef
  plannerEstimateFactor : JSV := .undef
  plannerEstimateDirection : Option EDir := Option.none
  buf : BufProp → JSV := fun _ => .undef
  exbuf : BufProp → JSV := fun _ => .undef

mutual
/-- A plan node together with its `Plans` children (mutual with `PList` so
that all recursions below are structural and compute in the kernel). -/
inductive PNode where
  | mk : NodeData → PList → PNode
/-- A list of plan nodes (the `Plans` property). -/
inductive PList where
  | nil : PList
  | cons : PNode → PList → PList
end

namespace PlanService

open JSV

/-- The node's property record. -/
def pdata : PNode → NodeData
  | .mk d _ => d

/-- The node's `Plans` list. -/
def pplans : PNode → PList
  | .mk _ cs => cs

/-- `_.startsWith s p`: character-list prefix test (equivalent to
`String.startsWith`, stated on `String.data` so that it evaluates in the
kernel). -/
def jsStartsWith (s p : String) : Bool := p.data.isPrefixOf s.data

/-- `PlanService.isCTE` (plan-service.ts, lines 45–48): parent relationship
is `InitPlan` and the subplan name starts with `CTE` (no trailing space in
the source; `_.startsWith undefined "CTE"` is false). -/
def isCTEd (d : NodeData) : Bool :=
  d.parentRelationship = some "InitPlan" &&
    (match d.subplanName with
     | some s => jsStartsWith s "CTE"
     | Option.none => false)

def isCTE (n : PNode) : Bool := isCTEd (pdata n)

/-- `calculatePlannerEstimate` (plan-service.ts, lines 207–221).  Returns
early when `Actual Rows` is undefined; otherwise sets the factor to
`actual / plan`, the direction to `none`, then `under` when
`actual > plan`, and `over` (with the factor recomputed as
`plan / actual`) when `actual < plan`. -/
def calculatePlannerEstimate (d : NodeData) : NodeData :=
  if d.actualRows = JSV.undef then d
  else
    let d1 := { d with plannerEstimateFactor := jdiv d.actualRows d.planRows,
                       plannerEstimateDirection := some EDir.none }
    let d2 := if jlt d1.planRows d1.actualRows
      then { d1 with plannerEstimateDirection := some EDir.under } else d1
    if jlt d2.actualRows d2.planRows
      then { d2 with plannerEstimateDirection := some EDir.over,
                     plannerEstimateFactor := jdiv d.planRows d.actualRows }
      else d2

/-- Worker-propagation step of `processNode` (plan-service.ts, lines
55–62), on the child's property record: for a non-CTE child whose
relationship is neither `InitPlan` nor `SubPlan`, set
`WORKERS_PLANNED_BY_GATHER` to
`node.workersPlanned || node.workersPlannedByGather` (JS `||`, so a
defined `0` falls through to the inherited value). -/
def propagateD (pd cd : NodeData) : NodeData :=
  if !isCTEd cd && cd.parentRelationship != some "InitPlan"
      && cd.parentRelationship != some "SubPlan" then
    { cd with workersPlannedByGather := jor pd.workersPlanned pd.workersPlannedByGather }
  else cd

/-- Worker propagation on a child node. -/
def propagateWorkers (pd : NodeData) (c : PNode) : PNode :=
  match c with
  | .mk cd cs => .mk (propagateD pd cd) cs

mutual
/-- `childrenDuration` (plan-service.ts, lines 193–203): recursively
accumulates `EXCLUSIVE_DURATION || 0` of every descendant, skipping any
child (together with its whole subtree) whose parent relationship is
`InitPlan`. -/
def childrenDuration : PNode → JSV → JSV
  | .mk _ cs, acc => childrenDurationL cs acc
/-- The loop body of `childrenDuration` over a `Plans` list. -/
def childrenDurationL : PList → JSV → JSV
  | .nil, acc => acc
  | .cons c rest, acc =>
    let acc' := if (pdata c).parentRelationship = some "InitPlan" then acc
      else childrenDuration c (jadd acc (jor (pdata c).exclusiveDuration (JSV.num 0)))
    childrenDurationL rest acc'
end

/-- The exclusive-cost subtraction loop of `calculateActuals`
(plan-service.ts, lines 170–174). -/
def subChildCosts : PList → JSV → JSV
  | .nil, acc => acc
  | .cons c rest, acc =>
    let acc' := if (pdata c).parentRelationship != some "InitPlan"
        && ((pdata c).totalCost).truthy
      then jsub acc (pdata c).totalCost else acc
    subChildCosts rest acc'

/-- `calculateActuals` (plan-service.ts, lines 152–190), applied to a node
whose children have already been processed and whose CTE children have
already been removed (the order of `processNode`).  The source mutates the
node field by field; each conditional in-place assignment is rendered here
as a conditional field value (`if` the source's guard holds `then` the
assigned value `else` the field's previous value):

* if `Actual Total Time` is defined, the total and startup times are
  scaled by `actual_loops / ((workers_planned_by_gather || 0) + 1)` and
  `exclusive_duration` becomes the scaled total time minus
  `childrenDuration`, clamped at 0 (`dur > 0 ? dur : 0`);
* `exclusive_cost` starts from a truthy `Total Cost`, has every non-InitPlan
  child's truthy `Total Cost` subtracted, and is clamped at 0;
* each defined row counter gets a `*_REVISED` value multiplied by
  `actual_loops || 1`. -/
def calculateActuals : PNode → PNode
  | .mk d cs =>
    let c := d.actualTotalTime != JSV.undef
    let workers := jadd (jor d.workersPlannedByGather (JSV.num 0)) (JSV.num 1)
    let att := if c then jdiv (jmul d.actualTotalTime d.actualLoops) workers
      else d.actualTotalTime
    let ast := if c then jdiv (jmul d.actualStartupTime d.actualLoops) workers
      else d.actualStartupTime
    let dur := jsub att (childrenDurationL cs (JSV.num 0))
    let exd := if c then (if jlt (JSV.num 0) dur then dur else JSV.num 0)
      else d.exclusiveDuration
    let ec1 := if d.totalCost.truthy then d.totalCost else d.exclusiveCost
    let ec2 := subChildCosts cs ec1
    let ec := if jlt ec2 (JSV.num 0) then JSV.num 0 else ec2
    let loops := jor d.actualLoops (JSV.num 1)
    .mk { d with
      actualTotalTime := att, actualStartupTime := ast, exclusiveDuration := exd,
      exclusiveCost := ec,
      actualRowsRevised := if d.actualRows != JSV.undef
        then jmul d.actualRows loops else d.actualRowsRevised,
      planRowsRevised := if d.planRows != JSV.undef
        then jmul d.planRows loops else d.planRowsRevised,
      rowsRemovedByFilterRevised := if d.rowsRemovedByFilter != JSV.undef
        then jmul d.rowsRemovedByFilter loops else d.rowsRemovedByFilterRevised,
      rowsRemovedByJoinFilterRevised := if d.rowsRemovedByJoinFilter != JSV.undef
        then jmul d.rowsRemovedByJoinFilter loops else d.rowsRemovedByJoinFilterRevised } cs

/-- The per-property child sum of `calculateExclusives` (plan-service.ts,
lines 394–401): `_.sumBy(children, child => child[prop] || 0)`. -/
def sumBuf (p : BufProp) : PList → JSV → JSV
  | .nil, acc => acc
  | .cons c rest, acc => sumBuf p rest (jadd acc (jor ((pdata c).buf p) (JSV.num 0)))

/-- `calculateExclusives` (plan-service.ts, lines 378–405): for each of the
twelve counters, `EXCLUSIVE_p = node.p − Σ children (p || 0)` — no
clamping, and `undefined − sum` is `NaN`. -/
def calculateExclusives : PNode → PNode
  | .mk d cs =>
    .mk { d with exbuf := fun p => jsub (d.buf p) (sumBuf p cs (JSV.num 0)) } cs

/-- Removal of CTE children (`_.remove` in plan-service.ts, line 70). -/
def filterOutCTE : PList → PList
  | .nil => .nil
  | .cons c rest =>
    if isCTE c then filterOutCTE rest else .cons c (filterOutCTE rest)

mutual
/-- `processNode` (plan-service.ts, lines 51–76), with the `nodeId`
counter threaded explicitly and the `plan.ctes` pushes returned as a list.
The first argument carries the parent's property record so that the
parent's worker-propagation write to this child (which in the source
happens in the parent's loop, just before the recursive call) can be
applied here while keeping the recursion structural; `Option.none` marks
the root, which no propagation reaches. -/
def processNode : Option NodeData → PNode → Nat → PNode × List PNode × Nat
  | pd?, .mk d cs, k =>
    let d0 := match pd? with
      | some pd => propagateD pd d
      | Option.none => d
    let d1 := calculatePlannerEstimate { d0 with nodeId := some k }
    let r := processChildren cs d1 (k + 1)
    let kept := filterOutCTE r.1
    let n2 := calculateActuals (.mk d1 kept)
    let n3 := calculateExclusives n2
    (n3, r.2.1, r.2.2)
/-- The child loop of `processNode` (plan-service.ts, lines 55–67): each
child is propagated to and recursed into; a CTE child is pushed onto
`ctes` before the descent, so it precedes its own nested CTEs in the
resulting list.  Worker propagation does not change `Parent Relationship`
or `Subplan Name`, so testing `isCTE` on the unpropagated child is
faithful. -/
def processChildren : PList → NodeData → Nat → PList × List PNode × Nat
  | .nil, _, k => (.nil, [], k)
  | .cons c rest, pd, k =>
    let pr := processNode (some pd) c k
    let myCtes := (if isCTE c then [pr.1] else []) ++ pr.2.1
    let rr := processChildren rest pd pr.2.2
    (.cons pr.1 rr.1, myCtes ++ rr.2.1, rr.2.2)
end

/-- The enrichment entry point of `createPlan` (plan-service.ts, lines
39–40): the counter starts at 1 and `processNode` walks the root. -/
def enrichPlan (t : PNode) : PNode × List PNode × Nat := processNode Option.none t 1

/-! ### Helper notions for the theorems -/

mutual
/-- Number of nodes of a tree. -/
def sizeT : PNode → Nat
  | .mk _ cs => 1 + sizeL cs
/-- Number of nodes of a forest. -/
def sizeL : PList → Nat
  | .nil => 0
  | .cons c rest => sizeT c + sizeL rest
end

mutual
/-- All nodes of a tree, in pre-order. -/
def subtreeNodes : PNode → List PNode
  | .mk d cs => .mk d cs :: subtreeNodesL cs
/-- All nodes of a forest, in pre-order. -/
def subtreeNodesL : PList → List PNode
  | .nil => []
  | .cons c rest => subtreeNodes c ++ subtreeNodesL rest
end

/-- The `nodeId`s of a tree, in pre-order. -/
def idsAll (t : PNode) : List (Option Nat) :=
  (subtreeNodes t).map (fun n => (pdata n).nodeId)

/-- A custom induction principle for `PNode` (nodes from their child
forests). -/
theorem PNode.rec2 {P : PNode → Prop} {Q : PList → Prop}
    (hmk : ∀ d cs, Q cs → P (.mk d cs))
    (hnil : Q .nil)
    (hcons : ∀ c cs, P c → Q cs → Q (.cons c cs)) : ∀ t, P t := by
  intro t
  induction t using PNode.rec (motive_2 := Q) with
  | mk d cs h => exact hmk d cs h
  | nil => exact hnil
  | cons c cs h1 h2 => exact hcons c cs h1 h2

/-- The forest version of `PNode.rec2`. -/
theorem PList.forestRec2 {P : PNode → Prop} {Q : PList → Prop}
    (hmk : ∀ d cs, Q cs → P (.mk d cs))
    (hnil : Q .nil)
    (hcons : ∀ c cs, P c → Q cs → Q (.cons c cs)) : ∀ l, Q l := by
  intro l
  induction l using PList.rec (motive_1 := P) with
  | mk d cs h => exact hmk d cs h
  | nil => exact hnil
  | cons c cs h1 h2 => exact hcons c cs h1 h2

end PlanService


namespace PlanService

open JSV

/-! ### Claim C1 — planner estimate -/

/-- Characterization of `calculatePlannerEstimate` on a node whose row
counts are both defined rationals. -/
theorem calcPE_char (d : NodeData) (a p : ℚ)
    (ha : d.actualRows = JSV.num a) (hp : d.planRows = JSV.num p) :
    (calculatePlannerEstimate d).plannerEstimateDirection =
      some (if a < p then EDir.over else if p < a then EDir.under else EDir.none) ∧
    (calculatePlannerEstimate d).plannerEstimateFactor =
      (if a < p then jdiv (JSV.num p) (JSV.num a) else jdiv (JSV.num a) (JSV.num p)) := by
  have hne : ¬ (d.actualRows = JSV.undef) := by rw [ha]; intro h; cases h
  have hne2 : ¬ (JSV.num a = JSV.undef) := by intro h; cases h
  rcases lt_trichotomy a p with h | h | h
  · have e1 : jlt (JSV.num p) (JSV.num a) = false := by
      simp only [jlt, toNum, decide_eq_false_iff_not]
      exact lt_asymm h
    have e2 : jlt (JSV.num a) (JSV.num p) = true := by
      simp only [jlt, toNum, decide_eq_true_eq]
      exact h
    constructor <;>
      simp only [calculatePlannerEstimate, if_neg hne, if_neg hne2, ha, hp, e1, e2,
        Bool.false_eq_true, if_false, if_true, if_pos h, if_neg (lt_asymm h)]
  · subst h
    have e1 : jlt (JSV.num a) (JSV.num a) = false := by
      simp only [jlt, toNum, decide_eq_false_iff_not]
      exact lt_irrefl a
    constructor <;>
      simp only [calculatePlannerEstimate, if_neg hne, if_neg hne2, ha, hp, e1,
        Bool.false_eq_true, if_false, if_neg (lt_irrefl a)]
  · have e1 : jlt (JSV.num p) (JSV.num a) = true := by
      simp only [jlt, toNum, decide_eq_true_eq]
      exact h
    have e2 : jlt (JSV.num a) (JSV.num p) = false := by
      simp only [jlt, toNum, decide_eq_false_iff_not]
      exact lt_asymm h
    constructor <;>
      simp only [calculatePlannerEstimate, if_neg hne, if_neg hne2, ha, hp, e1, e2,
        Bool.false_eq_true, if_false, if_true, if_pos h, if_neg (lt_asymm h)]

/-- A node with `Actual Rows = 5` and `Plan Rows = 0`: the estimate
computation divides by zero. -/
def c1node : NodeData := { actualRows := JSV.num 5, planRows := JSV.num 0 }

/-- Claim C1 states that a division by zero makes the direction `none` and
leaves the factor unset.  On the node with `Actual Rows = 5` and
`Plan Rows = 0` (a division by zero), `calculatePlannerEstimate` instead
sets the direction to `under` and the factor to `Infinity`. -/
theorem C1_counterexample :
    c1node.actualRows = JSV.num 5 ∧ c1node.planRows = JSV.num 0 ∧
    (calculatePlannerEstimate c1node).plannerEstimateDirection = some EDir.under ∧
    (calculatePlannerEstimate c1node).plannerEstimateFactor = JSV.inf := by
  refine ⟨rfl, rfl, ?_, ?_⟩ <;> decide

/-- What `calculatePlannerEstimate` actually guarantees on a node whose
row counts are defined and non-negative; see `C1_planner_estimate`. -/
def plannerEstimateSpec (d : NodeData) (a p : ℚ) : Prop :=
  ((calculatePlannerEstimate d).plannerEstimateDirection = some EDir.none ↔ a = p) ∧
  (0 < a → 0 < p →
    ∀ q, (calculatePlannerEstimate d).plannerEstimateFactor = JSV.num q → 1 ≤ q) ∧
  (p = 0 → 0 < a →
    (calculatePlannerEstimate d).plannerEstimateDirection = some EDir.under ∧
    (calculatePlannerEstimate d).plannerEstimateFactor = JSV.inf) ∧
  (a = 0 → 0 < p →
    (calculatePlannerEstimate d).plannerEstimateDirection = some EDir.over ∧
    (calculatePlannerEstimate d).plannerEstimateFactor = JSV.inf) ∧
  (a = 0 → p = 0 →
    (calculatePlannerEstimate d).plannerEstimateDirection = some EDir.none ∧
    (calculatePlannerEstimate d).plannerEstimateFactor = JSV.nan)

/-- Claim C1, amended.  For a node with defined, non-negative row counts:
the direction is `none` iff `Plan Rows = Actual Rows`, and the factor is
`≥ 1` whenever it is a finite number; but when the computation divides by
zero the code does not set direction `none` with the factor unset —
instead `0 < actual ∧ plan = 0` gives direction `under` and factor
`Infinity`, `actual = 0 < plan` gives direction `over` and factor
`Infinity`, and `actual = plan = 0` gives direction `none` and factor
`NaN`. -/
theorem C1_planner_estimate (d : NodeData) (a p : ℚ)
    (ha : d.actualRows = JSV.num a) (hp : d.planRows = JSV.num p)
    (ha0 : 0 ≤ a) (hp0 : 0 ≤ p) : plannerEstimateSpec d a p := by
  obtain ⟨hdir, hfac⟩ := calcPE_char d a p ha hp
  unfold plannerEstimateSpec
  rw [hdir, hfac]
  rcases lt_trichotomy a p with h | h | h
  · have hp' : 0 < p := lt_of_le_of_lt ha0 h
    rw [if_pos h, if_pos h]
    refine ⟨⟨(fun hx => by injection hx with hx'; cases hx'), fun hx => absurd hx (ne_of_lt h)⟩,
      ?_, ?_, ?_, ?_⟩
    · intro ha' _ q hq
      simp only [jdiv, toNum] at hq
      rw [if_neg (ne_of_gt ha')] at hq
      injection hq with hq'
      rw [← hq', le_div_iff₀ ha', one_mul]
      exact le_of_lt h
    · intro hpz; exact absurd hpz (ne_of_gt hp')
    · intro haz _
      refine ⟨rfl, ?_⟩
      subst haz
      simp [jdiv, toNum, ne_of_gt hp', hp']
    · intro _ hpz; exact absurd hpz (ne_of_gt hp')
  · subst h
    rw [if_neg (lt_irrefl a), if_neg (lt_irrefl a), if_neg (lt_irrefl a)]
    refine ⟨by simp, ?_, ?_, ?_, ?_⟩
    · intro ha' _ q hq
      simp only [jdiv, toNum] at hq
      rw [if_neg (ne_of_gt ha')] at hq
      injection hq with hq'
      rw [← hq', div_self (ne_of_gt ha')]
    · intro hpz h2; exact absurd hpz (ne_of_gt h2)
    · intro haz h2; exact absurd haz (ne_of_gt h2)
    · intro haz _
      subst haz
      exact ⟨rfl, by simp [jdiv, toNum]⟩
  · have ha' : 0 < a := lt_of_le_of_lt hp0 h
    rw [if_neg (lt_asymm h), if_pos h, if_neg (lt_asymm h)]
    refine ⟨⟨(fun hx => by injection hx with hx'; cases hx'), fun hx => absurd hx (ne_of_gt h)⟩,
      ?_, ?_, ?_, ?_⟩
    · intro _ hp' q hq
      simp only [jdiv, toNum] at hq
      rw [if_neg (ne_of_gt hp')] at hq
      injection hq with hq'
      rw [← hq', le_div_iff₀ hp', one_mul]
      exact le_of_lt h
    · intro hpz _
      refine ⟨rfl, ?_⟩
      subst hpz
      simp [jdiv, toNum, ne_of_gt ha', ha']
    · intro haz; exact absurd haz (ne_of_gt ha')
    · intro haz; exact absurd haz (ne_of_gt ha')

/-- A node with `Actual Rows = 3` and `Plan Rows = 2`. -/
def c1w : NodeData := { actualRows := JSV.num 3, planRows := JSV.num 2 }

/-- Witness for `C1_planner_estimate` at a concrete node. -/
theorem C1_planner_estimate_witness :
    (c1w.actualRows = JSV.num 3 ∧ c1w.planRows = JSV.num 2 ∧
      (0:ℚ) ≤ 3 ∧ (0:ℚ) ≤ 2) ∧ plannerEstimateSpec c1w 3 2 :=
  ⟨⟨rfl, rfl, by norm_num, by norm_num⟩,
    C1_planner_estimate c1w 3 2 rfl rfl (by norm_num) (by norm_num)⟩

end PlanService

namespace PlanService

open JSV

/-! ### Claim C3 — worker propagation -/

/-- A `Gather`-style node with an explicit `Workers Planned = 0` and an
inherited `workers_planned_by_gather = 3`. -/
def c3parent : NodeData :=
  { workersPlanned := JSV.num 0, workersPlannedByGather := JSV.num 3 }

/-- The tree for claim C3: the parent above with one plain child. -/
def c3tree : PNode := PNode.mk c3parent (PList.cons (PNode.mk {} PList.nil) PList.nil)

/-- First child's `workers_planned_by_gather` after enrichment. -/
def firstChildWPBG (t : PNode) : Option JSV :=
  match pplans t with
  | .nil => Option.none
  | .cons c _ => some (pdata c).workersPlannedByGather

/-- Claim C3 says an explicit `Workers Planned = 0` is propagated as `0`.
The source uses JS `||` (plan-service.ts, lines 60–61), so `0` is falsy
and the child instead inherits the parent's
`workers_planned_by_gather = 3`: the code contradicts the claim (and the
spec flags exactly this `||`-conflation as the known defect). -/
theorem C3_worker_propagation_eval :
    c3parent.workersPlanned = JSV.num 0 ∧
    firstChildWPBG (enrichPlan c3tree).1 = some (JSV.num 3) ∧
    (propagateD c3parent (PNode.mk {} PList.nil |> pdata)).workersPlannedByGather
      = JSV.num 3 := by
  refine ⟨rfl, ?_, ?_⟩ <;> decide

end PlanService

namespace PlanService

open JSV

/-! ### Claim C2 — actual-time scaling and exclusive duration -/

/-- The sum that claim C2 describes, written from the claim's words: only
the *direct* children's `exclusive_duration` (`|| 0`), children with
`parent_relationship = InitPlan` excluded.  The source's
`childrenDuration` recurses into grandchildren instead. -/
def directChildrenDurationSpec : PList → JSV → JSV
  | .nil, acc => acc
  | .cons c rest, acc =>
    let acc' := if (pdata c).parentRelationship = some "InitPlan" then acc
      else jadd acc (jor (pdata c).exclusiveDuration (JSV.num 0))
    directChildrenDurationSpec rest acc'

/-- A node with actual total time 10ms, startup 0, 1 loop. -/
def c2data : NodeData :=
  { actualTotalTime := JSV.num 10, actualStartupTime := JSV.num 0,
    actualLoops := JSV.num 1 }

/-- A three-node chain A → B → C, each with actual total time 10ms. -/
def c2tree : PNode :=
  PNode.mk c2data (PList.cons
    (PNode.mk c2data (PList.cons (PNode.mk c2data PList.nil) PList.nil))
    PList.nil)

/-- Claim C2 computes the exclusive duration from the *direct* children
only.  On the chain A → B → C (10ms each, one loop, no workers), the code
stores `exclusive_duration 0` for the root A, while the claim's
direct-children formula gives `max(0, 10 − 0) = 10`: `childrenDuration`
recurses into grandchildren, so C's 10ms is subtracted from A as well. -/
theorem C2_counterexample :
    (pdata (enrichPlan c2tree).1).exclusiveDuration = JSV.num 0 ∧
    (pdata (enrichPlan c2tree).1).actualTotalTime = JSV.num 10 ∧
    (let dur := jsub (pdata (enrichPlan c2tree).1).actualTotalTime
        (directChildrenDurationSpec (pplans (enrichPlan c2tree).1) (JSV.num 0));
      (if jlt (JSV.num 0) dur then dur else JSV.num 0) = JSV.num 10) := by
  refine ⟨?_, ?_, ?_⟩ <;> decide

/-- Fields of a node that `calculatePlannerEstimate` never writes. -/
theorem calcPE_preserves (d : NodeData) :
    (calculatePlannerEstimate d).actualTotalTime = d.actualTotalTime ∧
    (calculatePlannerEstimate d).actualStartupTime = d.actualStartupTime ∧
    (calculatePlannerEstimate d).actualLoops = d.actualLoops ∧
    (calculatePlannerEstimate d).workersPlannedByGather = d.workersPlannedByGather ∧
    (calculatePlannerEstimate d).workersPlanned = d.workersPlanned ∧
    (calculatePlannerEstimate d).parentRelationship = d.parentRelationship ∧
    (calculatePlannerEstimate d).subplanName = d.subplanName ∧
    (calculatePlannerEstimate d).totalCost = d.totalCost ∧
    (calculatePlannerEstimate d).buf = d.buf ∧
    (calculatePlannerEstimate d).nodeId = d.nodeId := by
  simp only [calculatePlannerEstimate]
  split_ifs <;> exact ⟨rfl, rfl, rfl, rfl, rfl, rfl, rfl, rfl, rfl, rfl⟩

/-- `calculatePlannerEstimate` keeps `Parent Relationship`. -/
theorem calcPE_parentRel (d : NodeData) :
    (calculatePlannerEstimate d).parentRelationship = d.parentRelationship := by
  simp only [calculatePlannerEstimate]
  split_ifs <;> rfl

/-- `calculatePlannerEstimate` keeps `Subplan Name`. -/
theorem calcPE_subplanName (d : NodeData) :
    (calculatePlannerEstimate d).subplanName = d.subplanName := by
  simp only [calculatePlannerEstimate]
  split_ifs <;> rfl

/-- `calculatePlannerEstimate` keeps `nodeId`. -/
theorem calcPE_nodeId (d : NodeData) :
    (calculatePlannerEstimate d).nodeId = d.nodeId := by
  simp only [calculatePlannerEstimate]
  split_ifs <;> rfl

/-- Claim C2, amended.  For a node whose `Actual Total Time` is defined
(after the parent's worker propagation, carried by `pd?`), the enriched
node stores `actual_total_time` and `actual_startup_time` scaled by
`actual_loops / ((workers_planned_by_gather || 0) + 1)`, and
`exclusive_duration = max(0, scaled total time − childrenDuration)`,
where `childrenDuration` is the code's *recursive* accumulation of
`exclusive_duration || 0` over all descendants, skipping every child
(with its whole subtree) whose `parent_relationship` is `InitPlan` — not
the direct-children sum of the original claim. -/
theorem C2_actuals (pd? : Option NodeData) (d : NodeData) (cs : PList) (k : Nat)
    (d0 : NodeData)
    (hd0 : d0 = (match pd? with | some pd => propagateD pd d | Option.none => d))
    (h : d0.actualTotalTime ≠ JSV.undef) :
    (pdata (processNode pd? (.mk d cs) k).1).actualTotalTime =
      jdiv (jmul d0.actualTotalTime d0.actualLoops)
        (jadd (jor d0.workersPlannedByGather (JSV.num 0)) (JSV.num 1)) ∧
    (pdata (processNode pd? (.mk d cs) k).1).actualStartupTime =
      jdiv (jmul d0.actualStartupTime d0.actualLoops)
        (jadd (jor d0.workersPlannedByGather (JSV.num 0)) (JSV.num 1)) ∧
    (pdata (processNode pd? (.mk d cs) k).1).exclusiveDuration =
      (let dur := jsub (pdata (processNode pd? (.mk d cs) k).1).actualTotalTime
          (childrenDurationL (pplans (processNode pd? (.mk d cs) k).1) (JSV.num 0));
        if jlt (JSV.num 0) dur then dur else JSV.num 0) := by
  obtain ⟨e1, e2, e3, e4, -⟩ := calcPE_preserves { d0 with nodeId := some k }
  simp only [processNode]
  rw [← hd0]
  set d1 := calculatePlannerEstimate { d0 with nodeId := some k } with hd1
  set kept := filterOutCTE (processChildren cs d1 (k + 1)).1 with hkept
  have hne : (d0.actualTotalTime != JSV.undef) = true := by
    simpa using h
  simp only [calculateActuals, calculateExclusives, hne, if_true, pdata, pplans,
    e1, e2, e3, e4]
  exact ⟨trivial, trivial, trivial⟩

/-- Witness for `C2_actuals`: a single node with defined actuals and one
child (7ms total time over 2 loops, 3 planned workers). -/
def c2wparent : NodeData :=
  { actualTotalTime := JSV.num 7, actualStartupTime := JSV.num 1,
    actualLoops := JSV.num 2, workersPlannedByGather := JSV.num 3 }

/-- Witness for `C2_actuals` at a concrete node. -/
theorem C2_actuals_witness :
    c2wparent.actualTotalTime ≠ JSV.undef ∧
    (pdata (processNode Option.none (.mk c2wparent PList.nil) 1).1).actualTotalTime =
      jdiv (jmul c2wparent.actualTotalTime c2wparent.actualLoops)
        (jadd (jor c2wparent.workersPlannedByGather (JSV.num 0)) (JSV.num 1)) :=
  ⟨by decide, (C2_actuals Option.none c2wparent PList.nil 1 c2wparent rfl (by decide)).1⟩

end PlanService

end

namespace PlanService

open JSV

/-! ### Claim C10 — exclusive buffer / IO counters -/

@[simp] theorem pdata_mk (d : NodeData) (cs : PList) : pdata (.mk d cs) = d := rfl

@[simp] theorem pplans_mk (d : NodeData) (cs : PList) : pplans (.mk d cs) = cs := rfl

@[simp] theorem subtreeNodes_mk (d : NodeData) (cs : PList) :
    subtreeNodes (.mk d cs) = .mk d cs :: subtreeNodesL cs := rfl

@[simp] theorem subtreeNodesL_nil : subtreeNodesL .nil = [] := rfl

@[simp] theorem subtreeNodesL_cons (c : PNode) (rest : PList) :
    subtreeNodesL (.cons c rest) = subtreeNodes c ++ subtreeNodesL rest := rfl

/-- The exclusive-counter invariant of claim C10: for each of the twelve
properties, the node's `EXCLUSIVE_*` value equals the node's own value
minus the sum of its (post-CTE-removal) children's values, a missing
child value counting as 0 (`child[prop] || 0`), with no filtering of
`InitPlan` children and no clamping (`undefined − sum` is `NaN`). -/
def exclusivesOK (n : PNode) : Prop :=
  ∀ p, (pdata n).exbuf p = jsub ((pdata n).buf p) (sumBuf p (pplans n) (JSV.num 0))

/-- Nodes of a filtered `Plans` list are nodes of the original list. -/
theorem subtree_filterOutCTE_subset :
    ∀ l : PList, ∀ n : PNode,
      n ∈ subtreeNodesL (filterOutCTE l) → n ∈ subtreeNodesL l := by
  refine PList.forestRec2 (P := fun _ => True)
    (Q := fun l => ∀ n, n ∈ subtreeNodesL (filterOutCTE l) → n ∈ subtreeNodesL l)
    (fun _ _ _ => trivial) ?_ ?_
  · intro n h
    simp only [filterOutCTE] at h
    exact h
  · intro c rest _ ih n h
    simp only [filterOutCTE] at h
    by_cases hc : isCTE c
    · rw [if_pos hc] at h
      exact subtreeNodesL_cons c rest ▸ List.mem_append_right _ (ih n h)
    · rw [if_neg hc] at h
      simp only [subtreeNodesL_cons] at h ⊢
      rcases List.mem_append.mp h with h1 | h2
      · exact List.mem_append_left _ h1
      · exact List.mem_append_right _ (ih n h2)

/-- Every node of the enriched output (main tree and relocated CTE trees)
satisfies the exclusive-counter invariant. -/
theorem exclusives_ok_all :
    ∀ t : PNode, ∀ pd? k n,
      n ∈ subtreeNodes (processNode pd? t k).1
          ++ (processNode pd? t k).2.1.flatMap subtreeNodes →
      exclusivesOK n := by
  refine PNode.rec2 (Q := fun l => ∀ pd k n,
    n ∈ subtreeNodesL (processChildren l pd k).1
        ++ (processChildren l pd k).2.1.flatMap subtreeNodes → exclusivesOK n) ?_ ?_ ?_
  · intro d cs hQ pd? k n hn
    simp only [processNode, calculateActuals, calculateExclusives,
      subtreeNodes_mk] at hn
    rcases List.mem_append.mp hn with h1 | h2
    · rcases List.mem_cons.mp h1 with hroot | hkept
      · subst hroot
        intro p
        rfl
      · have := subtree_filterOutCTE_subset _ _ hkept
        exact hQ _ (k+1) n (List.mem_append_left _ this)
    · exact hQ _ (k+1) n (List.mem_append_right _ h2)
  · intro pd k n hn
    simp only [processChildren, subtreeNodesL_nil, List.nil_append,
      List.flatMap_nil] at hn
    cases hn
  · intro c rest hP hQ pd k n hn
    simp only [processChildren, subtreeNodesL_cons] at hn
    by_cases hcte : isCTE c
    · rw [if_pos hcte] at hn
      simp only [List.flatMap_append, List.flatMap_cons, List.flatMap_nil,
        List.append_nil, List.append_assoc, List.mem_append] at hn
      rcases hn with h | h | h | h | h <;>
        first
          | exact hP (some pd) k n (List.mem_append_left _ h)
          | exact hP (some pd) k n (List.mem_append_right _ h)
          | exact hQ pd _ n (List.mem_append_left _ h)
          | exact hQ pd _ n (List.mem_append_right _ h)
    · rw [if_neg hcte] at hn
      simp only [List.flatMap_append, List.flatMap_nil, List.nil_append,
        List.append_assoc, List.mem_append] at hn
      rcases hn with h | h | h | h <;>
        first
          | exact hP (some pd) k n (List.mem_append_left _ h)
          | exact hP (some pd) k n (List.mem_append_right _ h)
          | exact hQ pd _ n (List.mem_append_left _ h)
          | exact hQ pd _ n (List.mem_append_right _ h)

/-- Claim C10: after enrichment, every node of the plan (the remaining
main tree and every relocated CTE subtree) has all twelve
`EXCLUSIVE_*` counters equal to its own counter minus the sum of its
direct children's counters (`child[prop] || 0`, InitPlan children
included, no clamping); additionally, in the modelled JS arithmetic an
absent own counter yields `NaN` (the property is assigned, not omitted)
and the difference may be negative. -/
theorem C10_exclusive_buffers :
    (∀ t : PNode,
      ((subtreeNodes (enrichPlan t).1
          ++ (enrichPlan t).2.1.flatMap subtreeNodes).Forall exclusivesOK)) ∧
    (∀ s, jsub JSV.undef s = JSV.nan) ∧
    jsub (JSV.num 1) (JSV.num 2) = JSV.num (-1) := by
  refine ⟨?_, ?_, ?_⟩
  · intro t
    rw [List.forall_iff_forall_mem]
    intro n hn
    exact exclusives_ok_all t Option.none 1 n hn
  · intro s
    cases s <;> rfl
  · show jsub (JSV.num 1) (JSV.num 2) = JSV.num (-1)
    simp only [jsub, toNum]
    norm_num

end PlanService

namespace PlanService

open JSV

/-! ### Claim C8 — node-id assignment -/

@[simp] theorem sizeT_mk (d : NodeData) (cs : PList) : sizeT (.mk d cs) = 1 + sizeL cs := rfl

@[simp] theorem sizeL_nil : sizeL .nil = 0 := rfl

@[simp] theorem sizeL_cons (c : PNode) (rest : PList) :
    sizeL (.cons c rest) = sizeT c + sizeL rest := rfl

/-- The `nodeId`s of a forest, in pre-order. -/
def idsAllL (l : PList) : List (Option Nat) :=
  (subtreeNodesL l).map (fun n => (pdata n).nodeId)

@[simp] theorem idsAll_mk (d : NodeData) (cs : PList) :
    idsAll (.mk d cs) = d.nodeId :: idsAllL cs := rfl

@[simp] theorem idsAllL_nil : idsAllL .nil = [] := rfl

@[simp] theorem idsAllL_cons (c : PNode) (rest : PList) :
    idsAllL (.cons c rest) = idsAll c ++ idsAllL rest := by
  simp [idsAllL, idsAll, subtreeNodesL_cons]

/-- `propagateD` only writes `workers_planned_by_gather`. -/
theorem propagateD_parentRel (pd cd : NodeData) :
    (propagateD pd cd).parentRelationship = cd.parentRelationship := by
  simp only [propagateD]
  split_ifs <;> rfl

/-- `propagateD` keeps `Subplan Name`. -/
theorem propagateD_subplanName (pd cd : NodeData) :
    (propagateD pd cd).subplanName = cd.subplanName := by
  simp only [propagateD]
  split_ifs <;> rfl

/-- Enrichment never changes a node's `Parent Relationship` or
`Subplan Name`. -/
theorem processNode_root_rel (pd? : Option NodeData) (t : PNode) (k : Nat) :
    (pdata (processNode pd? t k).1).parentRelationship = (pdata t).parentRelationship ∧
    (pdata (processNode pd? t k).1).subplanName = (pdata t).subplanName := by
  obtain ⟨d, cs⟩ := t
  cases pd? <;> constructor <;>
    simp only [processNode, calculateActuals, calculateExclusives, pdata_mk,
      calcPE_parentRel, calcPE_subplanName, propagateD_parentRel,
      propagateD_subplanName]

/-- Enrichment preserves `isCTE` of the root. -/
theorem isCTE_processNode (pd? : Option NodeData) (t : PNode) (k : Nat) :
    isCTE (processNode pd? t k).1 = isCTE t := by
  obtain ⟨h1, h2⟩ := processNode_root_rel pd? t k
  simp [isCTE, isCTEd, h1, h2]

/-- Claim C8: node ids.  For every call `processNode t k` (the enrichment
entry point `enrichPlan` uses `k = 1`): the counter comes back as
`k + size t`, the root receives id `k`, and the ids over the whole output
— the remaining main tree together with every relocated CTE subtree — are
a permutation of `k, …, k + size t − 1`.  The first two conjuncts are the
inductive characterization of pre-order assignment (each subtree root
takes the counter's current value and its children are numbered left to
right in the block that follows), and the permutation gives pairwise
distinctness and exact coverage of `[1, N]` for `k = 1`. -/
theorem C8_node_ids :
    ∀ t : PNode, ∀ pd? k,
      (processNode pd? t k).2.2 = k + sizeT t ∧
      (pdata (processNode pd? t k).1).nodeId = some k ∧
      (idsAll (processNode pd? t k).1
          ++ (processNode pd? t k).2.1.flatMap idsAll).Perm
        ((List.range' k (sizeT t)).map some) := by
  refine PNode.rec2 (Q := fun l => ∀ pd k,
    (processChildren l pd k).2.2 = k + sizeL l ∧
    (idsAllL (filterOutCTE (processChildren l pd k).1)
        ++ (processChildren l pd k).2.1.flatMap idsAll).Perm
      ((List.range' k (sizeL l)).map some)) ?_ ?_ ?_
  · intro d cs hQ pd? k
    obtain ⟨hcnt, hperm⟩ := hQ (calculatePlannerEstimate
      { (match pd? with | some pd => propagateD pd d | Option.none => d) with
          nodeId := some k }) (k + 1)
    have hid : (calculatePlannerEstimate
        { (match pd? with | some pd => propagateD pd d | Option.none => d) with
            nodeId := some k }).nodeId = some k := by
      rw [calcPE_nodeId]
    refine ⟨?_, ?_, ?_⟩
    · simp only [processNode, calculateActuals, calculateExclusives]
      rw [hcnt, sizeT_mk]
      omega
    · simp only [processNode, calculateActuals, calculateExclusives, pdata_mk]
      exact hid
    · simp only [processNode, calculateActuals, calculateExclusives, idsAll_mk]
      rw [hid, List.cons_append, sizeT_mk, Nat.add_comm 1 (sizeL cs),
        List.range'_succ, List.map_cons]
      exact List.Perm.cons (some k) hperm
  · intro pd k
    refine ⟨rfl, ?_⟩
    simp [processChildren, filterOutCTE, List.range']
  · intro c rest hP hQ pd k
    obtain ⟨hc1, hc2, hc3⟩ := hP (some pd) k
    obtain ⟨hr1, hr2⟩ := hQ pd (processNode (some pd) c k).2.2
    refine ⟨?_, ?_⟩
    · simp only [processChildren]
      rw [hr1, hc1, sizeL_cons]
      omega
    · have hrange : (List.range' k (sizeL (PList.cons c rest))).map some
          = ((List.range' k (sizeT c)).map some)
            ++ ((List.range' (k + sizeT c) (sizeL rest)).map some) := by
        rw [sizeL_cons, Nat.add_comm (sizeT c) (sizeL rest), ← List.range'_append_1,
          List.map_append]
      have hr2' : (idsAllL (filterOutCTE (processChildren rest pd
            (processNode (some pd) c k).2.2).1)
          ++ (processChildren rest pd (processNode (some pd) c k).2.2).2.1.flatMap
            idsAll).Perm
          ((List.range' (k + sizeT c) (sizeL rest)).map some) := by
        rw [← hc1]
        exact hr2
      rw [hrange]
      simp only [processChildren]
      by_cases hcte : isCTE c
      · have hcte2 : isCTE (processNode (some pd) c k).1 = true := by
          rw [isCTE_processNode]
          exact hcte
        simp only [filterOutCTE, hcte2, if_true, hcte, List.flatMap_append,
          List.flatMap_cons, List.flatMap_nil, List.append_nil]
        refine List.Perm.trans (List.perm_append_comm_assoc _ _ _) ?_
        exact List.Perm.append hc3 hr2'
      · have hcte2 : isCTE (processNode (some pd) c k).1 = false := by
          rw [isCTE_processNode]
          exact eq_false_of_ne_true hcte
        simp only [filterOutCTE, hcte2, hcte, Bool.false_eq_true, if_false,
          idsAllL_cons, List.flatMap_append, List.flatMap_nil, List.nil_append,
          List.append_assoc]
        refine List.Perm.trans (List.Perm.append_left (idsAll (processNode
          (some pd) c k).1) (List.perm_append_comm_assoc _ _ _)) ?_
        rw [← List.append_assoc]
        exact List.Perm.append hc3 hr2'

end PlanService


namespace PlanService

open JSV

/-! ### Claim C5 — CTE relocation -/

mutual
/-- No node anywhere in this tree has a CTE child (after enrichment, CTE
children have been removed from every `Plans` list). -/
def goodT : PNode → Bool
  | .mk _ cs => goodL cs
/-- Every member of this `Plans` list is non-CTE and itself CTE-child-free. -/
def goodL : PList → Bool
  | .nil => true
  | .cons c rest => (!isCTE c) && goodT c && goodL rest
end

/-- Every member of this list is CTE-child-free (members themselves may be
CTEs — used for the not-yet-filtered child list). -/
def allGoodT : PList → Bool
  | .nil => true
  | .cons c r => goodT c && allGoodT r

mutual
/-- Number of non-root nodes of the tree satisfying `f`. -/
def countFT (f : PNode → Bool) : PNode → Nat
  | .mk _ cs => countFL f cs
/-- Number of nodes of the forest satisfying `f` (the forest's roots
included). -/
def countFL (f : PNode → Bool) : PList → Nat
  | .nil => 0
  | .cons c rest => ((if f c then 1 else 0) + countFT f c) + countFL f rest
end

@[simp] theorem goodT_mk (d : NodeData) (cs : PList) : goodT (.mk d cs) = goodL cs := rfl

/-- Filtering the CTE members of a list of CTE-child-free trees yields a
`goodL` list. -/
theorem goodL_filterOutCTE :
    ∀ l : PList, allGoodT l = true → goodL (filterOutCTE l) = true := by
  refine PList.forestRec2 (P := fun _ => True)
    (Q := fun l => allGoodT l = true → goodL (filterOutCTE l) = true)
    (fun _ _ _ => trivial) ?_ ?_
  · intro _
    rfl
  · intro c rest _ ih h
    simp only [allGoodT, Bool.and_eq_true] at h
    simp only [filterOutCTE]
    by_cases hc : isCTE c
    · rw [if_pos hc]
      exact ih h.2
    · rw [if_neg hc]
      simp only [goodL, Bool.and_eq_true]
      exact ⟨⟨by simp [hc], h.1⟩, ih h.2⟩

/-- The CTE-relocation master lemma: for any marker `f` that is preserved
by enrichment and implies `isCTE`, the relocated list consists of CTE,
CTE-child-free trees, the output main tree is CTE-child-free, and the
relocated list contains exactly as many `f`-marked roots as the input tree
had `f`-marked non-root nodes. -/
theorem processNode_ctes (f : PNode → Bool)
    (hfpres : ∀ pd? t k, f (processNode pd? t k).1 = f t)
    (hf : ∀ n, f n = true → isCTE n = true) :
    ∀ t : PNode, ∀ pd? k,
      (∀ c ∈ (processNode pd? t k).2.1, isCTE c = true ∧ goodT c = true) ∧
      goodT (processNode pd? t k).1 = true ∧
      ((processNode pd? t k).2.1.countP f) = countFT f t := by
  refine PNode.rec2 (Q := fun l => ∀ pd k,
      (∀ c ∈ (processChildren l pd k).2.1, isCTE c = true ∧ goodT c = true) ∧
      allGoodT (processChildren l pd k).1 = true ∧
      ((processChildren l pd k).2.1.countP f) = countFL f l) ?_ ?_ ?_
  · intro d cs hQ pd? k
    obtain ⟨q1, q2, q3⟩ := hQ (calculatePlannerEstimate
      { (match pd? with | some pd => propagateD pd d | Option.none => d) with
          nodeId := some k }) (k + 1)
    refine ⟨?_, ?_, ?_⟩
    · intro c hc
      exact q1 c hc
    · simp only [processNode, calculateActuals, calculateExclusives, goodT_mk]
      exact goodL_filterOutCTE _ q2
    · simpa only [processNode, calculateActuals, calculateExclusives,
        countFT] using q3
  · intro pd k
    exact ⟨(fun c hc => by cases hc), rfl, rfl⟩
  · intro c rest hP hQ pd k
    obtain ⟨p1, p2, p3⟩ := hP (some pd) k
    obtain ⟨r1, r2, r3⟩ := hQ pd (processNode (some pd) c k).2.2
    refine ⟨?_, ?_, ?_⟩
    · intro x hx
      simp only [processChildren, List.mem_append] at hx
      rcases hx with (hx | hx) | hx
      · by_cases hcte : isCTE c
        · rw [if_pos hcte] at hx
          rcases List.mem_cons.mp hx with h | h
          · subst h
            refine ⟨?_, p2⟩
            rw [isCTE_processNode]
            exact hcte
          · cases h
        · rw [if_neg hcte] at hx
          cases hx
      · exact p1 x hx
      · exact r1 x hx
    · simp only [processChildren, allGoodT, Bool.and_eq_true]
      exact ⟨p2, r2⟩
    · simp only [processChildren, List.countP_append, countFL]
      by_cases hcte : isCTE c
      · rw [if_pos hcte]
        simp only [List.countP_cons, List.countP_nil, Nat.zero_add]
        rw [hfpres (some pd) c k, p3, r3]
      · rw [if_neg hcte]
        have hfc : f c = false := by
          by_contra hcon
          rw [Bool.not_eq_false] at hcon
          exact hcte (hf c hcon)
        rw [List.countP_nil, p3, r3, hfc]
        simp

/-- The marker of claim C5: parent relationship `InitPlan` and a subplan
name starting with `"CTE "` (with the trailing space, as the claim
words it; the source's `isCTE` uses the broader prefix `"CTE"`). -/
def cteMarked (n : PNode) : Bool :=
  (pdata n).parentRelationship = some "InitPlan" &&
    (match (pdata n).subplanName with
     | some s => jsStartsWith s "CTE "
     | Option.none => false)

/-- Enrichment preserves `cteMarked` of the root. -/
theorem cteMarked_processNode (pd? : Option NodeData) (t : PNode) (k : Nat) :
    cteMarked (processNode pd? t k).1 = cteMarked t := by
  obtain ⟨h1, h2⟩ := processNode_root_rel pd? t k
  simp [cteMarked, h1, h2]

/-- A `"CTE "`-marked node is a CTE node in the source's sense. -/
theorem cteMarked_isCTE (n : PNode) (h : cteMarked n = true) : isCTE n = true := by
  simp only [cteMarked, Bool.and_eq_true, decide_eq_true_eq] at h
  simp only [isCTE, isCTEd, Bool.and_eq_true, decide_eq_true_eq]
  refine ⟨h.1, ?_⟩
  obtain ⟨-, h2⟩ := h
  cases hs : (pdata n).subplanName with
  | none => rw [hs] at h2; cases h2
  | some str =>
    rw [hs] at h2
    simp only [jsStartsWith, List.isPrefixOf_iff_prefix] at h2 ⊢
    exact List.IsPrefix.trans (by decide) h2

/-- Claim C5, amended.  After enrichment (a) no node has any CTE child
left — in particular no *non-root* node reachable from the main tree (or
inside a relocated subtree) has `parent_relationship = InitPlan` with a
`"CTE "`-prefixed subplan name; (b) every relocated entry is a CTE node
with no CTE children of its own; (c) the relocated list holds exactly as
many `"CTE "`-marked roots as the input tree had `"CTE "`-marked non-root
nodes — each such node is moved exactly once.  The original claim's "no
node reachable from content.Plan" fails for a root that itself carries the
CTE properties (see `C5_counterexample`): the root is never relocated. -/
theorem C5_cte_relocation :
    ∀ t : PNode,
      goodT (enrichPlan t).1 = true ∧
      ((enrichPlan t).2.1.Forall (fun c => isCTE c = true ∧ goodT c = true)) ∧
      (enrichPlan t).2.1.countP cteMarked = countFT cteMarked t := by
  intro t
  obtain ⟨h1, h2, h3⟩ := processNode_ctes cteMarked cteMarked_processNode
    cteMarked_isCTE t Option.none 1
  refine ⟨h2, ?_, h3⟩
  rw [List.forall_iff_forall_mem]
  exact h1

/-- A root node that itself carries the CTE marking. -/
def c5root : PNode :=
  PNode.mk { parentRelationship := some "InitPlan", subplanName := some "CTE x" }
    PList.nil

/-- Claim C5 as stated is false for a plan whose *root* carries
`parent_relationship = InitPlan` and a `"CTE "`-prefixed subplan name
(expressible through the JSON path): after enrichment the root is still
reachable from `content.Plan` with those properties, and `plan.ctes` is
empty — the node does not appear in it at all. -/
theorem C5_counterexample :
    cteMarked (enrichPlan c5root).1 = true ∧
    (pdata (enrichPlan c5root).1).parentRelationship = some "InitPlan" ∧
    (pdata (enrichPlan c5root).1).subplanName = some "CTE x" ∧
    (enrichPlan c5root).2.1 = [] := by
  refine ⟨by decide, by decide, by decide, rfl⟩

end PlanService

/-! ## `cleanupSource` (plan-service.ts, lines 223–258)

The eleven regex replacements are modelled over `List Char`.  Each JS
`replace` scans the original string left to right; a global one continues
after each match, a non-global one stops at the first.  `^`-anchored
patterns (flag `m`) only match at the start of the input or right after a
`'\n'`, which the scanner tracks with a line-start flag.  A matcher takes
the current suffix and the flag and returns `(n, replacement)` when the
pattern matches right here, consuming `n + 1` characters. -/

namespace Cleanup

/-- The characters of `String.data`. -/
abbrev Chars := List Char

/-- JS `\s` (the ASCII part, which is all the source's inputs use). -/
def isWS (c : Char) : Bool :=
  c = ' ' || c = '\t' || c = '\n' || c = '\r' || c = '\x0b' || c = '\x0c'

/-- One global-replace scan (`String.replace` with flag `g`): at each
position try the matcher; on a match emit the replacement and continue
after the consumed characters, otherwise keep the character.  The fuel is
the string length (every step consumes at least one character). -/
def greplaceF (m : Chars → Bool → Option (Nat × Chars)) : Nat → Chars → Bool → Chars
  | 0, s, _ => s
  | _ + 1, [], _ => []
  | fuel + 1, c :: rest, ls =>
    match m (c :: rest) ls with
    | some (n, repl) =>
        repl ++ greplaceF m fuel ((c :: rest).drop (n + 1)) ((c :: rest)[n]? == some '\n')
    | Option.none => c :: greplaceF m fuel rest (c == '\n')

/-- Global replace over a whole string (line-start holds at position 0). -/
def greplace (m : Chars → Bool → Option (Nat × Chars)) (s : Chars) : Chars :=
  greplaceF m s.length s true

/-- First-match-only replace (`String.replace` without flag `g`). -/
def greplaceOnceF (m : Chars → Bool → Option (Nat × Chars)) : Nat → Chars → Bool → Chars
  | 0, s, _ => s
  | _ + 1, [], _ => []
  | fuel + 1, c :: rest, ls =>
    match m (c :: rest) ls with
    | some (n, repl) => repl ++ (c :: rest).drop (n + 1)
    | Option.none => c :: greplaceOnceF m fuel rest (c == '\n')

/-- First-match-only replace over a whole string. -/
def greplaceOnce (m : Chars → Bool → Option (Nat × Chars)) (s : Chars) : Chars :=
  greplaceOnceF m s.length s true

/-- Matcher for `^(X)(.*)\1\r?\n` → `'$2\n'` with `X` one of `frames`
(passes 1 and 7: frame and quote stripping).  `.` does not cross `'\n'`,
`(.*)` is greedy, and the matched `\r` (if any) is dropped by the
replacement. -/
def frameMatcher (frames : List Char) (s : Chars) (ls : Bool) : Option (Nat × Chars) :=
  if ls then
    match s with
    | [] => Option.none
    | c :: rest =>
      if c ∈ frames then
        let body := rest.takeWhile (· != '\n')
        match rest.drop body.length with
        | '\n' :: _ =>
          if body ≠ [] ∧ body.getLast? = some c then
            some (body.length + 1, body.dropLast ++ ['\n'])
          else if 2 ≤ body.length ∧ body.getLast? = some '\r'
              ∧ body.dropLast.getLast? = some c then
            some (body.length + 1, body.dropLast.dropLast ++ ['\n'])
          else Option.none
        | _ => Option.none
      else Option.none
  else Option.none

/-- Matcher for a whole-line deletion pattern `^<shape>\r?\n` → `''`
(passes 2–6).  `check` receives the line body with one trailing `'\r'`
stripped (the pattern's `\r?`); the shape checks below all require a
specific first character, exposed here as `c :: core`. -/
def lineDeleteMatcher (check : Char → Chars → Bool) (s : Chars) (ls : Bool) :
    Option (Nat × Chars) :=
  if ls then
    match s with
    | [] => Option.none
    | c :: rest =>
      let body := rest.takeWhile (· != '\n')
      match rest.drop body.length with
      | '\n' :: _ =>
        let core := if body.getLast? = some '\r' then body.dropLast else body
        if check c core then some (body.length + 1, []) else Option.none
      | _ => Option.none
  else Option.none

/-- `^\+-+\+\r?\n` (passes 2 and 5): `'+'`, one or more `'-'`, `'+'`. -/
def plusRuleCheck (c : Char) (core : Chars) : Bool :=
  c = '+' && core.getLast? = some '+' && core.dropLast ≠ [] && core.dropLast.all (· = '-')

/-- `^(-|─|═)\1+\r?\n` (pass 3): one dash character repeated at least twice. -/
def dashRuleCheck (c : Char) (core : Chars) : Bool :=
  (c = '-' || c = '─' || c = '═') && core ≠ [] && core.all (· = c)

/-- `^(├|╟|╠|╞)(─|═)\2*(┤|╢|╣|╡)\r?\n` (pass 4). -/
def midRuleCheck (c : Char) (core : Chars) : Bool :=
  (c = '├' || c = '╟' || c = '╠' || c = '╞') &&
    (match core.getLast? with
     | some t => t = '┤' || t = '╢' || t = '╣' || t = '╡'
     | Option.none => false) &&
    (match core.dropLast with
     | [] => false
     | f :: fs => (f = '─' || f = '═') && fs.all (· = f))

/-- One of `^└(─)+┘`, `^╚(═)+╝`, `^┌(─)+┐`, `^╔(═)+╗` (each followed by
`\r?\n`; pass 6 is four separate replaces, one per shape). -/
def boxRuleCheck (lc fill rc : Char) (c : Char) (core : Chars) : Bool :=
  c = lc && core.getLast? = some rc && core.dropLast ≠ [] && core.dropLast.all (· = fill)

/-- `\s*\+\r?\n` → `'\n'` (pass 8), not line-anchored; `\s*` may cross
newlines.  Only the maximal whitespace run can precede the `'+'`. -/
def plusContinuationMatcher (s : Chars) (_ : Bool) : Option (Nat × Chars) :=
  let w := (s.takeWhile isWS).length
  match s.drop w with
  | c :: rest =>
    if c = '+' then
      match rest with
      | '\n' :: _ => some (w + 1, ['\n'])
      | '\r' :: '\n' :: _ => some (w + 2, ['\n'])
      | _ => Option.none
    else Option.none
  | [] => Option.none

/-- `↵\r?` → `'\n'` (pass 9). -/
def arrowMatcher (s : Chars) (_ : Bool) : Option (Nat × Chars) :=
  match s with
  | c :: rest =>
    if c = '↵' then
      match rest with
      | '\r' :: _ => some (1, ['\n'])
      | _ => some (0, ['\n'])
    else Option.none
  | [] => Option.none

/-- Index of the last `'\n'` in a list, if any. -/
def lastNewlinePos (l : Chars) : Option Nat :=
  match l with
  | [] => Option.none
  | c :: rest =>
    match lastNewlinePos rest with
    | some j => some (j + 1)
    | Option.none => if c = '\n' then some 0 else Option.none

/-- `^\s*QUERY PLAN\s*\r?\n` → `''` (pass 10, first match only).  Both
`\s*` may cross newlines; the greedy trailing `\s*` backtracks so the
match ends at the last `'\n'` of the trailing whitespace run. -/
def queryPlanMatcher (s : Chars) (ls : Bool) : Option (Nat × Chars) :=
  if ls then
    let w := (s.takeWhile isWS).length
    let t := s.drop w
    if "QUERY PLAN".data.isPrefixOf t then
      let post := (t.drop 10).takeWhile isWS
      match lastNewlinePos post with
      | some j => some (w + 10 + j, [])
      | Option.none => Option.none
    else Option.none
  else Option.none

/-- `[a-z]`. -/
def isLowerAZ (c : Char) : Bool := 'a' ≤ c && c ≤ 'z'

/-- `^\(\d+\s+[a-z]*s?\)(\r?\n|$)` → `'\n'` (pass 11): the locale-aware
row-count footer, e.g. `(8 rows)` / `(8 lignes)`. -/
def rowcountMatcher (s : Chars) (ls : Bool) : Option (Nat × Chars) :=
  if ls then
    match s with
    | c0 :: rest =>
      if c0 = '(' then
      let ds := rest.takeWhile Char.isDigit
      if ds = [] then Option.none else
      let r1 := rest.drop ds.length
      let ws := r1.takeWhile isWS
      if ws = [] then Option.none else
      let r2 := r1.drop ws.length
      let lets := r2.takeWhile isLowerAZ
      match r2.drop lets.length with
      | ')' :: r4 =>
        let core := 1 + ds.length + ws.length + lets.length + 1
        match r4 with
        | '\n' :: _ => some (core, ['\n'])
        | '\r' :: '\n' :: _ => some (core + 1, ['\n'])
        | [] => some (core - 1, ['\n'])
        | _ => Option.none
      | _ => Option.none
      else Option.none
    | [] => Option.none
  else Option.none

/-- `cleanupSource` (plan-service.ts, lines 223–258): the eleven
replacements, in source order. -/
def cleanupChars (s : Chars) : Chars :=
  let s1 := greplace (frameMatcher ['|', '║', '│']) s
  let s2 := greplace (lineDeleteMatcher plusRuleCheck) s1
  let s3 := greplace (lineDeleteMatcher dashRuleCheck) s2
  let s4 := greplace (lineDeleteMatcher midRuleCheck) s3
  let s5 := greplace (lineDeleteMatcher plusRuleCheck) s4
  let s6a := greplace (lineDeleteMatcher (boxRuleCheck '└' '─' '┘')) s5
  let s6b := greplace (lineDeleteMatcher (boxRuleCheck '╚' '═' '╝')) s6a
  let s6c := greplace (lineDeleteMatcher (boxRuleCheck '┌' '─' '┐')) s6b
  let s6d := greplace (lineDeleteMatcher (boxRuleCheck '╔' '═' '╗')) s6c
  let s7 := greplace (frameMatcher ['"', '\'']) s6d
  let s8 := greplace plusContinuationMatcher s7
  let s9 := greplace arrowMatcher s8
  let s10 := greplaceOnce queryPlanMatcher s9
  greplace rowcountMatcher s10

/-- `cleanupSource` on `String`. -/
def cleanupSource (s : String) : String := String.mk (cleanupChars s.data)

end Cleanup

namespace Cleanup

/-! ### Claim C4 — idempotence of `cleanupSource` -/

/-- A scan whose matcher never fires on any suffix is the identity. -/
theorem greplaceF_id (m : Chars → Bool → Option (Nat × Chars)) :
    ∀ fuel (s : Chars) ls,
      (∀ s1 ls1, s1 <:+ s → m s1 ls1 = Option.none) →
      greplaceF m fuel s ls = s := by
  intro fuel
  induction fuel with
  | zero => intro s ls _; rfl
  | succ n ih =>
    intro s ls h
    match s with
    | [] => rfl
    | c :: rest =>
      rw [greplaceF, h (c :: rest) ls (List.suffix_refl _)]
      rw [ih rest (c == '\n') (fun s1 ls1 hs => h s1 ls1 (hs.trans (List.suffix_cons c rest)))]

/-- Same for the first-match-only scan. -/
theorem greplaceOnceF_id (m : Chars → Bool → Option (Nat × Chars)) :
    ∀ fuel (s : Chars) ls,
      (∀ s1 ls1, s1 <:+ s → m s1 ls1 = Option.none) →
      greplaceOnceF m fuel s ls = s := by
  intro fuel
  induction fuel with
  | zero => intro s ls _; rfl
  | succ n ih =>
    intro s ls h
    match s with
    | [] => rfl
    | c :: rest =>
      rw [greplaceOnceF, h (c :: rest) ls (List.suffix_refl _)]
      rw [ih rest (c == '\n') (fun s1 ls1 hs => h s1 ls1 (hs.trans (List.suffix_cons c rest)))]

/-- If a matcher only fires in the presence of one of the characters `TR`,
and none occurs in `s`, the global replace is the identity on `s`. -/
theorem greplace_id_of (m : Chars → Bool → Option (Nat × Chars)) (TR : Chars) (s : Chars)
    (htr : ∀ s1 ls1 x, m s1 ls1 = some x → ∃ c, c ∈ TR ∧ c ∈ s1)
    (hben : ∀ c, c ∈ TR → c ∉ s) :
    greplace m s = s := by
  apply greplaceF_id
  intro s1 ls1 hs
  cases hx : m s1 ls1 with
  | none => rfl
  | some x =>
    obtain ⟨c, hcT, hcs⟩ := htr s1 ls1 x hx
    exact absurd (hs.subset hcs) (hben c hcT)

/-- Same for the first-match-only replace. -/
theorem greplaceOnce_id_of (m : Chars → Bool → Option (Nat × Chars)) (TR : Chars) (s : Chars)
    (htr : ∀ s1 ls1 x, m s1 ls1 = some x → ∃ c, c ∈ TR ∧ c ∈ s1)
    (hben : ∀ c, c ∈ TR → c ∉ s) :
    greplaceOnce m s = s := by
  apply greplaceOnceF_id
  intro s1 ls1 hs
  cases hx : m s1 ls1 with
  | none => rfl
  | some x =>
    obtain ⟨c, hcT, hcs⟩ := htr s1 ls1 x hx
    exact absurd (hs.subset hcs) (hben c hcT)

/-- `frameMatcher` only fires when the suffix starts with a frame char. -/
theorem frameMatcher_trigger (frames : List Char) (s : Chars) (ls : Bool)
    (x : Nat × Chars) (h : frameMatcher frames s ls = some x) :
    ∃ c, c ∈ frames ∧ c ∈ s := by
  cases s with
  | nil => simp [frameMatcher] at h
  | cons c rest =>
    refine ⟨c, ?_, List.mem_cons_self c rest⟩
    by_cases hc : c ∈ frames
    · exact hc
    · simp [frameMatcher, hc] at h

/-- `lineDeleteMatcher check` only fires when the suffix starts with a
character accepted by `check`. -/
theorem lineDelete_trigger_of (check : Char → Chars → Bool) (HEADS : Chars)
    (hch : ∀ c core, check c core = true → c ∈ HEADS) :
    ∀ s ls x, lineDeleteMatcher check s ls = some x → ∃ c, c ∈ HEADS ∧ c ∈ s := by
  intro s ls x h
  cases s with
  | nil => simp [lineDeleteMatcher] at h
  | cons c rest =>
    refine ⟨c, ?_, List.mem_cons_self c rest⟩
    by_cases hc : c ∈ HEADS
    · exact hc
    · exfalso
      have hfalse : ∀ core, check c core = false := by
        intro core
        cases hcc : check c core with
        | false => rfl
        | true => exact absurd (hch c core hcc) hc
      rw [lineDeleteMatcher] at h
      split at h
      · dsimp only at h
        split at h
        · rw [hfalse] at h
          simp at h
        · exact Option.noConfusion h
      · exact Option.noConfusion h

/-- `plusContinuationMatcher` only fires in the presence of a `'+'`. -/
theorem plusContinuation_trigger (s : Chars) (ls : Bool) (x : Nat × Chars)
    (h : plusContinuationMatcher s ls = some x) : ∃ c, c ∈ ['+'] ∧ c ∈ s := by
  refine ⟨'+', List.mem_cons_self _ _, ?_⟩
  rw [plusContinuationMatcher] at h
  split at h
  · rename_i c tail heq
    split at h
    · rename_i hc
      refine List.mem_of_mem_drop (n := (s.takeWhile isWS).length) ?_
      rw [heq, ← hc]
      exact List.mem_cons_self _ _
    · exact Option.noConfusion h
  · exact Option.noConfusion h

/-- `arrowMatcher` only fires in the presence of a `'↵'`. -/
theorem arrow_trigger (s : Chars) (ls : Bool) (x : Nat × Chars)
    (h : arrowMatcher s ls = some x) : ∃ c, c ∈ ['↵'] ∧ c ∈ s := by
  refine ⟨'↵', List.mem_cons_self _ _, ?_⟩
  cases s with
  | nil => simp [arrowMatcher] at h
  | cons c rest =>
    by_cases hc : c = '↵'
    · rw [← hc]
      exact List.mem_cons_self _ _
    · simp [arrowMatcher, hc] at h

/-- `queryPlanMatcher` only fires in the presence of a `'Q'`. -/
theorem queryPlan_trigger (s : Chars) (ls : Bool) (x : Nat × Chars)
    (h : queryPlanMatcher s ls = some x) : ∃ c, c ∈ ['Q'] ∧ c ∈ s := by
  refine ⟨'Q', List.mem_cons_self _ _, ?_⟩
  rw [queryPlanMatcher] at h
  split at h
  · by_cases hpre : "QUERY PLAN".data.isPrefixOf (s.drop (s.takeWhile isWS).length) = true
    · obtain ⟨t2, ht⟩ := List.isPrefixOf_iff_prefix.mp hpre
      refine List.mem_of_mem_drop (n := (s.takeWhile isWS).length) ?_
      rw [← ht]
      exact List.mem_append_left _ (by decide)
    · rw [if_neg (by simpa using hpre)] at h
      exact Option.noConfusion h
  · exact Option.noConfusion h

/-- `rowcountMatcher` only fires in the presence of a `'('`. -/
theorem rowcount_trigger (s : Chars) (ls : Bool) (x : Nat × Chars)
    (h : rowcountMatcher s ls = some x) : ∃ c, c ∈ ['('] ∧ c ∈ s := by
  refine ⟨'(', List.mem_cons_self _ _, ?_⟩
  cases s with
  | nil => simp [rowcountMatcher] at h
  | cons c rest =>
    by_cases hc : c = '('
    · rw [← hc]
      exact List.mem_cons_self _ _
    · exfalso
      rw [rowcountMatcher] at h
      split at h
      · exact Option.noConfusion h
      · exact Option.noConfusion h

/-- Head of `plusRuleCheck`. -/
theorem plusRuleCheck_head (c : Char) (core : Chars) (h : plusRuleCheck c core = true) :
    c ∈ ['+'] := by
  simp only [plusRuleCheck, Bool.and_eq_true, decide_eq_true_eq] at h
  simp [h.1.1.1]

/-- Head of `dashRuleCheck`. -/
theorem dashRuleCheck_head (c : Char) (core : Chars) (h : dashRuleCheck c core = true) :
    c ∈ ['-', '─', '═'] := by
  simp only [dashRuleCheck, Bool.and_eq_true, Bool.or_eq_true, decide_eq_true_eq] at h
  rcases h.1.1 with (h1 | h1) | h1 <;> simp [h1]

/-- Head of `midRuleCheck`. -/
theorem midRuleCheck_head (c : Char) (core : Chars) (h : midRuleCheck c core = true) :
    c ∈ ['├', '╟', '╠', '╞'] := by
  simp only [midRuleCheck, Bool.and_eq_true, Bool.or_eq_true, decide_eq_true_eq] at h
  rcases h.1.1 with ((h1 | h1) | h1) | h1 <;> simp [h1]

/-- Head of `boxRuleCheck`. -/
theorem boxRuleCheck_head (lc fill rc : Char) (c : Char) (core : Chars)
    (h : boxRuleCheck lc fill rc c core = true) : c ∈ [lc] := by
  simp only [boxRuleCheck, Bool.and_eq_true, decide_eq_true_eq] at h
  simp [h.1.1.1]

/-- The characters that can trigger any of the eleven replacements. -/
def benignChar (c : Char) : Bool :=
  !(c ∈ ['|', '║', '│', '"', '\'', '+', '-', '─', '═', '├', '╟', '╠', '╞',
         '└', '╚', '┌', '╔', '↵', 'Q', '('])

/-- On a source containing none of the trigger characters, every pass of
`cleanupChars` is the identity. -/
theorem cleanup_id (s : Chars) (h : s.all benignChar = true) : cleanupChars s = s := by
  have hnot : ∀ (TR : Chars), TR.all (fun c => !benignChar c) = true → ∀ c ∈ TR, c ∉ s := by
    intro TR hTR c hc hmem
    have h1 := List.all_eq_true.mp h c hmem
    have h2 := List.all_eq_true.mp hTR c hc
    rw [h1] at h2
    cases h2
  have e1 := greplace_id_of (frameMatcher ['|', '║', '│']) ['|', '║', '│'] s
    (frameMatcher_trigger _) (hnot _ (by decide))
  have e2 := greplace_id_of (lineDeleteMatcher plusRuleCheck) ['+'] s
    (lineDelete_trigger_of _ _ plusRuleCheck_head) (hnot _ (by decide))
  have e3 := greplace_id_of (lineDeleteMatcher dashRuleCheck) ['-', '─', '═'] s
    (lineDelete_trigger_of _ _ dashRuleCheck_head) (hnot _ (by decide))
  have e4 := greplace_id_of (lineDeleteMatcher midRuleCheck) ['├', '╟', '╠', '╞'] s
    (lineDelete_trigger_of _ _ midRuleCheck_head) (hnot _ (by decide))
  have e6a := greplace_id_of (lineDeleteMatcher (boxRuleCheck '└' '─' '┘')) ['└'] s
    (lineDelete_trigger_of _ _ (boxRuleCheck_head '└' '─' '┘')) (hnot _ (by decide))
  have e6b := greplace_id_of (lineDeleteMatcher (boxRuleCheck '╚' '═' '╝')) ['╚'] s
    (lineDelete_trigger_of _ _ (boxRuleCheck_head '╚' '═' '╝')) (hnot _ (by decide))
  have e6c := greplace_id_of (lineDeleteMatcher (boxRuleCheck '┌' '─' '┐')) ['┌'] s
    (lineDelete_trigger_of _ _ (boxRuleCheck_head '┌' '─' '┐')) (hnot _ (by decide))
  have e6d := greplace_id_of (lineDeleteMatcher (boxRuleCheck '╔' '═' '╗')) ['╔'] s
    (lineDelete_trigger_of _ _ (boxRuleCheck_head '╔' '═' '╗')) (hnot _ (by decide))
  have e7 := greplace_id_of (frameMatcher ['"', '\'']) ['"', '\''] s
    (frameMatcher_trigger _) (hnot _ (by decide))
  have e8 := greplace_id_of plusContinuationMatcher ['+'] s
    plusContinuation_trigger (hnot _ (by decide))
  have e9 := greplace_id_of arrowMatcher ['↵'] s
    arrow_trigger (hnot _ (by decide))
  have e10 := greplaceOnce_id_of queryPlanMatcher ['Q'] s
    queryPlan_trigger (hnot _ (by decide))
  have e11 := greplace_id_of rowcountMatcher ['('] s
    rowcount_trigger (hnot _ (by decide))
  simp only [cleanupChars, e1, e2, e3, e4, e6a, e6b, e6c, e6d, e7, e8, e9, e10, e11]

/-- The doubly quoted line `""x""` followed by a newline. -/
def c4input : Chars := '"' :: '"' :: 'x' :: '"' :: '"' :: '\n' :: []

/-- Claim C4 states `cleanup(cleanup(s)) = cleanup(s)` for every string.
On `""x""\n` the first pass strips one pair of quotes (giving `"x"\n`),
and a second pass strips the next pair (giving `x\n`): cleanup is not
idempotent. -/
theorem C4_counterexample :
    cleanupChars c4input = '"' :: 'x' :: '"' :: '\n' :: [] ∧
    cleanupChars (cleanupChars c4input) = 'x' :: '\n' :: [] ∧
    cleanupChars (cleanupChars c4input) ≠ cleanupChars c4input := by
  refine ⟨by decide, by decide, by decide⟩

/-- Claim C4, amended: `cleanup_source` is idempotent on sources that
contain none of the characters that can trigger a replacement
(`| ║ │ " ' + - ─ ═ ├ ╟ ╠ ╞ └ ╚ ┌ ╔ ↵ Q (`) — on those a single pass is
already the identity.  In general it is not idempotent: each pass strips
one layer of framing or quoting, so doubly framed or quoted lines (and
repeated `QUERY PLAN` headers, stacked `+` continuations, …) keep
changing on the second pass, as `C4_counterexample` shows. -/
theorem C4_cleanup_idempotent (s : Chars) (h : s.all benignChar = true) :
    cleanupChars (cleanupChars s) = cleanupChars s := by
  rw [cleanup_id s h, cleanup_id s h]

/-- Witness for `C4_cleanup_idempotent` on a plan-like line. -/
theorem C4_cleanup_idempotent_witness :
    ("Seq Scan on t\n".data.all benignChar = true) ∧
    cleanupChars (cleanupChars "Seq Scan on t\n".data) = cleanupChars "Seq Scan on t\n".data :=
  ⟨by decide, C4_cleanup_idempotent _ (by decide)⟩

end Cleanup

/-! ## Claim C6 — the tolerant JSON parser (`parseJson`, plan-service.ts:316-376) -/

namespace JsonP

mutual
/-- JSON values as JavaScript builds them: `null`, booleans, numbers,
strings, arrays, and objects given as insertion-ordered key/value lists.
The same type serves as input *document* (where an object's key list may
contain duplicate keys — what the tolerant parser exists for) and as the
parser's output (where the machine never inserts a key twice).  The list
types are part of the mutual inductive so that all recursions below are
structural and kernel-reducible. -/
inductive J where
  | null : J
  | bool (b : Bool) : J
  | num (q : ℚ) : J
  | str (s : String) : J
  | arr (xs : JArr) : J
  | obj (kvs : JObj) : J

/-- Array element lists. -/
inductive JArr where
  | nil : JArr
  | cons (v : J) (rest : JArr) : JArr

/-- Object key/value binding lists (insertion order, duplicates allowed). -/
inductive JObj where
  | nil : JObj
  | cons (k : String) (v : J) (rest : JObj) : JObj
end

end JsonP

deriving instance DecidableEq for JsonP.J, JsonP.JArr, JsonP.JObj

namespace JsonP

/-- `xs.push(v)`: append one element at the end of an array. -/
def jarrAppend : JArr → J → JArr
  | .nil, v => .cons v .nil
  | .cons x r, v => .cons x (jarrAppend r v)

/-- `keys.indexOf(key) !== -1`: does the object have a binding for `k`? -/
def objHasKey (k : String) : JObj → Bool
  | .nil => false
  | .cons k' _ r => k' == k || objHasKey k r

/-- `current[key]`: the value stored under `k` (first binding wins; the
machine never stores a key twice). -/
def objGet (k : String) : JObj → Option J
  | .nil => Option.none
  | .cons k' v r => if k' == k then some v else objGet k r

/-- `current[key] = v` when the key is already present: replace the value
at the first binding of `k`, keeping its position. -/
def objSet (k : String) (v : J) : JObj → JObj
  | .nil => .nil
  | .cons k' v' r => if k' == k then .cons k' v r else .cons k' v' (objSet k v r)

/-- `current[key] = v` when the key is absent: append a new binding. -/
def objAppend (d : JObj) (k : String) (v : J) : JObj
  := match d with
  | .nil => .cons k v .nil
  | .cons k' v' r => .cons k' v' (objAppend r k v)

/-- `const lastKey = keys[keys.length - 1]; current[lastKey] = v`
(how `onvalue`/close attach under the most recently added key).  On an
object with no keys, `lastKey` is `undefined` and JavaScript creates the
property `"undefined"` (never reached by the machine: pushed objects
always carry a first key). -/
def objSetLast (v : J) : JObj → JObj
  | .nil => .cons "undefined" v .nil
  | .cons k v0 r =>
    match r with
    | .nil => .cons k v .nil
    | .cons a b c => .cons k v0 (objSetLast v (.cons a b c))

mutual
/-- lodash `_.merge(d, s)` on the fragment `parseJson` exercises: two
objects merge recursively key by key (`s`'s bindings updated in place when
the key exists in `d`, appended otherwise), two arrays merge element-wise
by index, and in any nested mixed case the source value overwrites the
destination.  (lodash's folding of array indices into an object when the
two sides are a mixed object/array pair is not modelled; no theorem below
exercises a mixed pair, and `jmergeTop` guards the primitive-destination
top-level call.) -/
def jmerge : J → J → J
  | .obj d, .obj s => .obj (jmergeObj d s)
  | .arr d, .arr s => .arr (jmergeArr d s)
  | _, s => s

/-- Object part of `_.merge`: fold the source bindings into the
destination in order. -/
def jmergeObj : JObj → JObj → JObj
  | d, .nil => d
  | d, .cons k sv r =>
    jmergeObj
      (match objGet k d with
        | some dv => objSet k (jmerge dv sv) d
        | Option.none => objAppend d k sv) r

/-- Array part of `_.merge`: element-wise by index, extra source elements
appended, extra destination elements kept. -/
def jmergeArr : JArr → JArr → JArr
  | d, .nil => d
  | .nil, .cons sv r => .cons sv r
  | .cons dv dr, .cons sv sr => .cons (jmerge dv sv) (jmergeArr dr sr)
end

/-- `_.merge(duplicated[1], popped)` mutates its first argument and the
result is never stored back, so when the stored value is a primitive the
merge has no observable effect: only a container destination is really
merged. -/
def jmergeTop (d s : J) : J :=
  match d with
  | .obj _ => jmerge d s
  | .arr _ => jmerge d s
  | _ => d

/-- The clarinet events `parseJson` subscribes to.  `openObj` carries the
first key (clarinet's `onopenobject`), `Option.none` for `{}` where the
callback receives `undefined`; `scalar` is `onvalue`, which clarinet only
fires for primitive values. -/
inductive JEv where
  | openObj (k : Option String) : JEv
  | key (k : String) : JEv
  | scalar (v : J) : JEv
  | openArr : JEv
  | close : JEv

mutual
/-- The event stream clarinet produces for a document. -/
def evD : J → List JEv
  | .null => [.scalar .null]
  | .bool b => [.scalar (.bool b)]
  | .num q => [.scalar (.num q)]
  | .str s => [.scalar (.str s)]
  | .arr xs => .openArr :: (evA xs ++ [.close])
  | .obj kvs => evObj kvs

/-- Events of an object: `onopenobject` already consumes the first key. -/
def evObj : JObj → List JEv
  | .nil => .openObj Option.none :: [.close]
  | .cons k v r => .openObj (some k) :: (evD v ++ (evO r ++ [.close]))

/-- Events of the bindings after the first one: `onkey` then the value. -/
def evO : JObj → List JEv
  | .nil => []
  | .cons k v r => .key k :: (evD v ++ evO r)

/-- Events of array elements. -/
def evA : JArr → List JEv
  | .nil => []
  | .cons v r => evD v ++ evA r
end

/-- The state of `parseJson`'s handlers: the `elements` stack (head = top),
the `duplicated` marker, the captured `root`, and an error flag for the
states where the JavaScript handlers would throw (never reached on
document streams).  JavaScript stores the marker as
`[elements.length - 1, current[key]]` — a *reference* to the first
occurrence's value; here it is modelled as the pair (level, key), and the
value is looked up at merge time.  On streams generated from documents the
two coincide: between the marking `onkey` and the close that consumes the
marker, the binding of that key at that level is never replaced by a
container, so looking it up yields the value the reference holds (and when
the marker outlives its object, both the reference mutation and the lookup
merge are observably lost). -/
structure MSt where
  elements : List J
  duplicated : Option (Nat × String)
  root : Option J
  err : Bool

/-- `onvalue` / the non-merge half of close: attach `v` to the parent
container — `push` onto an array, store under the last key of an object,
and a silent no-op when the parent is a primitive (property writes on
primitives do nothing). -/
def attach1 (v : J) (current : J) : J :=
  match current with
  | .arr xs => .arr (jarrAppend xs v)
  | .obj kvs => .obj (objSetLast v kvs)
  | c => c

/-- One clarinet event, as handled by `parseJson` (plan-service.ts:316-369).
`openObj`/`openArr` push a fresh container (`o[key] = null` for the first
key); `key` marks a duplicate (`duplicated = [elements.length-1, current[key]]`)
or adds the key with value `null`; `scalar` attaches to the top; `close`
pops, captures `root` when the stack empties, merges into the marked
binding when the marker matches the exposed level (discarding the popped
value, clearing the marker), and otherwise attaches the popped value. -/
def step (st : MSt) (e : JEv) : MSt :=
  if st.err then st else
  match e with
  | .openObj k? =>
    { st with elements := .obj (.cons (k?.getD "undefined") .null .nil) :: st.elements }
  | .openArr => { st with elements := .arr .nil :: st.elements }
  | .key k =>
    match st.elements with
    | .obj kvs :: rest =>
      if objHasKey k kvs then { st with duplicated := some (rest.length, k) }
      else { st with elements := .obj (objAppend kvs k .null) :: rest }
    | _ :: _ => { st with err := true }
    | [] => { st with err := true }
  | .scalar v =>
    match st.elements with
    | current :: rest => { st with elements := attach1 v current :: rest }
    | [] => { st with err := true }
  | .close =>
    match st.elements with
    | popped :: rest =>
      match rest with
      | [] => { st with elements := [], root := some popped }
      | current :: rest2 =>
        match st.duplicated with
        | some (l, k) =>
          if l = rest2.length then
            match current with
            | .obj kvs =>
              { st with
                  elements := .obj (objSet k (jmergeTop ((objGet k kvs).getD .null) popped) kvs) :: rest2,
                  duplicated := Option.none }
            | c => { st with elements := c :: rest2, duplicated := Option.none }
          else { st with elements := attach1 popped current :: rest2 }
        | Option.none => { st with elements := attach1 popped current :: rest2 }
    | [] => { st with root := Option.none }

/-- Run a list of events. -/
def runEv (es : List JEv) (st : MSt) : MSt := es.foldl step st

/-- The state before `parser.write(source)`. -/
def initSt : MSt := ⟨[], Option.none, Option.none, false⟩

/-- `parseJson` on (the event stream of) a document: final handler state. -/
def parseJson (doc : J) : MSt := runEv (evD doc) initSt

/-- `parseJson`'s return value, after the `root instanceof Array`
unwrapping (`root = root[0]`, `undefined` on an empty array). -/
def parseJsonRoot (doc : J) : Option J :=
  match (parseJson doc).root with
  | some (.arr .nil) => Option.none
  | some (.arr (.cons x _)) => some x
  | r => r

/-- Standard append on object binding lists. -/
def objApp : JObj → JObj → JObj
  | .nil, b => b
  | .cons k v r, b => .cons k v (objApp r b)

/-- Standard append on array element lists. -/
def jarrApp : JArr → JArr → JArr
  | .nil, b => b
  | .cons v r, b => .cons v (jarrApp r b)

/-- Left fold of `objAppend` — the order in which the machine grows an
object. -/
def objCat : JObj → JObj → JObj
  | d, .nil => d
  | d, .cons k v r => objCat (objAppend d k v) r

/-- Left fold of `jarrAppend` — the order in which the machine grows an
array. -/
def arrCat : JArr → JArr → JArr
  | d, .nil => d
  | d, .cons v r => arrCat (jarrAppend d v) r

mutual
/-- Well-formed documents for the positive direction: no duplicate keys,
and no empty objects (clarinet hands `parseJson` an `undefined` first key
for `{}`, which materialises a `"undefined"` property). -/
def goodD : J → Bool
  | .arr xs => goodA xs
  | .obj kvs => goodObjTop kvs
  | _ => true

/-- A whole object is good when it is non-empty and `goodO`. -/
def goodObjTop : JObj → Bool
  | .nil => false
  | .cons k v r => !objHasKey k r && goodD v && goodO r

/-- Binding lists with pairwise-distinct keys and good values. -/
def goodO : JObj → Bool
  | .nil => true
  | .cons k v r => !objHasKey k r && goodD v && goodO r

/-- Element lists of good values. -/
def goodA : JArr → Bool
  | .nil => true
  | .cons v r => goodD v && goodA r
end

/-- Every key of the first list is absent from the second. -/
def keysDisjoint : JObj → JObj → Bool
  | .nil, _ => true
  | .cons k _ r, d => !objHasKey k d && keysDisjoint r d

/-- The duplicate marker, if set, points strictly below the top of a stack
of `n` elements (so no close among the next events can consume it). -/
def markerSafe (m : Option (Nat × String)) (n : Nat) : Prop :=
  ∀ l k, m = some (l, k) → l + 1 < n

/-- The scalar-duplicate document `{"a": 1, "b": 2, "a": 3}`. -/
def c6doc : J :=
  .obj (.cons "a" (.num 1) (.cons "b" (.num 2) (.cons "a" (.num 3) .nil)))

theorem C6_counterexample :
    parseJsonRoot c6doc
      = some (.obj (.cons "a" (.num 1) (.cons "b" (.num 3) .nil))) ∧
    (parseJson c6doc).err = false ∧
    parseJsonRoot c6doc
      ≠ some (.obj (.cons "a" (.num 3) (.cons "b" (.num 2) .nil))) := by
  refine ⟨by decide, by decide, by decide⟩

/-! Algebra of the object/array operations. -/

/-- Plain structural induction over `JArr` (values treated opaquely),
extracted from the mutual recursor. -/
theorem JArr.recA {Q : JArr → Prop} (nil : Q .nil)
    (cons : ∀ v r, Q r → Q (.cons v r)) : ∀ xs, Q xs :=
  fun xs =>
    @JArr.rec (fun _ => True) Q (fun _ => True)
      trivial (fun _ => trivial) (fun _ => trivial) (fun _ => trivial)
      (fun _ _ => trivial) (fun _ _ => trivial)
      nil (fun v r _ h => cons v r h)
      trivial (fun _ _ _ _ _ => trivial) xs

/-- Plain structural induction over `JObj` (values treated opaquely),
extracted from the mutual recursor. -/
theorem JObj.recO {Q : JObj → Prop} (nil : Q .nil)
    (cons : ∀ k v r, Q r → Q (.cons k v r)) : ∀ d, Q d :=
  fun d =>
    @JObj.rec (fun _ => True) (fun _ => True) Q
      trivial (fun _ => trivial) (fun _ => trivial) (fun _ => trivial)
      (fun _ _ => trivial) (fun _ _ => trivial)
      trivial (fun _ _ _ _ => trivial)
      nil (fun k v r _ h => cons k v r h) d

theorem jarrAppend_eq_app (d : JArr) (v : J) :
    jarrAppend d v = jarrApp d (.cons v .nil) := by
  induction d using JArr.recA with
  | nil => rfl
  | cons x r ih => simp [jarrAppend, jarrApp, ih]

theorem jarrApp_assoc (a b c : JArr) :
    jarrApp (jarrApp a b) c = jarrApp a (jarrApp b c) := by
  induction a using JArr.recA with
  | nil => rfl
  | cons x r ih => simp [jarrApp, ih]

theorem jarrApp_nil (a : JArr) : jarrApp a .nil = a := by
  induction a using JArr.recA with
  | nil => rfl
  | cons x r ih => simp [jarrApp, ih]

theorem arrCat_eq_app (xs : JArr) : ∀ d, arrCat d xs = jarrApp d xs := by
  induction xs using JArr.recA with
  | nil => intro d; simp [arrCat, jarrApp_nil]
  | cons v r ih =>
    intro d
    simp [arrCat, ih, jarrAppend_eq_app, jarrApp_assoc, jarrApp]

theorem arrCat_nil (xs : JArr) : arrCat .nil xs = xs := by
  simp [arrCat_eq_app, jarrApp]

theorem objAppend_eq_app (d : JObj) (k : String) (v : J) :
    objAppend d k v = objApp d (.cons k v .nil) := by
  induction d using JObj.recO with
  | nil => rfl
  | cons k' v' r ih => simp [objAppend, objApp, ih]

theorem objApp_assoc (a b c : JObj) :
    objApp (objApp a b) c = objApp a (objApp b c) := by
  induction a using JObj.recO with
  | nil => rfl
  | cons k v r ih => simp [objApp, ih]

theorem objApp_nil (a : JObj) : objApp a .nil = a := by
  induction a using JObj.recO with
  | nil => rfl
  | cons k v r ih => simp [objApp, ih]

theorem objCat_eq_app (r : JObj) : ∀ d, objCat d r = objApp d r := by
  induction r using JObj.recO with
  | nil => intro d; simp [objCat, objApp_nil]
  | cons k v r' ih =>
    intro d
    simp [objCat, ih, objAppend_eq_app, objApp_assoc, objApp]

theorem objHasKey_app (a : String) (d e : JObj) :
    objHasKey a (objApp d e) = (objHasKey a d || objHasKey a e) := by
  induction d using JObj.recO with
  | nil => simp [objApp, objHasKey]
  | cons k v r ih => simp [objApp, objHasKey, ih, Bool.or_assoc]

theorem objHasKey_objAppend (a : String) (d : JObj) (k : String) (v : J) :
    objHasKey a (objAppend d k v) = (objHasKey a d || (k == a)) := by
  simp [objAppend_eq_app, objHasKey_app, objHasKey]

theorem objHasKey_objSet (a : String) (d : JObj) (k : String) (v : J) :
    objHasKey a (objSet k v d) = objHasKey a d := by
  induction d using JObj.recO with
  | nil => rfl
  | cons k' v' r ih =>
    by_cases h : k' == k
    · simp [objSet, h, objHasKey]
    · simp [objSet, h, objHasKey, ih]

theorem objGet_app_left (a : String) (d e : JObj) (h : objHasKey a d = false) :
    objGet a (objApp d e) = objGet a e := by
  induction d using JObj.recO with
  | nil => rfl
  | cons k v r ih =>
    simp [objHasKey, Bool.or_eq_false_iff] at h
    simp [objApp, objGet, h.1, ih h.2]

theorem objGet_head (k : String) (v : J) (r : JObj) :
    objGet k (.cons k v r) = some v := by simp [objGet]

theorem objSet_head (k : String) (v w : J) (r : JObj) :
    objSet k v (.cons k w r) = .cons k v r := by simp [objSet]

theorem objSet_app_left (a : String) (v : J) (d e : JObj)
    (h : objHasKey a d = true) :
    objSet a v (objApp d e) = objApp (objSet a v d) e := by
  induction d using JObj.recO with
  | nil => simp [objHasKey] at h
  | cons k v' r ih =>
    by_cases hk : k == a
    · simp [objApp, objSet, hk]
    · simp [objHasKey, hk] at h
      simp [objApp, objSet, hk, ih h]

theorem objSet_app_right (a : String) (v : J) (d e : JObj)
    (h : objHasKey a d = false) :
    objSet a v (objApp d e) = objApp d (objSet a v e) := by
  induction d using JObj.recO with
  | nil => rfl
  | cons k v' r ih =>
    simp [objHasKey, Bool.or_eq_false_iff] at h
    simp [objApp, objSet, h.1, ih h.2]

theorem objSetLast_append (v : J) (d : JObj) (k : String) :
    objSetLast v (objAppend d k .null) = objAppend d k v := by
  induction d using JObj.recO with
  | nil => rfl
  | cons k' v' r ih =>
    cases r with
    | nil => simp [objAppend, objSetLast]
    | cons a b c => simp [objAppend, objSetLast] at ih ⊢; exact ih

theorem keysDisjoint_iff (r d : JObj) :
    keysDisjoint r d = true ↔
      ∀ a, objHasKey a r = true → objHasKey a d = false := by
  induction r using JObj.recO with
  | nil =>
    simp [keysDisjoint, objHasKey]
  | cons k v r' ih =>
    rw [show keysDisjoint (.cons k v r') d
          = (!objHasKey k d && keysDisjoint r' d) from rfl]
    rw [Bool.and_eq_true, Bool.not_eq_true', ih]
    constructor
    · rintro ⟨h1, h2⟩ a ha
      rw [show objHasKey a (.cons k v r') = (k == a || objHasKey a r') from rfl,
        Bool.or_eq_true] at ha
      rcases ha with ha | ha
      · rcases eq_of_beq ha; exact h1
      · exact h2 a ha
    · intro h
      refine ⟨h k ?_, fun a ha => h a ?_⟩
      · rw [show objHasKey k (.cons k v r') = (k == k || objHasKey k r') from rfl]
        simp
      · rw [show objHasKey a (.cons k v r') = (k == a || objHasKey a r') from rfl,
          ha, Bool.or_true]

theorem keysDisjoint_comm (r d : JObj) (h : keysDisjoint r d = true) :
    keysDisjoint d r = true := by
  rw [keysDisjoint_iff] at h ⊢
  intro a ha
  cases hx : objHasKey a r with
  | false => rfl
  | true => rw [h a hx] at ha; exact Bool.noConfusion ha

theorem keysDisjoint_single (k : String) (v : J) (r : JObj)
    (h : objHasKey k r = false) :
    keysDisjoint r (.cons k v .nil) = true := by
  rw [keysDisjoint_iff]
  intro a ha
  rw [show objHasKey a (.cons k v .nil) = (k == a || objHasKey a .nil) from rfl]
  cases hk : k == a with
  | false => rfl
  | true =>
    rcases eq_of_beq hk
    rw [h] at ha; exact Bool.noConfusion ha

theorem keysDisjoint_objAppend (r d : JObj) (k : String) (v : J)
    (h1 : keysDisjoint r d = true) (h2 : objHasKey k r = false) :
    keysDisjoint r (objAppend d k v) = true := by
  rw [keysDisjoint_iff] at h1 ⊢
  intro a ha
  rw [objHasKey_objAppend, h1 a ha, Bool.false_or]
  cases hk : k == a with
  | false => rfl
  | true =>
    rcases eq_of_beq hk
    rw [h2] at ha; exact Bool.noConfusion ha

theorem keysDisjoint_objSet (r d : JObj) (k : String) (v : J)
    (h : keysDisjoint r d = true) :
    keysDisjoint r (objSet k v d) = true := by
  rw [keysDisjoint_iff] at h ⊢
  intro a ha
  rw [objHasKey_objSet]
  exact h a ha

theorem keysDisjoint_app (r d e : JObj) :
    keysDisjoint r (objApp d e) = (keysDisjoint r d && keysDisjoint r e) := by
  induction r using JObj.recO with
  | nil => simp [keysDisjoint]
  | cons k v r' ih =>
    simp [keysDisjoint, objHasKey_app, ih]
    cases objHasKey k d <;> cases objHasKey k e <;>
      cases keysDisjoint r' d <;> cases keysDisjoint r' e <;> simp

theorem goodO_app (a b : JObj) :
    goodO (objApp a b) = (goodO a && goodO b && keysDisjoint a b) := by
  induction a using JObj.recO with
  | nil => simp [objApp, goodO, keysDisjoint]
  | cons k v r ih =>
    simp [objApp, goodO, keysDisjoint, objHasKey_app, ih]
    cases objHasKey k r <;> cases objHasKey k b <;> cases goodD v <;>
      cases goodO r <;> cases goodO b <;> cases keysDisjoint r b <;> simp

theorem evO_app (a b : JObj) : evO (objApp a b) = evO a ++ evO b := by
  induction a using JObj.recO with
  | nil => rfl
  | cons k v r ih => simp [objApp, evO, ih]

/-! How `step` acts in each situation, as rewrite rules. -/

theorem runEv_nil (st : MSt) : runEv [] st = st := rfl

theorem runEv_cons (e : JEv) (es : List JEv) (st : MSt) :
    runEv (e :: es) st = runEv es (step st e) := rfl

theorem runEv_append (a b : List JEv) (st : MSt) :
    runEv (a ++ b) st = runEv b (runEv a st) := by
  show List.foldl step st (a ++ b) = List.foldl step (List.foldl step st a) b
  exact List.foldl_append step st a b

theorem step_openObj (st : MSt) (k? : Option String) (he : st.err = false) :
    step st (.openObj k?)
      = { st with elements := .obj (.cons (k?.getD "undefined") .null .nil) :: st.elements } := by
  simp [step, he]

theorem step_openArr (st : MSt) (he : st.err = false) :
    step st .openArr = { st with elements := .arr .nil :: st.elements } := by
  simp [step, he]

theorem step_scalar (st : MSt) (v c : J) (cs : List J) (he : st.err = false)
    (hel : st.elements = c :: cs) :
    step st (.scalar v) = { st with elements := attach1 v c :: cs } := by
  simp [step, he, hel]

theorem step_key_fresh (st : MSt) (k : String) (kvs : JObj) (cs : List J)
    (he : st.err = false) (hel : st.elements = .obj kvs :: cs)
    (hk : objHasKey k kvs = false) :
    step st (.key k)
      = { st with elements := .obj (objAppend kvs k .null) :: cs } := by
  simp [step, he, hel, hk]

theorem step_key_dup (st : MSt) (k : String) (kvs : JObj) (cs : List J)
    (he : st.err = false) (hel : st.elements = .obj kvs :: cs)
    (hk : objHasKey k kvs = true) :
    step st (.key k) = { st with duplicated := some (cs.length, k) } := by
  simp [step, he, hel, hk]

theorem step_close_root (st : MSt) (v : J) (he : st.err = false)
    (hel : st.elements = [v]) :
    step st .close = { st with elements := [], root := some v } := by
  simp [step, he, hel]

theorem step_close_attach (st : MSt) (v c : J) (cs : List J)
    (he : st.err = false) (hel : st.elements = v :: c :: cs)
    (hm : ∀ l k, st.duplicated = some (l, k) → l ≠ cs.length) :
    step st .close = { st with elements := attach1 v c :: cs } := by
  cases hdup : st.duplicated with
  | none => simp [step, he, hel, hdup]
  | some p =>
    obtain ⟨l, k⟩ := p
    have hne : l ≠ cs.length := hm l k hdup
    simp [step, he, hel, hdup, hne]

theorem step_close_merge (st : MSt) (v : J) (kvs : JObj) (cs : List J)
    (k : String) (he : st.err = false)
    (hel : st.elements = v :: .obj kvs :: cs)
    (hdup : st.duplicated = some (cs.length, k)) :
    step st .close
      = { st with
            elements :=
              .obj (objSet k (jmergeTop ((objGet k kvs).getD .null) v) kvs) :: cs,
            duplicated := Option.none } := by
  simp [step, he, hel, hdup]

/-! The positive direction: on duplicate-free documents the machine
rebuilds the document itself.  `PD`/`PA`/`PO`/`PObj` are the statements
proved by mutual induction. -/

/-- Processing the events of a good value from any non-empty stack (with a
marker that no upcoming close can consume) attaches the value to the top
container. -/
def PD (v : J) : Prop :=
  goodD v = true → ∀ st c cs, st.err = false → st.elements = c :: cs →
    markerSafe st.duplicated (cs.length + 1) →
    runEv (evD v) st = { st with elements := attach1 v c :: cs }

/-- Processing the events of good array elements appends them in order to
the array on top of the stack. -/
def PA (xs : JArr) : Prop :=
  goodA xs = true → ∀ st ys cs, st.err = false →
    st.elements = .arr ys :: cs →
    markerSafe st.duplicated (cs.length + 1) →
    runEv (evA xs) st = { st with elements := .arr (arrCat ys xs) :: cs }

/-- Processing the key/value events of good bindings whose keys are fresh
for the object on top of the stack appends those bindings in order. -/
def PO (r : JObj) : Prop :=
  goodO r = true → ∀ st built cs, st.err = false →
    st.elements = .obj built :: cs →
    markerSafe st.duplicated (cs.length + 1) →
    keysDisjoint r built = true →
    runEv (evO r) st = { st with elements := .obj (objCat built r) :: cs }

/-- Processing a whole good object (open, first value, remaining bindings,
close) attaches the rebuilt object to the top of the stack. -/
def PObj (kvs : JObj) : Prop :=
  goodObjTop kvs = true → ∀ st c cs, st.err = false → st.elements = c :: cs →
    markerSafe st.duplicated (cs.length + 1) →
    runEv (evObj kvs) st = { st with elements := attach1 (.obj kvs) c :: cs }

/-- Mutual structural induction over values, arrays and objects. -/
theorem J.rec3 {P : J → Prop} {QA : JArr → Prop} {QO : JObj → Prop}
    (hnull : P .null) (hbool : ∀ b, P (.bool b)) (hnum : ∀ q, P (.num q))
    (hstr : ∀ s, P (.str s)) (harr : ∀ xs, QA xs → P (.arr xs))
    (hobj : ∀ kvs, QO kvs → P (.obj kvs))
    (hanil : QA .nil) (hacons : ∀ v r, P v → QA r → QA (.cons v r))
    (honil : QO .nil) (hocons : ∀ k v r, P v → QO r → QO (.cons k v r)) :
    (∀ v, P v) ∧ (∀ xs, QA xs) ∧ (∀ kvs, QO kvs) :=
  ⟨fun v => @J.rec P QA QO hnull hbool hnum hstr harr hobj hanil hacons honil hocons v,
   fun xs => @JArr.rec P QA QO hnull hbool hnum hstr harr hobj hanil hacons honil hocons xs,
   fun kvs => @JObj.rec P QA QO hnull hbool hnum hstr harr hobj hanil hacons honil hocons kvs⟩

theorem PD_of_scalar (v : J) (hev : evD v = [.scalar v]) : PD v := by
  intro hg st c cs he hel hm
  rw [hev, runEv_cons, runEv_nil, step_scalar st v c cs he hel]

theorem PD_arr (xs : JArr) (ih : PA xs) : PD (.arr xs) := by
  intro hg st c cs he hel hm
  have hga : goodA xs = true := hg
  rw [show evD (.arr xs) = .openArr :: (evA xs ++ [.close]) from rfl,
    runEv_cons, runEv_append, runEv_cons, runEv_nil, step_openArr st he]
  have h1 : runEv (evA xs) { st with elements := .arr JArr.nil :: st.elements }
      = { st with elements := .arr (arrCat .nil xs) :: (c :: cs) } := by
    refine ih hga _ JArr.nil (c :: cs) he (by simp [hel]) ?_
    intro l k hk
    have := hm l k hk
    simp only [List.length_cons]
    omega
  rw [h1]
  refine Eq.trans (step_close_attach _ (.arr (arrCat .nil xs)) c cs he rfl ?_) ?_
  · intro l k hk
    have := hm l k hk
    omega
  · rw [arrCat_nil]

theorem PD_obj (kvs : JObj) (ih : PObj kvs) : PD (.obj kvs) := by
  intro hg st c cs he hel hm
  exact ih hg st c cs he hel hm

theorem PA_nil : PA .nil := by
  intro hg st ys cs he hel hm
  rw [show evA .nil = ([] : List JEv) from rfl, runEv_nil,
    show arrCat ys .nil = ys from rfl, ← hel]

theorem PA_cons (v : J) (r : JArr) (ihv : PD v) (ihr : PA r) :
    PA (.cons v r) := by
  intro hg st ys cs he hel hm
  rw [show goodA (.cons v r) = (goodD v && goodA r) from rfl,
    Bool.and_eq_true] at hg
  obtain ⟨hgv, hgr⟩ := hg
  rw [show evA (.cons v r) = evD v ++ evA r from rfl, runEv_append]
  have h1 : runEv (evD v) st
      = { st with elements := .arr (jarrAppend ys v) :: cs } := by
    rw [ihv hgv st (.arr ys) cs he hel hm]
    rw [show attach1 v (.arr ys) = .arr (jarrAppend ys v) from rfl]
  rw [h1]
  rw [ihr hgr { st with elements := .arr (jarrAppend ys v) :: cs }
    (jarrAppend ys v) cs he rfl hm]
  rfl

theorem PO_nil : PO .nil := by
  intro hg st built cs he hel hm hdisj
  rw [show evO .nil = ([] : List JEv) from rfl, runEv_nil,
    show objCat built .nil = built from rfl, ← hel]

theorem PO_cons (k : String) (v : J) (r : JObj) (ihv : PD v) (ihr : PO r) :
    PO (.cons k v r) := by
  intro hg st built cs he hel hm hdisj
  rw [show goodO (.cons k v r) = (!objHasKey k r && goodD v && goodO r) from rfl,
    Bool.and_eq_true, Bool.and_eq_true, Bool.not_eq_true'] at hg
  obtain ⟨⟨hkr, hgv⟩, hgr⟩ := hg
  rw [show keysDisjoint (.cons k v r) built
        = (!objHasKey k built && keysDisjoint r built) from rfl,
    Bool.and_eq_true, Bool.not_eq_true'] at hdisj
  obtain ⟨hkb, hrb⟩ := hdisj
  rw [show evO (.cons k v r) = .key k :: (evD v ++ evO r) from rfl,
    runEv_cons, runEv_append, step_key_fresh st k built cs he hel hkb]
  have h1 : runEv (evD v) { st with elements := .obj (objAppend built k .null) :: cs }
      = { st with elements := .obj (objAppend built k v) :: cs } := by
    rw [ihv hgv { st with elements := .obj (objAppend built k .null) :: cs }
      (.obj (objAppend built k .null)) cs he rfl hm]
    rw [show attach1 v (.obj (objAppend built k .null))
          = .obj (objSetLast v (objAppend built k .null)) from rfl,
      objSetLast_append]
  rw [h1]
  rw [ihr hgr { st with elements := .obj (objAppend built k v) :: cs }
    (objAppend built k v) cs he rfl hm
    (keysDisjoint_objAppend r built k v hrb hkr)]
  rfl

theorem PObj_nil : PObj .nil := by
  intro hg
  exact absurd hg (by rw [show goodObjTop .nil = false from rfl]; simp)

theorem PObj_cons (k : String) (v : J) (r : JObj) (ihv : PD v) (ihr : PO r) :
    PObj (.cons k v r) := by
  intro hg st c cs he hel hm
  rw [show goodObjTop (.cons k v r)
        = (!objHasKey k r && goodD v && goodO r) from rfl,
    Bool.and_eq_true, Bool.and_eq_true, Bool.not_eq_true'] at hg
  obtain ⟨⟨hkr, hgv⟩, hgr⟩ := hg
  rw [show evObj (.cons k v r)
        = .openObj (some k) :: (evD v ++ (evO r ++ [.close])) from rfl,
    runEv_cons, runEv_append, runEv_append, runEv_cons, runEv_nil,
    step_openObj st (some k) he]
  have hm' : markerSafe st.duplicated ((c :: cs).length + 1) := by
    intro l k' hk
    have := hm l k' hk
    simp only [List.length_cons]
    omega
  have h1 : runEv (evD v)
        { st with elements := .obj (.cons ((some k).getD "undefined") .null .nil) :: st.elements }
      = { st with elements := .obj (.cons k v .nil) :: (c :: cs) } := by
    rw [ihv hgv
      { st with elements := .obj (.cons ((some k).getD "undefined") .null .nil) :: st.elements }
      (.obj (.cons k .null .nil)) (c :: cs) he (by simp [hel]) hm']
    rw [show attach1 v (.obj (.cons k .null .nil))
          = .obj (objSetLast v (.cons k .null .nil)) from rfl]
    rw [show objSetLast v (.cons k .null .nil) = .cons k v .nil from rfl]
  rw [h1]
  have h2 : runEv (evO r) { st with elements := .obj (.cons k v .nil) :: (c :: cs) }
      = { st with elements := .obj (.cons k v r) :: (c :: cs) } := by
    rw [ihr hgr { st with elements := .obj (.cons k v .nil) :: (c :: cs) }
      (.cons k v .nil) (c :: cs) he rfl hm'
      (keysDisjoint_single k v r hkr)]
    rw [objCat_eq_app]
    rw [show objApp (.cons k v .nil) r = .cons k v r from rfl]
  rw [h2]
  refine Eq.trans (step_close_attach _ (.obj (.cons k v r)) c cs he rfl ?_) rfl
  intro l k' hk
  have := hm l k' hk
  omega

/-- The three positive statements, by mutual induction. -/
theorem run_good :
    (∀ v, PD v) ∧ (∀ xs, PA xs) ∧ (∀ kvs, PO kvs ∧ PObj kvs) :=
  @J.rec3 PD PA (fun kvs => PO kvs ∧ PObj kvs)
    (PD_of_scalar .null rfl) (fun b => PD_of_scalar (.bool b) rfl)
    (fun q => PD_of_scalar (.num q) rfl) (fun s => PD_of_scalar (.str s) rfl)
    PD_arr (fun kvs h => PD_obj kvs h.2)
    PA_nil PA_cons
    ⟨PO_nil, PObj_nil⟩
    (fun k v r hv hr => ⟨PO_cons k v r hv hr.1, PObj_cons k v r hv hr.1⟩)

theorem runD (v : J) : PD v := run_good.1 v

theorem runA (xs : JArr) : PA xs := run_good.2.1 xs

theorem runO (kvs : JObj) : PO kvs := (run_good.2.2 kvs).1

theorem runObj (kvs : JObj) : PObj kvs := (run_good.2.2 kvs).2

theorem objHasKey_of_objGet (k : String) (d : JObj) (v : J)
    (h : objGet k d = some v) : objHasKey k d = true := by
  induction d using JObj.recO with
  | nil => exact Option.noConfusion h
  | cons k' v' r ih =>
    rw [show objHasKey k (.cons k' v' r) = (k' == k || objHasKey k r) from rfl]
    cases hk : k' == k with
    | true => rw [Bool.true_or]
    | false =>
      rw [Bool.false_or]
      refine ih ?_
      rw [show objGet k (.cons k' v' r)
            = (if k' == k then some v' else objGet k r) from rfl, hk] at h
      simpa using h

theorem keysDisjoint_app_left (x y d : JObj) :
    keysDisjoint (objApp x y) d = (keysDisjoint x d && keysDisjoint y d) := by
  induction x using JObj.recO with
  | nil => rw [show objApp .nil y = y from rfl,
      show keysDisjoint JObj.nil d = true from rfl, Bool.true_and]
  | cons k v r ih =>
    rw [show objApp (.cons k v r) y = .cons k v (objApp r y) from rfl,
      show keysDisjoint (.cons k v (objApp r y)) d
        = (!objHasKey k d && keysDisjoint (objApp r y) d) from rfl,
      show keysDisjoint (.cons k v r) d
        = (!objHasKey k d && keysDisjoint r d) from rfl,
      ih, Bool.and_assoc]

/-- The merged object has exactly the keys of the two sides. -/
theorem jmergeObj_hasKey (a : String) (s : JObj) : ∀ d : JObj,
    objHasKey a (jmergeObj d s) = (objHasKey a d || objHasKey a s) := by
  induction s using JObj.recO with
  | nil => intro d; rw [show jmergeObj d .nil = d from rfl,
      show objHasKey a JObj.nil = false from rfl, Bool.or_false]
  | cons k v r ih =>
    intro d
    rw [show jmergeObj d (.cons k v r)
          = jmergeObj
              (match objGet k d with
                | some dv => objSet k (jmerge dv v) d
                | Option.none => objAppend d k v) r from rfl]
    cases hg : objGet k d with
    | some dv =>
      show objHasKey a (jmergeObj (objSet k (jmerge dv v) d) r)
        = (objHasKey a d || objHasKey a (JObj.cons k v r))
      rw [ih, objHasKey_objSet,
        show objHasKey a (.cons k v r) = (k == a || objHasKey a r) from rfl]
      cases hk : k == a with
      | false => rw [Bool.false_or]
      | true =>
        rcases eq_of_beq hk
        rw [objHasKey_of_objGet a d dv hg]
        rw [Bool.true_or, Bool.true_or]
    | none =>
      show objHasKey a (jmergeObj (objAppend d k v) r)
        = (objHasKey a d || objHasKey a (JObj.cons k v r))
      rw [ih, objHasKey_objAppend,
        show objHasKey a (.cons k v r) = (k == a || objHasKey a r) from rfl]
      cases objHasKey a d <;> cases k == a <;> cases objHasKey a r <;> rfl

/-- Consuming the marker: a good *container* value arriving while the
duplicate marker points at the object just below it is deep-merged into
that object's marked binding, the popped value is discarded, and the
marker is cleared. -/
theorem runB (v : J) (hv : goodD v = true)
    (hc : (∃ a, v = J.arr a) ∨ (∃ o, v = J.obj o)) (st : MSt) (kvs : JObj)
    (cs : List J) (k : String) (he : st.err = false)
    (hel : st.elements = .obj kvs :: cs)
    (hdup : st.duplicated = some (cs.length, k)) :
    runEv (evD v) st
      = ⟨.obj (objSet k (jmergeTop ((objGet k kvs).getD .null) v) kvs) :: cs,
          Option.none, st.root, st.err⟩ := by
  have hmS : markerSafe st.duplicated ((J.obj kvs :: cs).length + 1) := by
    intro l k' hk
    rw [hdup] at hk
    have h1 : cs.length = l := congrArg Prod.fst (Option.some.inj hk)
    simp only [List.length_cons]
    omega
  rcases hc with ⟨a, rfl⟩ | ⟨o, rfl⟩
  · have s1 : runEv (evA a) ⟨.arr JArr.nil :: (.obj kvs :: cs), st.duplicated, st.root, st.err⟩
        = ⟨.arr (arrCat .nil a) :: (.obj kvs :: cs), st.duplicated, st.root, st.err⟩ :=
      runA a hv ⟨.arr JArr.nil :: (.obj kvs :: cs), st.duplicated, st.root, st.err⟩
        JArr.nil (.obj kvs :: cs) he rfl hmS
    have s2 : step ⟨.arr (arrCat .nil a) :: (.obj kvs :: cs), st.duplicated, st.root, st.err⟩ .close
        = ⟨.obj (objSet k (jmergeTop ((objGet k kvs).getD .null) (.arr (arrCat .nil a))) kvs) :: cs,
            Option.none, st.root, st.err⟩ :=
      step_close_merge ⟨.arr (arrCat .nil a) :: (.obj kvs :: cs), st.duplicated, st.root, st.err⟩
        (.arr (arrCat .nil a)) kvs cs k he rfl hdup
    have s0 : step st .openArr
        = ⟨.arr JArr.nil :: (.obj kvs :: cs), st.duplicated, st.root, st.err⟩ := by
      rw [step_openArr st he, hel]
    rw [show evD (.arr a) = .openArr :: (evA a ++ [.close]) from rfl,
      runEv_cons, runEv_append, runEv_cons, runEv_nil, s0, s1, s2, arrCat_nil]
  · cases o with
    | nil =>
      exact absurd hv (by rw [show goodD (.obj .nil) = false from rfl]; simp)
    | cons k1 v1 r =>
      have hv' := hv
      rw [show goodD (.obj (.cons k1 v1 r))
            = (!objHasKey k1 r && goodD v1 && goodO r) from rfl,
        Bool.and_eq_true, Bool.and_eq_true, Bool.not_eq_true'] at hv'
      obtain ⟨⟨hkr, hgv⟩, hgr⟩ := hv'
      have s0 : step st (.openObj (some k1))
          = ⟨.obj (.cons k1 .null .nil) :: (.obj kvs :: cs), st.duplicated, st.root, st.err⟩ := by
        rw [step_openObj st (some k1) he, hel]
        rfl
      have s1 : runEv (evD v1)
            ⟨.obj (.cons k1 .null .nil) :: (.obj kvs :: cs), st.duplicated, st.root, st.err⟩
          = ⟨.obj (.cons k1 v1 .nil) :: (.obj kvs :: cs), st.duplicated, st.root, st.err⟩ := by
        rw [runD v1 hgv
          ⟨.obj (.cons k1 .null .nil) :: (.obj kvs :: cs), st.duplicated, st.root, st.err⟩
          (.obj (.cons k1 .null .nil)) (.obj kvs :: cs) he rfl hmS]
        rfl
      have s2 : runEv (evO r)
            ⟨.obj (.cons k1 v1 .nil) :: (.obj kvs :: cs), st.duplicated, st.root, st.err⟩
          = ⟨.obj (.cons k1 v1 r) :: (.obj kvs :: cs), st.duplicated, st.root, st.err⟩ := by
        rw [runO r hgr
          ⟨.obj (.cons k1 v1 .nil) :: (.obj kvs :: cs), st.duplicated, st.root, st.err⟩
          (.cons k1 v1 .nil) (.obj kvs :: cs) he rfl hmS
          (keysDisjoint_single k1 v1 r hkr)]
        rw [objCat_eq_app]
        rfl
      have s3 : step ⟨.obj (.cons k1 v1 r) :: (.obj kvs :: cs), st.duplicated, st.root, st.err⟩ .close
          = ⟨.obj (objSet k (jmergeTop ((objGet k kvs).getD .null) (.obj (.cons k1 v1 r))) kvs) :: cs,
              Option.none, st.root, st.err⟩ :=
        step_close_merge ⟨.obj (.cons k1 v1 r) :: (.obj kvs :: cs), st.duplicated, st.root, st.err⟩
          (.obj (.cons k1 v1 r)) kvs cs k he rfl hdup
      rw [show evD (.obj (.cons k1 v1 r))
            = .openObj (some k1) :: (evD v1 ++ (evO r ++ [.close])) from rfl,
        runEv_cons, runEv_append, runEv_append, runEv_cons, runEv_nil,
        s0, s1, s2, s3]

/-- Processing the remaining bindings of an object whose last bindings are
`p ++ [(k, c2)] ++ q`, where `k` already occurs among the bindings built
so far: the `p` and `q` bindings are appended normally and the container
`c2` is deep-merged into the existing binding of `k`. -/
theorem runO_dup (p q : JObj) (c2 : J) (k : String)
    (hgp : goodO p = true) (hgc2 : goodD c2 = true) (hgq : goodO q = true)
    (hc2 : (∃ a, c2 = J.arr a) ∨ (∃ o, c2 = J.obj o))
    (st : MSt) (built : JObj) (cs : List J)
    (he : st.err = false) (hel : st.elements = .obj built :: cs)
    (hm : st.duplicated = Option.none)
    (hdp : keysDisjoint p built = true)
    (hkk : objHasKey k (objCat built p) = true)
    (hdq : keysDisjoint q (objCat built p) = true) :
    runEv (evO (objApp p (.cons k c2 q))) st
      = ⟨.obj (objCat
            (objSet k (jmergeTop ((objGet k (objCat built p)).getD .null) c2)
              (objCat built p)) q) :: cs,
          Option.none, st.root, st.err⟩ := by
  have hmS : markerSafe st.duplicated (cs.length + 1) := by
    intro l k' hk
    rw [hm] at hk
    exact Option.noConfusion hk
  have s1 : runEv (evO p) st
      = ⟨.obj (objCat built p) :: cs, st.duplicated, st.root, st.err⟩ :=
    runO p hgp st built cs he hel hmS hdp
  have s2 : step ⟨.obj (objCat built p) :: cs, st.duplicated, st.root, st.err⟩ (.key k)
      = ⟨.obj (objCat built p) :: cs, some (cs.length, k), st.root, st.err⟩ :=
    step_key_dup ⟨.obj (objCat built p) :: cs, st.duplicated, st.root, st.err⟩
      k (objCat built p) cs he rfl hkk
  have s3 : runEv (evD c2)
        ⟨.obj (objCat built p) :: cs, some (cs.length, k), st.root, st.err⟩
      = ⟨.obj (objSet k (jmergeTop ((objGet k (objCat built p)).getD .null) c2)
            (objCat built p)) :: cs, Option.none, st.root, st.err⟩ :=
    runB c2 hgc2 hc2
      ⟨.obj (objCat built p) :: cs, some (cs.length, k), st.root, st.err⟩
      (objCat built p) cs k he rfl rfl
  have s4 : runEv (evO q)
        ⟨.obj (objSet k (jmergeTop ((objGet k (objCat built p)).getD .null) c2)
            (objCat built p)) :: cs, Option.none, st.root, st.err⟩
      = ⟨.obj (objCat
            (objSet k (jmergeTop ((objGet k (objCat built p)).getD .null) c2)
              (objCat built p)) q) :: cs, Option.none, st.root, st.err⟩ :=
    runO q hgq
      ⟨.obj (objSet k (jmergeTop ((objGet k (objCat built p)).getD .null) c2)
          (objCat built p)) :: cs, Option.none, st.root, st.err⟩
      (objSet k (jmergeTop ((objGet k (objCat built p)).getD .null) c2)
        (objCat built p)) cs he rfl
      (by intro l k' hk; exact Option.noConfusion hk)
      (keysDisjoint_objSet q (objCat built p) k _ hdq)
  rw [evO_app, runEv_append, s1,
    show evO (.cons k c2 q) = .key k :: (evD c2 ++ evO q) from rfl,
    runEv_cons, runEv_append, s2, s3, s4]

/-- Claim C6: for a JSON object in which one key `k` occurs twice with
*container* values of the same kind (both objects or both arrays), and
which is otherwise duplicate-free, `parseJson` returns a single object in
which `k` is bound once — at the position of the first occurrence — to the
deep merge of the two values; the merged object carries the keys of both
occurrences, and inside a merge a scalar from the later occurrence
overwrites.  (A duplicate whose second value is a *scalar* is not merged
at all: `C6_counterexample` shows `{"a":1,"b":2,"a":3}` coming back as
`{"a":1,"b":3}`.) -/
theorem C6_duplicate_key_merge
    (b1 b2 b3 : JObj) (k : String) (c1 c2 : J)
    (hshape : ((∃ a, c1 = J.arr a) ∧ (∃ a, c2 = J.arr a)) ∨
      ((∃ o, c1 = J.obj o) ∧ (∃ o, c2 = J.obj o)))
    (hgc1 : goodD c1 = true) (hgc2 : goodD c2 = true)
    (hg1 : goodO b1 = true) (hg2 : goodO b2 = true) (hg3 : goodO b3 = true)
    (hk1 : objHasKey k b1 = false) (hk2 : objHasKey k b2 = false)
    (hk3 : objHasKey k b3 = false)
    (hd12 : keysDisjoint b1 b2 = true) (hd13 : keysDisjoint b1 b3 = true)
    (hd23 : keysDisjoint b2 b3 = true) :
    parseJsonRoot (.obj (objApp b1 (.cons k c1 (objApp b2 (.cons k c2 b3)))))
      = some (.obj (objApp b1 (.cons k (jmerge c1 c2) (objApp b2 b3)))) ∧
    (parseJson (.obj (objApp b1 (.cons k c1 (objApp b2 (.cons k c2 b3)))))).err
      = false ∧
    (∀ a o1 o2, objHasKey a (jmergeObj o1 o2)
      = (objHasKey a o1 || objHasKey a o2)) ∧
    (∀ d q, jmerge d (.num q) = .num q) := by
  have hc2 : (∃ a, c2 = J.arr a) ∨ (∃ o, c2 = J.obj o) := by
    rcases hshape with ⟨h1, h2⟩ | ⟨h1, h2⟩
    · exact Or.inl h2
    · exact Or.inr h2
  have hV : jmergeTop c1 c2 = jmerge c1 c2 := by
    rcases hshape with ⟨⟨a, rfl⟩, h2⟩ | ⟨⟨o, rfl⟩, h2⟩ <;> rfl
  have key : parseJson (.obj (objApp b1 (.cons k c1 (objApp b2 (.cons k c2 b3)))))
      = ⟨[], Option.none,
          some (.obj (objApp b1 (.cons k (jmerge c1 c2) (objApp b2 b3)))), false⟩ := by
    cases b1 with
    | nil =>
      have hdp : keysDisjoint b2 (.cons k c1 .nil) = true :=
        keysDisjoint_single k c1 b2 hk2
      have hkk : objHasKey k (objCat (.cons k c1 .nil) b2) = true := by
        rw [objCat_eq_app, objHasKey_app,
          show objHasKey k (JObj.cons k c1 .nil)
            = (k == k || objHasKey k JObj.nil) from rfl]
        simp
      have hdq : keysDisjoint b3 (objCat (.cons k c1 .nil) b2) = true := by
        rw [objCat_eq_app, keysDisjoint_app,
          keysDisjoint_single k c1 b3 hk3, keysDisjoint_comm b2 b3 hd23]
        rfl
      have t1 : runEv (evD c1)
            ⟨[.obj (.cons k .null .nil)], Option.none, Option.none, false⟩
          = ⟨[.obj (.cons k c1 .nil)], Option.none, Option.none, false⟩ := by
        rw [runD c1 hgc1
          ⟨[.obj (.cons k .null .nil)], Option.none, Option.none, false⟩
          (.obj (.cons k .null .nil)) [] rfl rfl
          (fun l k' hk => Option.noConfusion hk)]
        rfl
      have e1 : objCat (.cons k c1 .nil) b2 = .cons k c1 b2 := by
        rw [objCat_eq_app]
        rfl
      have t2 : runEv (evO (objApp b2 (.cons k c2 b3)))
            ⟨[.obj (.cons k c1 .nil)], Option.none, Option.none, false⟩
          = ⟨[.obj (.cons k (jmerge c1 c2) (objApp b2 b3))],
              Option.none, Option.none, false⟩ := by
        rw [runO_dup b2 b3 c2 k hg2 hgc2 hg3 hc2
          ⟨[.obj (.cons k c1 .nil)], Option.none, Option.none, false⟩
          (.cons k c1 .nil) [] rfl rfl rfl hdp hkk hdq]
        rw [e1, objGet_head k c1 b2,
          show (some c1).getD J.null = c1 from rfl, hV,
          objSet_head k (jmerge c1 c2) c1 b2, objCat_eq_app]
        rfl
      rw [show parseJson (.obj (objApp JObj.nil (.cons k c1 (objApp b2 (.cons k c2 b3)))))
            = runEv (evObj (.cons k c1 (objApp b2 (.cons k c2 b3)))) initSt from rfl]
      rw [show evObj (.cons k c1 (objApp b2 (.cons k c2 b3)))
            = .openObj (some k)
                :: (evD c1 ++ (evO (objApp b2 (.cons k c2 b3)) ++ [.close])) from rfl,
        runEv_cons, runEv_append, runEv_append, runEv_cons, runEv_nil]
      rw [show step initSt (.openObj (some k))
            = ⟨[.obj (.cons k .null .nil)], Option.none, Option.none, false⟩ from rfl]
      rw [t1, t2]
      rfl
    | cons kb vb b1' =>
      rw [show goodO (.cons kb vb b1')
            = (!objHasKey kb b1' && goodD vb && goodO b1') from rfl,
        Bool.and_eq_true, Bool.and_eq_true, Bool.not_eq_true'] at hg1
      obtain ⟨⟨hkbb1, hgvb⟩, hgb1⟩ := hg1
      rw [show objHasKey k (.cons kb vb b1') = (kb == k || objHasKey k b1') from rfl,
        Bool.or_eq_false_iff] at hk1
      obtain ⟨hkbk, hk1'⟩ := hk1
      rw [show keysDisjoint (.cons kb vb b1') b2
            = (!objHasKey kb b2 && keysDisjoint b1' b2) from rfl,
        Bool.and_eq_true, Bool.not_eq_true'] at hd12
      obtain ⟨hkb2, hd12'⟩ := hd12
      rw [show keysDisjoint (.cons kb vb b1') b3
            = (!objHasKey kb b3 && keysDisjoint b1' b3) from rfl,
        Bool.and_eq_true, Bool.not_eq_true'] at hd13
      obtain ⟨hkb3, hd13'⟩ := hd13
      have hkne : (kb == k) ≠ true := by
        rw [hkbk]; exact fun h => Bool.noConfusion h
      have hgA : goodO (objApp b1' (.cons k c1 .nil)) = true := by
        rw [goodO_app, hgb1, keysDisjoint_single k c1 b1' hk1',
          show goodO (JObj.cons k c1 .nil)
            = ((!objHasKey k JObj.nil && goodD c1) && goodO JObj.nil) from rfl,
          hgc1]
        rfl
      have hdA : keysDisjoint (objApp b1' (.cons k c1 .nil)) (.cons kb vb .nil)
          = true := by
        rw [keysDisjoint_app_left, keysDisjoint_single kb vb b1' hkbb1,
          show keysDisjoint (JObj.cons k c1 .nil) (.cons kb vb .nil)
            = (!objHasKey k (JObj.cons kb vb .nil)
                && keysDisjoint JObj.nil (.cons kb vb .nil)) from rfl,
          show objHasKey k (JObj.cons kb vb .nil)
            = (kb == k || objHasKey k JObj.nil) from rfl, hkbk]
        rfl
      have hABsplit : (JObj.cons kb vb (objApp b1' (.cons k c1 .nil)))
          = objApp (.cons kb vb .nil) (objApp b1' (.cons k c1 .nil)) := rfl
      have hdp : keysDisjoint b2 (.cons kb vb (objApp b1' (.cons k c1 .nil)))
          = true := by
        rw [hABsplit, keysDisjoint_app, keysDisjoint_app,
          keysDisjoint_single kb vb b2 hkb2, keysDisjoint_comm b1' b2 hd12',
          keysDisjoint_single k c1 b2 hk2]
        rfl
      have hkk : objHasKey k
          (objCat (.cons kb vb (objApp b1' (.cons k c1 .nil))) b2) = true := by
        rw [objCat_eq_app, objHasKey_app, hABsplit, objHasKey_app, objHasKey_app,
          show objHasKey k (JObj.cons k c1 .nil)
            = (k == k || objHasKey k JObj.nil) from rfl]
        simp
      have hdq : keysDisjoint b3
          (objCat (.cons kb vb (objApp b1' (.cons k c1 .nil))) b2) = true := by
        rw [objCat_eq_app, keysDisjoint_app, hABsplit, keysDisjoint_app,
          keysDisjoint_app, keysDisjoint_single kb vb b3 hkb3,
          keysDisjoint_comm b1' b3 hd13', keysDisjoint_single k c1 b3 hk3,
          keysDisjoint_comm b2 b3 hd23]
        rfl
      have t1 : runEv (evD vb)
            ⟨[.obj (.cons kb .null .nil)], Option.none, Option.none, false⟩
          = ⟨[.obj (.cons kb vb .nil)], Option.none, Option.none, false⟩ := by
        rw [runD vb hgvb
          ⟨[.obj (.cons kb .null .nil)], Option.none, Option.none, false⟩
          (.obj (.cons kb .null .nil)) [] rfl rfl
          (fun l k' hk => Option.noConfusion hk)]
        rfl
      have t2 : runEv (evO (objApp b1' (.cons k c1 .nil)))
            ⟨[.obj (.cons kb vb .nil)], Option.none, Option.none, false⟩
          = ⟨[.obj (.cons kb vb (objApp b1' (.cons k c1 .nil)))],
              Option.none, Option.none, false⟩ := by
        rw [runO (objApp b1' (.cons k c1 .nil)) hgA
          ⟨[.obj (.cons kb vb .nil)], Option.none, Option.none, false⟩
          (.cons kb vb .nil) [] rfl rfl
          (fun l k' hk => Option.noConfusion hk) hdA]
        rw [objCat_eq_app]
        rfl
      have f1 : objCat (.cons kb vb (objApp b1' (.cons k c1 .nil))) b2
          = .cons kb vb (objApp b1' (.cons k c1 b2)) := by
        rw [objCat_eq_app, hABsplit, objApp_assoc, objApp_assoc]
        rfl
      have f2 : objGet k (.cons kb vb (objApp b1' (.cons k c1 b2))) = some c1 := by
        rw [show objGet k (.cons kb vb (objApp b1' (.cons k c1 b2)))
              = (if kb == k then some vb
                  else objGet k (objApp b1' (.cons k c1 b2))) from rfl,
          if_neg hkne, objGet_app_left k b1' (.cons k c1 b2) hk1',
          objGet_head k c1 b2]
      have f3 : objSet k (jmerge c1 c2)
            (.cons kb vb (objApp b1' (.cons k c1 b2)))
          = .cons kb vb (objApp b1' (.cons k (jmerge c1 c2) b2)) := by
        rw [show objSet k (jmerge c1 c2) (.cons kb vb (objApp b1' (.cons k c1 b2)))
              = (if kb == k
                  then .cons kb (jmerge c1 c2) (objApp b1' (.cons k c1 b2))
                  else .cons kb vb
                    (objSet k (jmerge c1 c2) (objApp b1' (.cons k c1 b2)))) from rfl,
          if_neg hkne, objSet_app_right k (jmerge c1 c2) b1' (.cons k c1 b2) hk1',
          objSet_head k (jmerge c1 c2) c1 b2]
      have f4 : objCat (.cons kb vb (objApp b1' (.cons k (jmerge c1 c2) b2))) b3
          = .cons kb vb (objApp b1' (.cons k (jmerge c1 c2) (objApp b2 b3))) := by
        rw [objCat_eq_app,
          show objApp (.cons kb vb (objApp b1' (.cons k (jmerge c1 c2) b2))) b3
            = .cons kb vb (objApp (objApp b1' (.cons k (jmerge c1 c2) b2)) b3) from rfl,
          objApp_assoc]
        rfl
      have t3 : runEv (evO (objApp b2 (.cons k c2 b3)))
            ⟨[.obj (.cons kb vb (objApp b1' (.cons k c1 .nil)))],
              Option.none, Option.none, false⟩
          = ⟨[.obj (.cons kb vb (objApp b1' (.cons k (jmerge c1 c2) (objApp b2 b3))))],
              Option.none, Option.none, false⟩ := by
        rw [runO_dup b2 b3 c2 k hg2 hgc2 hg3 hc2
          ⟨[.obj (.cons kb vb (objApp b1' (.cons k c1 .nil)))],
            Option.none, Option.none, false⟩
          (.cons kb vb (objApp b1' (.cons k c1 .nil))) [] rfl rfl rfl hdp hkk hdq]
        rw [f1, f2, show (some c1).getD J.null = c1 from rfl, hV, f3, f4]
      rw [show parseJson (.obj (objApp (.cons kb vb b1') (.cons k c1 (objApp b2 (.cons k c2 b3)))))
            = runEv (evObj (.cons kb vb
                (objApp b1' (.cons k c1 (objApp b2 (.cons k c2 b3)))))) initSt from rfl]
      rw [show evObj (.cons kb vb (objApp b1' (.cons k c1 (objApp b2 (.cons k c2 b3)))))
            = .openObj (some kb)
                :: (evD vb
                  ++ (evO (objApp b1' (.cons k c1 (objApp b2 (.cons k c2 b3)))) ++ [.close])) from rfl,
        runEv_cons, runEv_append, runEv_append, runEv_cons, runEv_nil]
      rw [show step initSt (.openObj (some kb))
            = ⟨[.obj (.cons kb .null .nil)], Option.none, Option.none, false⟩ from rfl]
      rw [t1]
      rw [show objApp b1' (.cons k c1 (objApp b2 (.cons k c2 b3)))
            = objApp (objApp b1' (.cons k c1 .nil)) (objApp b2 (.cons k c2 b3)) from by
          rw [objApp_assoc]
          rfl]
      rw [evO_app, runEv_append, t2, t3]
      rfl
  refine ⟨?_, ?_, fun a o1 o2 => jmergeObj_hasKey a o2 o1, fun d q => by cases d <;> rfl⟩
  · rw [parseJsonRoot, key]
  · rw [key]

/-- Witness for `C6_duplicate_key_merge`:
`{"Worker": {"a": 1}, "Worker": {"b": 2}}` parses to
`{"Worker": {"a": 1, "b": 2}}`. -/
theorem C6_duplicate_key_merge_witness :
    parseJsonRoot (.obj (.cons "Worker" (.obj (.cons "a" (.num 1) .nil))
        (.cons "Worker" (.obj (.cons "b" (.num 2) .nil)) .nil)))
      = some (.obj (.cons "Worker"
          (.obj (.cons "a" (.num 1) (.cons "b" (.num 2) .nil))) .nil)) := by
  have h := (C6_duplicate_key_merge JObj.nil JObj.nil JObj.nil "Worker"
    (.obj (.cons "a" (.num 1) .nil)) (.obj (.cons "b" (.num 2) .nil))
    (Or.inr ⟨⟨_, rfl⟩, ⟨_, rfl⟩⟩)
    (by decide) (by decide) rfl rfl rfl rfl rfl rfl rfl rfl rfl).1
  exact h

end JsonP

/-! ## Claims C7 and C9 — the text-format parser (`parsers/text.ts`) -/

section
set_option allowUnsafeReducibility true
attribute [local semireducible] Rat.add Rat.sub Rat.mul Rat.div Rat.inv Rat.neg

namespace TextP

/-! Model of the text-format plan parser (`src/services/parsers/text.ts`).
Lines are lists of characters; the anchored, essentially deterministic
regular expressions of the source are rendered as recursive scanners, with
greedy-group backtracking realised as last-occurrence searches where the
source relies on it. -/

abbrev Chars := List Char

/-- JavaScript `\s` (ASCII part; the unicode space classes never occur in
plan text). -/
def isWS (c : Char) : Bool :=
  c = ' ' || c = '\t' || c = '\n' || c = '\r' || c = '\x0b' || c = '\x0c'

def wsOnly (s : Chars) : Bool := s.all isWS

def dropTrailWs (s : Chars) : Chars := (s.reverse.dropWhile isWS).reverse

/-- Consume the literal `pat` (regex literal characters). -/
def lit (pat : String) (s : Chars) : Option Chars :=
  if pat.data.isPrefixOf s then some (s.drop pat.data.length) else none

/-- Case-insensitive literal, for the `/i` keyword regex of
`splitIntoLines`. -/
def litCI (pat : String) (s : Chars) : Option Chars :=
  if (pat.data.map Char.toLower).isPrefixOf (s.map Char.toLower) then
    some (s.drop pat.data.length)
  else none

/-- `\s+`: one or more whitespace characters. -/
def ws1 (s : Chars) : Option Chars :=
  match s.span isWS with
  | ([], _) => Option.none
  | (_ :: _, r) => some r

/-- `\s` (exactly one whitespace character, as in `actual\stime=`). -/
def wsOne (s : Chars) : Option Chars :=
  match s with
  | c :: r => if isWS c then some r else Option.none
  | [] => Option.none

def digitsVal (ds : Chars) : Nat :=
  ds.foldl (fun a c => a * 10 + (c.toNat - 48)) 0

/-- `(\d+)` with `parseInt(x, 0)` (radix 10). -/
def parseNatTok (s : Chars) : Option (Nat × Chars) :=
  match s.span Char.isDigit with
  | ([], _) => Option.none
  | (ds, r) => some (digitsVal ds, r)

/-- `(\d+\.\d+)` with `parseFloat` (exact as a rational). -/
def parseFixed (s : Chars) : Option (ℚ × Chars) :=
  match s.span Char.isDigit with
  | ([], _) => Option.none
  | (d1, r1) =>
    match r1 with
    | '.' :: r2 =>
      match r2.span Char.isDigit with
      | ([], _) => Option.none
      | (d2, r3) =>
        some ((digitsVal d1 : ℚ) + (digitsVal d2 : ℚ) / ((10 : ℚ) ^ d2.length), r3)
    | _ => Option.none

/-- JavaScript `parseFloat` on a whole token: optional sign, digits,
optional fraction; anything else is `NaN` (`Option.none`).  Exponent
notation is not modelled (plan text never contains it). -/
def parseFloatJS (s : Chars) : Option ℚ :=
  let s1 := s.dropWhile isWS
  let (sgn, s2) : ℚ × Chars :=
    match s1 with
    | '-' :: r => (-1, r)
    | '+' :: r => (1, r)
    | r => (1, r)
  match s2.span Char.isDigit with
  | ([], _) => Option.none
  | (d1, r1) =>
    match r1 with
    | '.' :: r2 =>
      match r2.span Char.isDigit with
      | (d2, _) =>
        some (sgn * ((digitsVal d1 : ℚ) + (digitsVal d2 : ℚ) / ((10 : ℚ) ^ d2.length)))
    | _ => some (sgn * (digitsVal d1 : ℚ))

/-- JavaScript `parseInt(x, 0)` on a whole token: `Option.none` is `NaN`. -/
def parseIntJS (s : Chars) : Option Int :=
  let s1 := s.dropWhile isWS
  let (sgn, s2) : Int × Chars :=
    match s1 with
    | '-' :: r => (-1, r)
    | '+' :: r => (1, r)
    | r => (1, r)
  match s2.span Char.isDigit with
  | ([], _) => Option.none
  | (ds, _) => some (sgn * (digitsVal ds : Int))

/-! ### The node-line regular expression (text.ts:110-125)

`^(\s*->\s*|\s*)([^\r\n\t\f\v:(]*?)\s*(?:(?:COST\s+\(ACT\))|(?:COST)|(?:\(ACT\)))\s*$`
applied to the indentation-stripped line.  The lazy type group cannot
contain `(` or `:`, so the parenthesised tail must begin at the first
parenthesis and a colon anywhere before it kills the match; the
alternatives are tried in source order. -/

/-- The three shapes of the `actual` group (text.ts:80):
`actual time=A..B rows=N loops=M` / `actual rows=N loops=M` /
`never executed` (the separators inside the first two are single `\s`). -/
inductive ActualsM where
  | times (t1 t2 : ℚ) (rows loops : Nat) : ActualsM
  | rowsOnly (rows loops : Nat) : ActualsM
  | never : ActualsM
deriving DecidableEq

/-- Which of the three alternatives of the tail matched: estimation plus
parenthesised actuals (groups 3-13), estimation only (14-17), or
parenthesised actuals only (18-24). -/
inductive NodeAlt where
  | estActual (est : ℚ × ℚ × Nat × Nat) (act : ActualsM) : NodeAlt
  | estOnly (est : ℚ × ℚ × Nat × Nat) : NodeAlt
  | actOnly (act : ActualsM) : NodeAlt
deriving DecidableEq

structure NodeM where
  nodeType : Chars
  alt : NodeAlt
deriving DecidableEq

/-- `\(cost=(\d+\.\d+)\.\.(\d+\.\d+)\s+rows=(\d+)\s+width=(\d+)\)`. -/
def parseCost (s : Chars) : Option ((ℚ × ℚ × Nat × Nat) × Chars) := do
  let s ← lit "(cost=" s
  let (c1, s) ← parseFixed s
  let s ← lit ".." s
  let (c2, s) ← parseFixed s
  let s ← ws1 s
  let s ← lit "rows=" s
  let (r, s) ← parseNatTok s
  let s ← ws1 s
  let s ← lit "width=" s
  let (w, s) ← parseNatTok s
  let s ← lit ")" s
  some ((c1, c2, r, w), s)

/-- The body of the `actual` alternation. -/
def parseActualBody (s : Chars) : Option (ActualsM × Chars) :=
  match lit "actual" s with
  | some s1 =>
    match wsOne s1 with
    | Option.none => Option.none
    | some s2 =>
      match lit "time=" s2 with
      | some s3 => do
        let (t1, s) ← parseFixed s3
        let s ← lit ".." s
        let (t2, s) ← parseFixed s
        let s ← wsOne s
        let s ← lit "rows=" s
        let (r, s) ← parseNatTok s
        let s ← wsOne s
        let s ← lit "loops=" s
        let (l, s) ← parseNatTok s
        some (.times t1 t2 r l, s)
      | Option.none => do
        let s ← lit "rows=" s2
        let (r, s) ← parseNatTok s
        let s ← wsOne s
        let s ← lit "loops=" s
        let (l, s) ← parseNatTok s
        some (.rowsOnly r l, s)
  | Option.none => do
    let s ← lit "never" s
    let s ← ws1 s
    let s ← lit "executed" s
    some (ActualsM.never, s)

/-- `\(` actual `\)`. -/
def parseParenActual (s : Chars) : Option (ActualsM × Chars) := do
  let s ← lit "(" s
  let (a, s) ← parseActualBody s
  let s ← lit ")" s
  some (a, s)

/-- Split the line at the first `(`; fail on any `[:\r\n\t\f\v]` before it
(the type group excludes them) or if no parenthesis follows. -/
def splitType (s : Chars) : Option (Chars × Chars)
  := match s with
  | [] => Option.none
  | '(' :: r => some ([], '(' :: r)
  | c :: r =>
    if c = ':' || c = '\r' || c = '\n' || c = '\t' || c = '\x0c' || c = '\x0b' then
      Option.none
    else
      match splitType r with
      | some (t, p) => some (c :: t, p)
      | Option.none => Option.none

/-- The node-line match on the indentation-stripped line. -/
def nodeMatchOfLine (s : Chars) : Option NodeM :=
  let s1 := match s with
    | '-' :: '>' :: r => r.dropWhile isWS
    | r => r
  match splitType s1 with
  | Option.none => Option.none
  | some (tRaw, p) =>
    let ty := dropTrailWs tRaw
    match parseCost p with
    | some (est, r1) =>
      match ws1 r1 with
      | some r2 =>
        match parseParenActual r2 with
        | some (act, r3) =>
          if wsOnly r3 then some ⟨ty, .estActual est act⟩
          else if wsOnly r1 then some ⟨ty, .estOnly est⟩ else Option.none
        | Option.none => if wsOnly r1 then some ⟨ty, .estOnly est⟩ else Option.none
      | Option.none => if wsOnly r1 then some ⟨ty, .estOnly est⟩ else Option.none
    | Option.none =>
      match parseParenActual p with
      | some (act, r) => if wsOnly r then some ⟨ty, .actOnly act⟩ else Option.none
      | Option.none => Option.none

/-! ### Building a node from a match (text.ts:177-201) -/

/-- Property values as stored on nodes/workers/root by the text parser. -/
inductive TVal where
  | str (v : Chars) : TVal
  | num (v : ℚ) : TVal
  | boolv (b : Bool) : TVal
  | nullv : TVal
  | nanv : TVal
  | listv (vs : List Chars) : TVal
deriving DecidableEq

/-- JavaScript truthiness of a stored property value: the empty string,
`0`, `NaN`, `null` and `false` are falsy; any array (even an empty one) is
an object and truthy. -/
def TVal.truthy : TVal → Bool
  | .str v => !v.isEmpty
  | .num q => decide (q ≠ 0)
  | .boolv b => b
  | .nullv => false
  | .nanv => false
  | .listv _ => true

structure TWorker where
  num : Nat
  actualStartupTime : Option ℚ := Option.none
  actualTotalTime : Option ℚ := Option.none
  actualRows : Option Nat := Option.none
  actualLoops : Option Nat := Option.none
  jit : Bool := false
  jitPlans : List Nat := []
  props : List (Chars × TVal) := []
deriving DecidableEq

/-- A plan node (an arena entry; `plans` holds arena indices of the
children, mirroring the mutable `Plans` arrays of the source). -/
structure TNode where
  nodeType : Chars
  startupCost : Option ℚ := Option.none
  totalCost : Option ℚ := Option.none
  planRows : Option Nat := Option.none
  planWidth : Option Nat := Option.none
  actualStartupTime : Option ℚ := Option.none
  actualTotalTime : Option ℚ := Option.none
  actualRows : Option Nat := Option.none
  actualLoops : Option Nat := Option.none
  parentRelationship : Option Chars := Option.none
  subplanName : Option Chars := Option.none
  plans : List Nat := []
  workers : List TWorker := []
  props : List (Chars × TVal) := []
deriving DecidableEq

/-- The group tests of text.ts:181-201.  Estimates come from either
estimation alternative (groups 3/4 or 14/15); actual times from the
`time=` variant of either actuals position (7/8 or 18/19); actual
rows/loops from 9/10, 11/12 or 20/21 — the `actual rows= loops=` variant
of the *actuals-only* alternative (groups 22/23) is not inspected; and the
never-executed zeros hang on group 13 alone, the never group of the
estimation-plus-actuals alternative. -/
def buildNode (m : NodeM) : TNode :=
  let est? : Option (ℚ × ℚ × Nat × Nat) :=
    match m.alt with
    | .estActual e _ => some e
    | .estOnly e => some e
    | .actOnly _ => Option.none
  let times? : Option (ℚ × ℚ) :=
    match m.alt with
    | .estActual _ (.times t1 t2 _ _) => some (t1, t2)
    | .actOnly (.times t1 t2 _ _) => some (t1, t2)
    | _ => Option.none
  let rows? : Option (Nat × Nat) :=
    match m.alt with
    | .estActual _ (.times _ _ r l) => some (r, l)
    | .estActual _ (.rowsOnly r l) => some (r, l)
    | .actOnly (.times _ _ r l) => some (r, l)
    | _ => Option.none
  let never13 : Bool :=
    match m.alt with
    | .estActual _ .never => true
    | _ => false
  { nodeType := m.nodeType,
    startupCost := est?.map (·.1),
    totalCost := est?.map (·.2.1),
    planRows := est?.map (·.2.2.1),
    planWidth := est?.map (·.2.2.2),
    actualStartupTime := times?.map (·.1),
    actualTotalTime := if never13 then some 0 else times?.map (·.2),
    actualRows := if never13 then some 0 else rows?.map (·.1),
    actualLoops := if never13 then some 0 else rows?.map (·.2) }

/-- Claim C9: a node line whose actuals variant is `(never executed)` gets
actual_loops = actual_rows = actual_total_time = 0 — true for the
estimation-plus-actuals alternative, where the never group (13) that the
code tests lives.  (`C9_counterexample`: in the actuals-only alternative —
a line with no `(cost=…)` section — the never group is 24, the test fails,
and no zeros are assigned.) -/
theorem C9_never_executed (s : Chars) (m : NodeM) (est : ℚ × ℚ × Nat × Nat)
    (h : nodeMatchOfLine s = some m)
    (halt : m.alt = NodeAlt.estActual est ActualsM.never) :
    (buildNode m).actualLoops = some 0 ∧
    (buildNode m).actualRows = some 0 ∧
    (buildNode m).actualTotalTime = some 0 ∧
    (buildNode m).startupCost = some est.1 ∧
    (buildNode m).totalCost = some est.2.1 := by
  obtain ⟨ty, alt⟩ := m
  obtain ⟨a, b, c, d⟩ := est
  cases halt
  exact ⟨rfl, rfl, rfl, rfl, rfl⟩

/-- Witness for `C9_never_executed` on the spec's example line. -/
theorem C9_never_executed_witness :
    nodeMatchOfLine "->  Index Scan using i on t  (cost=0.00..8.00 rows=1 width=4) (never executed)".data
      = some ⟨"Index Scan using i on t".data,
          NodeAlt.estActual (0, 8, 1, 4) ActualsM.never⟩ ∧
    (buildNode ⟨"Index Scan using i on t".data,
        NodeAlt.estActual (0, 8, 1, 4) ActualsM.never⟩).actualLoops = some 0 := by
  refine ⟨by decide, ?_⟩
  exact (C9_never_executed
    "->  Index Scan using i on t  (cost=0.00..8.00 rows=1 width=4) (never executed)".data
    _ (0, 8, 1, 4) (by decide) rfl).1

/-- Claim C9 is false for the actuals-only alternative: `Foo (never
executed)` (no cost section) matches the node pattern with the never
variant, but the node gets no actual values at all — group 13 is unset, so
the zeros are skipped. -/
theorem C9_counterexample :
    nodeMatchOfLine "Foo (never executed)".data
      = some ⟨"Foo".data, NodeAlt.actOnly ActualsM.never⟩ ∧
    (buildNode ⟨"Foo".data, NodeAlt.actOnly ActualsM.never⟩).actualLoops = Option.none ∧
    (buildNode ⟨"Foo".data, NodeAlt.actOnly ActualsM.never⟩).actualRows = Option.none ∧
    (buildNode ⟨"Foo".data, NodeAlt.actOnly ActualsM.never⟩).actualTotalTime = Option.none := by
  refine ⟨by decide, rfl, rfl, rfl⟩

/-! ### The other line matchers of `fromText` (text.ts:128-172) -/

/-- `'^s*$'` — the intended `'^\\s*$'` lost its backslash in the plain
JavaScript string, so the "empty line" regex really matches zero or more
literal `s` characters.  All-whitespace lines still pass (indentation was
stripped, leaving the empty string), but so does a line of `s`s. -/
def emptyM (s : Chars) : Bool := s.all (· = 's')

/-- `^\s*(QUERY|---|#).*$` on the stripped line. -/
def headerM (s : Chars) : Bool :=
  (lit "QUERY" s).isSome || (lit "---" s).isSome || (lit "#" s).isSome

/-- `^(\s*)((?:Sub|Init)Plan)\s*(?:\d+\s*)?\s*(?:\(returns.*\)\s*)?$`;
returns the lower-cased element type and the element name, which the
source takes from `subMatches[0]` — the whole line. -/
def subM (s : Chars) : Option (Chars × Chars) :=
  let tail? : Option (Chars × Chars) :=
    match lit "SubPlan" s with
    | some r => some ("subplan".data, r)
    | Option.none => (lit "InitPlan" s).map ("initplan".data, ·)
  match tail? with
  | Option.none => Option.none
  | some (ty, r) =>
    let r1 := (((r.dropWhile isWS).dropWhile Char.isDigit).dropWhile isWS)
    match lit "(returns" r1 with
    | some r2 =>
      let t := dropTrailWs r2
      match t.getLast? with
      | some ')' => some (ty, s)
      | _ => Option.none
    | Option.none => if wsOnly r1 then some (ty, s) else Option.none

/-- `^(\s*)CTE\s+(\S+)\s*$`; returns the CTE name (group 2). -/
def cteM (s : Chars) : Option Chars := do
  let r ← lit "CTE" s
  let r ← ws1 r
  match r.span (fun c => !isWS c) with
  | ([], _) => Option.none
  | (name, rest) => if wsOnly rest then some name else Option.none

/-- All ways of splitting a list at one occurrence of `c`. -/
def charSplits (c : Char) : Chars → List (Chars × Chars)
  | [] => []
  | x :: r =>
    (if x = c then [(([] : Chars), r)] else []) ++
      (charSplits c r).map (fun p => (x :: p.1, p.2))

/-- The tail of the trigger regex after the colon:
`\s+time=(\d+\.\d+)\s+calls=(\d+)\s*$`. -/
def triggerTail (s : Chars) : Option (ℚ × Chars) := do
  let r ← ws1 s
  let r ← lit "time=" r
  let (t, r) ← parseFixed r
  let r ← ws1 r
  let r ← lit "calls=" r
  match r.span Char.isDigit with
  | ([], _) => Option.none
  | (ds, rest) => if wsOnly rest then some (t, ds) else Option.none

/-- `^(\s*)Trigger\s+(.*):\s+time=(\d+\.\d+)\s+calls=(\d+)\s*$`; the
greedy `(.*)` makes the *last* colon with a parsing tail win.  `Calls`
stays a digit string (the source never parses it). -/
def triggerM (s : Chars) : Option (Chars × ℚ × Chars) := do
  let r ← lit "Trigger" s
  let r ← ws1 r
  ((charSplits ':' r).reverse.findSome? fun p =>
    (triggerTail p.2).map fun tc => (p.1, tc.1, tc.2))

/-- `^(\s*)Worker\s+(\d+):\s+(?:ACT)?(.*)\s*$`; yields the worker
number, the optional actuals and the free-form remainder (group 10). -/
def workerM (s : Chars) : Option (Nat × Option ActualsM × Chars) := do
  let r ← lit "Worker" s
  let r ← ws1 r
  let (wn, r) ← parseNatTok r
  let r ← lit ":" r
  let r ← ws1 r
  match parseActualBody r with
  | some (a, rest) => some (wn, some a, rest)
  | Option.none => some (wn, Option.none, r)

/-- `^(\s*)JIT:\s*$`. -/
def jitM (s : Chars) : Bool :=
  match lit "JIT:" s with
  | some r => wsOnly r
  | Option.none => false

/-- `^(\s*)(\S.*\S)\s*$` on the stripped line: at least two characters
once trailing whitespace is removed; group 2 is the trimmed line. -/
def extraM (s : Chars) : Option Chars :=
  let t := dropTrailWs s
  if 2 ≤ t.length then some t else Option.none

/-! ### Line preprocessing (text.ts:56-66) -/

/-- `line.replace(/"\s*$/, '')`: drop one trailing quote and the
whitespace after it. -/
def stripTrailQuote (l : Chars) : Chars :=
  let t := dropTrailWs l
  match t.getLast? with
  | some '"' => t.dropLast
  | _ => l

/-- `line.replace(/^\s*"/, '')`: drop leading whitespace plus one quote —
only when the quote is there. -/
def stripLeadQuote (l : Chars) : Chars :=
  match l.dropWhile isWS with
  | '"' :: r => r
  | _ => l

/-- `line.replace(/\t/gm, '    ')`. -/
def expandTabs (l : Chars) : Chars :=
  l.flatMap fun c => if c = '	' then [' ', ' ', ' ', ' '] else [c]

def preprocessed (raw : Chars) : Chars :=
  expandTabs (stripLeadQuote (stripTrailQuote raw))

/-- `depth`: the length of the leading whitespace of the preprocessed
line. -/
def depthOf (raw : Chars) : Nat :=
  ((preprocessed raw).takeWhile isWS).length

/-- The line with its indentation removed — what all the matchers see. -/
def strippedOf (raw : Chars) : Chars :=
  (preprocessed raw).dropWhile isWS

/-! ### `splitIntoLines` (text.ts:17-44) -/

/-- Split on `/\r?\n/` (a lone `\r` does not separate). -/
def splitLinesAux : Chars → Chars → List Chars
  | acc, [] => [acc.reverse]
  | acc, '\r' :: '\n' :: r => acc.reverse :: splitLinesAux [] r
  | acc, '\n' :: r => acc.reverse :: splitLinesAux [] r
  | acc, c :: r => splitLinesAux (c :: acc) r

def countChar (c : Char) (l : Chars) : Nat := (l.filter (· = c)).length

/-- `/^(?:Total\s+runtime|Planning\s+time|Execution\s+time|Time|Filter|Output|JIT)/i`. -/
def kwMatch (l : Chars) : Bool :=
  (do let r ← litCI "Total" l; let r ← ws1 r; litCI "runtime" r).isSome ||
  (do let r ← litCI "Planning" l; let r ← ws1 r; litCI "time" r).isSome ||
  (do let r ← litCI "Execution" l; let r ← ws1 r; litCI "time" r).isSome ||
  (litCI "Time" l).isSome || (litCI "Filter" l).isSome ||
  (litCI "Output" l).isSome || (litCI "JIT" l).isSome

/-- first non-blank character is an opening parenthesis. -/
def startsWsParen (l : Chars) : Bool :=
  match l.dropWhile isWS with
  | '(' :: _ => true
  | _ => false

/-- The line-joining fold of `splitIntoLines`; `out` is kept reversed
(most recent line first).  When a continuation line arrives while `out` is
still empty, the source writes to `out[-1]` — a plain property of the
array object, not an element — so the line is silently lost. -/
def siFold : List Chars → List Chars → List Chars
  | out, [] => out.reverse
  | out, l :: rest =>
    if countChar ')' l > countChar '(' l then
      match out with
      | [] => siFold [] rest
      | last :: prev => siFold ((last ++ l) :: prev) rest
    else if kwMatch l then siFold (l :: out) rest
    else if (match l with | c :: _ => !isWS c | [] => false) || startsWsParen l then
      match out with
      | [] => siFold [l] rest
      | last :: prev => siFold ((last ++ l) :: prev) rest
    else siFold (l :: out) rest

def splitIntoLines (text : Chars) : List Chars := siFold [] (splitLinesAux [] text)

/-! ### Property bags and small lodash/JS helpers -/

def getProp : List (Chars × TVal) → Chars → Option TVal
  | [], _ => Option.none
  | (k', v') :: r, k => if k' = k then some v' else getProp r k

/-- JavaScript object assignment: replace in place or append. -/
def setProp : List (Chars × TVal) → Chars → TVal → List (Chars × TVal)
  | [], k, v => [(k, v)]
  | (k', v') :: r, k, v =>
    if k' = k then (k', v) :: r else (k', v') :: setProp r k v

/-- `_.capitalize`: first character upper, rest lower. -/
def capitalize (w : Chars) : Chars :=
  match w with
  | [] => []
  | c :: r => c.toUpper :: r.map Char.toLower

def wordsAux : Chars → Chars → List Chars
  | acc, [] => if acc.isEmpty then [] else [acc.reverse]
  | acc, c :: r =>
    if isWS c then
      if acc.isEmpty then wordsAux [] r else acc.reverse :: wordsAux [] r
    else wordsAux (c :: acc) r

def joinSp : List Chars → Chars
  | [] => []
  | [w] => w
  | w :: r => w ++ ' ' :: joinSp r

/-- `_.startCase`, simplified to its effect on space-separated plan
property names: capitalize each word (the camelCase splitting and
punctuation stripping of lodash never trigger on these). -/
def startCase (s : Chars) : Chars := joinSp ((wordsAux [] s).map capitalize)

/-- `_.upperCase`, same simplification. -/
def upperAll (s : Chars) : Chars := joinSp ((wordsAux [] s).map (·.map Char.toUpper))

def trimWs (s : Chars) : Chars := dropTrailWs (s.dropWhile isWS)

/-- `value.replace(/(\s*ms)$/, '')`. -/
def stripMs (s : Chars) : Chars :=
  match (s.reverse) with
  | 's' :: 'm' :: r => (r.dropWhile isWS).reverse
  | _ => s

/-- All splits of `s` at an occurrence of `Memory:` or `Disk:`
(before, word, after), leftmost first. -/
def msSplits : Chars → List (Chars × Chars × Chars)
  | [] => []
  | c :: r =>
    (if "Memory:".data.isPrefixOf (c :: r) then
      [(([] : Chars), "Memory".data, (c :: r).drop 7)] else []) ++
    (if "Disk:".data.isPrefixOf (c :: r) then
      [(([] : Chars), "Disk".data, (c :: r).drop 5)] else []) ++
    (msSplits r).map (fun p => (c :: p.1, p.2.1, p.2.2))

/-- All splits of `s` at an occurrence of `pat` (before, after), leftmost
first. -/
def substrSplits (pat : String) : Chars → List (Chars × Chars)
  | [] => []
  | c :: r =>
    (if pat.data.isPrefixOf (c :: r) then
      [(([] : Chars), (c :: r).drop pat.data.length)] else []) ++
    (substrSplits pat r).map (fun p => (c :: p.1, p.2))

/-- Split on `/,\s+/` (fuelled scanner; the fuel is the length). -/
def splitCommaWs1Aux : Nat → Chars → Chars → List Chars
  | 0, acc, rest => [(acc.reverse ++ rest)]
  | _ + 1, acc, [] => [acc.reverse]
  | fuel + 1, acc, ',' :: r =>
    if (match r with | c :: _ => isWS c | [] => false) then
      acc.reverse :: splitCommaWs1Aux fuel [] (r.dropWhile isWS)
    else splitCommaWs1Aux fuel (',' :: acc) r
  | fuel + 1, acc, c :: r => splitCommaWs1Aux fuel (c :: acc) r

def splitCommaWs1 (s : Chars) : List Chars := splitCommaWs1Aux s.length [] s

/-- Split on `/\s*,\s*/`. -/
def splitCommaWsAux : Nat → Chars → Chars → List Chars
  | 0, acc, rest => [(acc.reverse ++ rest)]
  | _ + 1, acc, [] => [acc.reverse]
  | fuel + 1, acc, c :: r =>
    if c = ',' then (dropTrailWs acc.reverse) :: splitCommaWsAux fuel [] (r.dropWhile isWS)
    else splitCommaWsAux fuel (c :: acc) r

def splitCommaWs (s : Chars) : List Chars := splitCommaWsAux s.length [] s

/-- `Modelled from the spec:` `splitBalanced(s, ',')` (help-service, not in
the source tree) splits on separators occurring at parenthesis/bracket
nesting depth 0 and outside single/double quotes. -/
def sbAux (sep : Char) : Nat → Chars → Chars → Nat → Option Char → List Chars
  | 0, acc, rest, _, _ => [(acc.reverse ++ rest)]
  | _ + 1, acc, [], _, _ => [acc.reverse]
  | fuel + 1, acc, c :: r, d, some q =>
    if c = q then sbAux sep fuel (c :: acc) r d Option.none
    else sbAux sep fuel (c :: acc) r d (some q)
  | fuel + 1, acc, c :: r, d, Option.none =>
    if c = '\'' || c = '"' then sbAux sep fuel (c :: acc) r d (some c)
    else if c = '(' || c = '[' then sbAux sep fuel (c :: acc) r (d + 1) Option.none
    else if c = ')' || c = ']' then sbAux sep fuel (c :: acc) r (d - 1) Option.none
    else if c = sep && d = 0 then acc.reverse :: sbAux sep fuel [] r 0 Option.none
    else sbAux sep fuel (c :: acc) r d Option.none

def splitBalanced (s : Chars) (sep : Char) : List Chars :=
  sbAux sep s.length [] s 0 Option.none

/-- `JSON.parse` on the scalar literals that appear as option values;
containers and string escapes are not modelled (`Option.none` = the
`SyntaxError` the source would throw). -/
def jsonParseLit (s : Chars) : Option TVal :=
  if s = "true".data then some (.boolv true)
  else if s = "false".data then some (.boolv false)
  else if s = "null".data then some .nullv
  else
    match s with
    | '"' :: r =>
      match r.getLast? with
      | some '"' => some (.str r.dropLast)
      | _ => Option.none
    | _ =>
      let (sgn, s2) : ℚ × Chars :=
        match s with
        | '-' :: r => (-1, r)
        | r => (1, r)
      match s2.span Char.isDigit with
      | ([], _) => Option.none
      | (d1, r1) =>
        match r1 with
        | [] => some (.num (sgn * (digitsVal d1 : ℚ)))
        | '.' :: r2 =>
          match r2.span Char.isDigit with
          | ([], _) => Option.none
          | (d2, r3) =>
            if r3.isEmpty then
              some (.num (sgn * ((digitsVal d1 : ℚ) + (digitsVal d2 : ℚ) / ((10 : ℚ) ^ d2.length))))
            else Option.none
        | _ => Option.none

/-! ### The `parseXxx` sub-parsers (text.ts:404-634), as functions from
the line to: no match, a list of property writes, or a crash (the `!`
non-null assertions / `JSON.parse` of the source). -/

inductive SubRes where
  | nomatch : SubRes
  | okW (writes : List (Chars × TVal)) : SubRes
  | crash : SubRes
deriving DecidableEq

/-- `parseSort` (text.ts:465-479):
`^(\s*)Sort Method:\s+(.*)\s+(Memory|Disk):\s+(?:(\S*)kB)\s*$`; greedy
`(.*)`, so the last `Memory:`/`Disk:` that completes a match wins.
`Sort Space Used` keeps the raw digit string. -/
def parseSortM (t : Chars) : Option (List (Chars × TVal)) := do
  let r0 ← lit "Sort Method:" (t.dropWhile isWS)
  let rest ← ws1 r0
  (msSplits rest).reverse.findSome? fun p =>
    match p.1.getLast? with
    | some wch =>
      if isWS wch then
        match ws1 p.2.2 with
        | some a1 =>
          match a1.span (fun c => !isWS c) with
          | (tok, r2) =>
            if "kB".data.isSuffixOf tok && wsOnly r2 then
              some [("Sort Method".data, .str (trimWs p.1)),
                ("Sort Space Used".data, .str (tok.take (tok.length - 2))),
                ("Sort Space Type".data, .str p.2.1)]
            else Option.none
        | Option.none => Option.none
      else Option.none
    | Option.none => Option.none

def intOrNan (s : Chars) : TVal :=
  match parseIntJS s with
  | some n => .num (n : ℚ)
  | Option.none => .nanv

def floatOrNan (s : Chars) : TVal :=
  match parseFloatJS s with
  | some q => .num q
  | Option.none => .nanv

/-- Split a `k=v` token on `=` (JS `split(/=/)`: a missing value gives
`undefined`, whose `parseInt` is `NaN`). -/
def eqSplit (tok : Chars) : Chars × Chars :=
  match tok.span (· ≠ '=') with
  | (k, _ :: v) => (k, v)
  | (k, []) => (k, [])

/-- `parseBuffers`/`parseBuffer` (text.ts:483-521): unanchored
`Buffers:\s+(.*)\s*$`; per comma-chunk, unanchored
`(shared|temp|local)\s+(.*)$`, zero defaults for hit/read/written/dirtied,
then `k=v` writes (`parseInt`, `NaN` kept). -/
def parseBuffersM (t : Chars) : Option (List (Chars × TVal)) :=
  ((substrSplits "Buffers:" t).findSome? fun p => ws1 p.2).map fun rest =>
    (splitCommaWs1 rest).flatMap fun chunk =>
      let m? := (substrSplits "shared" chunk).findSome? (fun p => (ws1 p.2).map (("shared", ·))) <|>
        (substrSplits "temp" chunk).findSome? (fun p => (ws1 p.2).map (("temp", ·))) <|>
        (substrSplits "local" chunk).findSome? (fun p => (ws1 p.2).map (("local", ·)))
      match m? with
      | Option.none => []
      | some (ty, info) =>
        let base := ["hit", "read", "written", "dirtied"].map fun mth =>
          (joinSp [capitalize ty.data, capitalize mth.data, "Blocks".data], TVal.num 0)
        let upds := (wordsAux [] info).map fun tok =>
          let (k, v) := eqSplit tok
          (joinSp [capitalize ty.data, capitalize k, "Blocks".data], intOrNan v)
        base ++ upds

/-- `parseWAL` (text.ts:529-555): unanchored `WAL:\s+(.*)\s*$`, zero
defaults for Records/Bytes/FPI, then `k=v` (`fpi` upper-cased specially). -/
def parseWALM (t : Chars) : Option (List (Chars × TVal)) :=
  ((substrSplits "WAL:" t).findSome? fun p => ws1 p.2).map fun rest =>
    let base := ["Records", "Bytes", "FPI"].map fun ty =>
      (("WAL ".data ++ ty.data), TVal.num 0)
    let upds := (wordsAux [] rest).map fun tok =>
      let (k, v) := eqSplit tok
      let caps := if k = "fpi".data then "FPI".data else capitalize k
      (("WAL ".data ++ caps), intOrNan v)
    base ++ upds

/-- `parseIOTimings` (text.ts:557-583): unanchored
`I\/O Timings:\s+(.*)\s*$`; `k=v` with the property looked up as
`NodeProp['IO_' + upperCase(k) + '_TIME']` — anything but read/write lands
on the literal property `undefined`. -/
def parseIOTimingsM (t : Chars) : Option (List (Chars × TVal)) :=
  ((substrSplits "I/O Timings:" t).findSome? fun p => ws1 p.2).map fun rest =>
    let base := [("I/O Read Time".data, TVal.num 0), ("I/O Write Time".data, TVal.num 0)]
    let upds := (wordsAux [] rest).map fun tok =>
      let (k, v) := eqSplit tok
      let key := if upperAll k = "READ".data then "I/O Read Time".data
        else if upperAll k = "WRITE".data then "I/O Write Time".data
        else "undefined".data
      (key, floatOrNan v)
    base ++ upds

/-- One `(\S*)\s+(.*)$` option of an Options/Timing block; `Option.none`
is the `matches![1]` crash of the source. -/
def optSplit (o : Chars) : Option (Chars × Chars) :=
  match o.span (fun c => !isWS c) with
  | (k, rest) => (ws1 rest).map fun v => (k, v)

/-- `parseOptions` (text.ts:585-608): `^(\s*)Options:\s+(.*)$`; each
comma-separated option is split and its value fed to `JSON.parse`
(`SubRes.crash` for the `!` assertion or a JSON syntax error).  The J​S
`el.Options[key]` nesting is flattened to a dotted property name. -/
def parseOptionsM (t : Chars) : SubRes :=
  match (do let r ← lit "Options:" (t.dropWhile isWS); ws1 r) with
  | Option.none => .nomatch
  | some rest =>
    let step := fun (acc : Option (List (Chars × TVal))) (o : Chars) =>
      match acc with
      | Option.none => Option.none
      | some ws =>
        match optSplit o with
        | Option.none => Option.none
        | some (k, v) =>
          match jsonParseLit v with
          | Option.none => Option.none
          | some tv => some (ws ++ [(("Options.".data ++ k), tv)])
    match (splitCommaWs rest).foldl step (some []) with
    | Option.none => .crash
    | some ws => .okW ws

/-- `parseTiming` (text.ts:610-633): same shape, values via `parseTime`
(strip `ms`, `parseFloat`, `NaN` kept). -/
def parseTimingM (t : Chars) : SubRes :=
  match (do let r ← lit "Timing:" (t.dropWhile isWS); ws1 r) with
  | Option.none => .nomatch
  | some rest =>
    let step := fun (acc : Option (List (Chars × TVal))) (o : Chars) =>
      match acc with
      | Option.none => Option.none
      | some ws =>
        match optSplit o with
        | Option.none => Option.none
        | some (k, v) => some (ws ++ [(("Timing.".data ++ k), floatOrNan (stripMs v))])
    match (splitCommaWs rest).foldl step (some []) with
    | Option.none => .crash
    | some ws => .okW ws

/-- One `^(\S*)\s+=\s+(.*)$` setting; `Option.none` is the `matches![1]`
crash. -/
def settingSplit (o : Chars) : Option (Chars × Chars) := do
  match o.span (fun c => !isWS c) with
  | (k, rest) =>
    let r ← ws1 rest
    let r ← lit "=" r
    let v ← ws1 r
    some (k, v)

/-- `parseSettings` (text.ts:404-425): `^(\s*)Settings:\s*(.*)$`, options
via `splitBalanced`, quotes stripped from values; a malformed option
crashes. -/
def parseSettingsM (t : Chars) : SubRes :=
  match lit "Settings:" (t.dropWhile isWS) with
  | Option.none => .nomatch
  | some r0 =>
    let rest := r0.dropWhile isWS
    let step := fun (acc : Option (List (Chars × TVal))) (o : Chars) =>
      match acc with
      | Option.none => Option.none
      | some ws =>
        match settingSplit (trimWs o) with
        | Option.none => Option.none
        | some (k, v) =>
          some (ws ++ [(("Settings.".data ++ k), TVal.str (v.filter (· ≠ '\'')))])
    match (splitBalanced rest ',').foldl step (some []) with
    | Option.none => .crash
    | some ws => .okW ws

/-- `parseSortGroups` (text.ts:427-453):
`^\s*(Full-sort|Pre-sorted) Groups:\s+([0-9]*)\s+Sort Method[s]*:\s+(.*)\s+Average Memory:\s+(\S*)kB\s+Peak Memory:\s+(\S*)kB.*$`
(crash-free; the group contents are flattened to dotted properties). -/
def parseSortGroupsM (t : Chars) : Option (List (Chars × TVal)) := do
  let t1 := t.dropWhile isWS
  let (word, r0) ←
    match lit "Full-sort" t1 with
    | some r => some ("Full-sort".data, r)
    | Option.none => (lit "Pre-sorted" t1).map ("Pre-sorted".data, ·)
  let r ← lit " Groups:" r0
  let r ← ws1 r
  let (cnt, r) :=
    match r.span Char.isDigit with
    | (ds, rr) => (digitsVal ds, rr)
  let r ← ws1 r
  let r ← lit "Sort Method" r
  let r ← lit ":" (r.dropWhile (· = 's'))
  let r ← ws1 r
  ((substrSplits "Average Memory:" r).reverse.findSome? fun p =>
    match p.1.getLast? with
    | some wch =>
      if isWS wch then do
        let a1 ← ws1 p.2
        match a1.span (fun c => !isWS c) with
        | (tok1, r2) => do
          let _ ← if "kB".data.isSuffixOf tok1 then some () else Option.none
          let r3 ← ws1 r2
          let r4 ← lit "Peak Memory:" r3
          let r5 ← ws1 r4
          match r5.span (fun c => !isWS c) with
          | (tok2, _) => do
            let _ ← if "kB".data.isSuffixOf tok2 then some () else Option.none
            some [((word ++ " Groups.Group Count".data), TVal.num (cnt : ℚ)),
              ((word ++ " Groups.Sort Methods Used".data), TVal.listv
                ((splitCommaWs p.1).map trimWs)),
              ((word ++ " Groups.Average Sort Space Used".data),
                intOrNan (tok1.take (tok1.length - 2))),
              ((word ++ " Groups.Peak Sort Space Used".data),
                intOrNan (tok2.take (tok2.length - 2)))]
      else Option.none
    | Option.none => Option.none)

/-- `parseSortKey` (text.ts:455-463):
`^\s*((?:Sort|Presorted) Key):\s+(.*)`; the balanced-split list is the
value. -/
def parseSortKeyM (t : Chars) : Option (List (Chars × TVal)) := do
  let t1 := t.dropWhile isWS
  let (name, r0) ←
    match lit "Sort Key" t1 with
    | some r => some ("Sort Key".data, r)
    | Option.none => (lit "Presorted Key" t1).map ("Presorted Key".data, ·)
  let r ← lit ":" r0
  let v ← ws1 r
  some [(name, TVal.listv ((splitBalanced v ',').map trimWs))]

/-! ### The `fromText` loop (text.ts:46-399)

The loop mutates a tree of `Node` objects through a stack of references
(`elementsAtDepth`); here the nodes live in an arena (`PState.nodes`,
children as indices) and each stack frame carries a `Target` naming the
object its `node` field aliases.  `root.JIT` and the `JIT` objects of
workers are modelled by dedicated fields; JIT objects more than two
aliasing levels deep are collapsed into one `ghost` sink (nothing the
parser returns ever reads them back, and their handling is crash-free).
`Except Unit` is the crash monad: `.error ()` marks the places where the
JavaScript would throw a `TypeError` (`_.last(...)![1]` on an empty stack,
`matches![...]` on a failed option match) or a `SyntaxError`
(`JSON.parse`). -/

inductive Target where
  | nodeT (i : Nat) : Target
  | rootJitT : Target
  | workerJitT (ni wi : Nat) : Target
  | ghostT : Target
deriving DecidableEq

structure Frame where
  target : Target
  subType : Option Chars := Option.none
  name : Option Chars := Option.none
deriving DecidableEq

/-- `root.Plan`: either the node attached by the first root node line or a
plain value written by an extra line whose property happens to be `Plan`. -/
inductive RootPlanV where
  | nodeRef (i : Nat) : RootPlanV
  | propv (v : TVal) : RootPlanV
deriving DecidableEq

structure PState where
  nodes : List TNode := []
  rootPlan : Option RootPlanV := Option.none
  rootJIT : Bool := false
  jitPlans : List Nat := []
  jitProps : List (Chars × TVal) := []
  rootProps : List (Chars × TVal) := []
  triggers : List (Chars × ℚ × Chars) := []
  ghostPlans : List Nat := []
  ghostProps : List (Chars × TVal) := []
  ghostWorkers : List TWorker := []
  stack : List (Nat × Frame) := []
deriving DecidableEq

def initPS : PState := {}

def updIdx {α : Type} : List α → Nat → (α → α) → List α
  | [], _, _ => []
  | x :: r, 0, f => f x :: r
  | x :: r, n + 1, f => x :: updIdx r n f

def dfltNode : TNode := { nodeType := [] }

def getNode (st : PState) (j : Nat) : TNode := (st.nodes.get? j).getD dfltNode

/-- `previousElement.node[NodeProp.PLANS].push(newNode)` for each kind of
aliased object. -/
def attachChild (st : PState) (tgt : Target) (idx : Nat) : PState :=
  match tgt with
  | .nodeT j =>
    { st with nodes := updIdx st.nodes j fun n => { n with plans := n.plans ++ [idx] } }
  | .rootJitT => { st with jitPlans := st.jitPlans ++ [idx] }
  | .workerJitT j wi =>
    { st with nodes := updIdx st.nodes j fun n =>
        { n with workers := updIdx n.workers wi fun w =>
            { w with jitPlans := w.jitPlans ++ [idx] } } }
  | .ghostT => { st with ghostPlans := st.ghostPlans ++ [idx] }

def readProps (st : PState) (tgt : Option Target) : List (Chars × TVal) :=
  match tgt with
  | Option.none => st.rootProps
  | some (.nodeT j) => (getNode st j).props
  | some .rootJitT => st.jitProps
  | some (.workerJitT j wi) => (((getNode st j).workers.get? wi).getD { num := 0 }).props
  | some .ghostT => st.ghostProps

/-- One property assignment on the extra-branch element; on the root the
property `Plan` *is* `root.Plan`. -/
def writeProp1 (st : PState) (tgt : Option Target) (k : Chars) (v : TVal) : PState :=
  match tgt with
  | Option.none =>
    if k = "Plan".data then { st with rootPlan := some (.propv v) }
    else { st with rootProps := setProp st.rootProps k v }
  | some (.nodeT j) =>
    { st with nodes := updIdx st.nodes j fun n => { n with props := setProp n.props k v } }
  | some .rootJitT => { st with jitProps := setProp st.jitProps k v }
  | some (.workerJitT j wi) =>
    { st with nodes := updIdx st.nodes j fun n =>
        { n with workers := updIdx n.workers wi fun w =>
            { w with props := setProp w.props k v } } }
  | some .ghostT => { st with ghostProps := setProp st.ghostProps k v }

def writeMany (st : PState) (tgt : Option Target) (ws : List (Chars × TVal)) : PState :=
  ws.foldl (fun s kv => writeProp1 s tgt kv.1 kv.2) st

/-- Truthiness of a property of an object, as tested by the source's bare
`if (element[...])` checks: absent and falsy values both fail. -/
def propTruthy (ps : List (Chars × TVal)) (k : Chars) : Bool :=
  match getProp ps k with
  | some v => v.truthy
  | Option.none => false

/-- Truthiness of `root.Plan`: `null` when never assigned, a (truthy) node
object once a root node line attached, or whatever value an extra line
whose property is literally `Plan` stored — which can be falsy, e.g. the
empty string. -/
def rootPlanTruthy (st : PState) : Bool :=
  match st.rootPlan with
  | Option.none => false
  | some (.nodeRef _) => true
  | some (.propv v) => v.truthy

/-- `element.Plan` truthiness for the Query-Text continuation check
(`!element.Plan`, text.ts:336): on the root this is `root.Plan` itself;
on node and JIT objects it is the `Plan` property, which only an extra
line can have written. -/
def planPresent (st : PState) (tgt : Option Target) : Bool :=
  match tgt with
  | Option.none => rootPlanTruthy st
  | some t => propTruthy (readProps st (some t)) "Plan".data

/-- `/: (.+)/`: split at the first `": "` with a non-empty remainder. -/
def splitColon : Chars → Option (Chars × Chars)
  | [] => Option.none
  | ':' :: ' ' :: c :: r => some (([] : Chars), c :: r)
  | c :: r => (splitColon r).map fun p => (c :: p.1, p.2)

/-- The node-line branch (text.ts:176-235). -/
def nodeBranch (st : PState) (depth : Nat) (m : NodeM) : Except Unit PState :=
  if st.stack.isEmpty then
    let idx := st.nodes.length
    let stA := { st with nodes := st.nodes ++ [buildNode m] }
    let stB := { stA with rootPlan := some (RootPlanV.nodeRef idx) }
    .ok { stB with stack := [(depth, ⟨.nodeT idx, some "subnode".data, Option.none⟩)] }
  else
    let stack' := st.stack.filter fun e => e.1 < depth
    match stack' with
    | [] => .error ()
    | (_, fr) :: _ =>
      let idx := st.nodes.length
      let nd := buildNode m
      let nd :=
        if fr.subType = some "initplan".data then
          { nd with parentRelationship := some "InitPlan".data, subplanName := fr.name }
        else if fr.subType = some "subplan".data then
          { nd with parentRelationship := some "SubPlan".data, subplanName := fr.name }
        else nd
      let stA := { st with nodes := st.nodes ++ [nd] }
      let st1 := { stA with stack := (depth, ⟨.nodeT idx, some "subnode".data, Option.none⟩) :: stack' }
      .ok (attachChild st1 fr.target idx)

/-- The SubPlan/InitPlan and CTE branches (text.ts:237-264) push a frame
aliasing the previous element's node. -/
def pseudoFrameBranch (st : PState) (depth : Nat) (ty nm : Chars) : Except Unit PState :=
  let stack' := st.stack.filter fun e => e.1 < depth
  match stack' with
  | [] => .error ()
  | (_, fr) :: _ =>
    .ok { st with stack := (depth, ⟨fr.target, some ty, some nm⟩) :: stack' }

def workerUpd (act? : Option ActualsM) (rest10 : Chars) (w : TWorker) : TWorker :=
  let w :=
    match act? with
    | some (.times t1 t2 r l) =>
      let wA := { w with actualStartupTime := some t1 }
      let wB := { wA with actualTotalTime := some t2 }
      let wC := { wB with actualRows := some r }
      { wC with actualLoops := some l }
    | _ => w
  match parseSortM rest10 with
  | some ws => { w with props := ws.foldl (fun ps kv => setProp ps kv.1 kv.2) w.props }
  | Option.none =>
    if rest10.isEmpty then w
    else
      match splitColon rest10 with
      | Option.none => w
      | some (pre, suf) =>
        if pre.isEmpty then w
        else { w with props := setProp w.props (startCase pre) (.str suf) }

def updWorkers (wn : Nat) (act? : Option ActualsM) (rest10 : Chars)
    (ws : List TWorker) : List TWorker :=
  match ws.findIdx? (fun w => w.num = wn) with
  | some wi => updIdx ws wi (workerUpd act? rest10)
  | Option.none => ws ++ [workerUpd act? rest10 { num := wn }]

/-- The worker-line branch (text.ts:265-296): no depth-based removal;
crashes on an empty stack. -/
def workerBranch (st : PState) (w3 : Nat × Option ActualsM × Chars) : Except Unit PState :=
  match st.stack with
  | [] => .error ()
  | (_, fr) :: _ =>
    match fr.target with
    | .nodeT j =>
      .ok { st with nodes := updIdx st.nodes j fun n =>
          { n with workers := updWorkers w3.1 w3.2.1 w3.2.2 n.workers } }
    | _ => .ok { st with ghostWorkers := updWorkers w3.1 w3.2.1 w3.2.2 st.ghostWorkers }

/-- The trigger branch (text.ts:297-301). -/
def triggerBranch (st : PState) (depth : Nat) (tr : Chars × ℚ × Chars) : PState :=
  let stA := { st with stack := st.stack.filter fun e => e.1 < depth }
  { stA with triggers := stA.triggers ++ [tr] }

/-- The JIT branch (text.ts:302-321): with an empty stack it creates
`root.JIT` and pushes a frame at depth 1 without touching `root.Plan`;
otherwise it hangs a JIT object on the last worker of the top element, or
does nothing when there is none. -/
def jitBranch (st : PState) (depth : Nat) : Except Unit PState :=
  match st.stack with
  | [] => .ok { st with rootJIT := true, stack := [(1, ⟨.rootJitT, Option.none, Option.none⟩)] }
  | (_, fr) :: _ =>
    match fr.target with
    | .nodeT j =>
      let node := getNode st j
      if node.workers.isEmpty then .ok st
      else
        let wi := node.workers.length - 1
        let stA := { st with nodes := updIdx st.nodes j fun n =>
          { n with workers := updIdx n.workers wi fun w => { w with jit := true } } }
        .ok { stA with stack := (depth, ⟨.workerJitT j wi, Option.none, Option.none⟩) :: stA.stack }
    | _ =>
      if st.ghostWorkers.isEmpty then .ok st
      else
        let f := fun (w : TWorker) => { w with jit := true }
        let stA := { st with ghostWorkers := updIdx st.ghostWorkers (st.ghostWorkers.length - 1) f }
        .ok { stA with stack := (depth, ⟨.ghostT, Option.none, Option.none⟩) :: stA.stack }

def containsSub (pat : String) (s : Chars) : Bool := !(substrSplits pat s).isEmpty

/-- The extra-info branch (text.ts:322-392). -/
def extraBranch (st : PState) (depth : Nat) (line t : Chars) : Except Unit PState :=
  let stack' := st.stack.filter fun e => e.1 < depth
  let st := { st with stack := stack' }
  let tgt : Option Target :=
    match stack' with
    | [] => Option.none
    | (_, fr) :: _ => some fr.target
  if !planPresent st tgt && propTruthy (readProps st tgt) "Query Text".data then
    let v : TVal :=
      match getProp (readProps st tgt) "Query Text".data with
      | some (.str old) => .str (old ++ '\n' :: line)
      | _ => .str line
    .ok (writeProp1 st tgt "Query Text".data v)
  else
    match splitColon t with
    | Option.none => .ok st
    | some (pre, suf) =>
      if pre.isEmpty then .ok st
      else
        match parseSortM t with
        | some ws => .ok (writeMany st tgt ws)
        | Option.none =>
        match parseBuffersM t with
        | some ws => .ok (writeMany st tgt ws)
        | Option.none =>
        match parseWALM t with
        | some ws => .ok (writeMany st tgt ws)
        | Option.none =>
        match parseIOTimingsM t with
        | some ws => .ok (writeMany st tgt ws)
        | Option.none =>
        match parseOptionsM t with
        | .crash => .error ()
        | .okW ws => .ok (writeMany st tgt ws)
        | .nomatch =>
        match parseTimingM t with
        | .crash => .error ()
        | .okW ws => .ok (writeMany st tgt ws)
        | .nomatch =>
        match parseSettingsM t with
        | .crash => .error ()
        | .okW ws => .ok (writeMany st tgt ws)
        | .nomatch =>
        match parseSortGroupsM t with
        | some ws => .ok (writeMany st tgt ws)
        | Option.none =>
        match parseSortKeyM t with
        | some ws => .ok (writeMany st tgt ws)
        | Option.none =>
          let v := stripMs suf
          let value : TVal :=
            match parseFloatJS v with
            | some q => if q = 0 then .str v else .num q
            | Option.none => .str v
          let property :=
            if containsSub " runtime" pre || containsSub " time" pre then startCase pre
            else pre
          .ok (writeProp1 st tgt property value)

/-- One iteration of the `_.each` over lines (text.ts:55-393). -/
def processLine (st : PState) (raw : Chars) : Except Unit PState :=
  let depth := depthOf raw
  let line := strippedOf raw
  if emptyM line || headerM line then .ok st
  else
    match nodeMatchOfLine line, cteM line, subM line with
    | some m, Option.none, Option.none => nodeBranch st depth m
    | _, cm, sm =>
      match sm with
      | some tynm => pseudoFrameBranch st depth tynm.1 tynm.2
      | Option.none =>
        match cm with
        | some cte => pseudoFrameBranch st depth "initplan".data ("CTE ".data ++ cte)
        | Option.none =>
          match workerM line with
          | some w3 => workerBranch st w3
          | Option.none =>
            match triggerM line with
            | some tr => .ok (triggerBranch st depth tr)
            | Option.none =>
              if jitM line then jitBranch st depth
              else
                match extraM line with
                | some t => extraBranch st depth line t
                | Option.none => .ok st

def processAll : List Chars → PState → Except Unit PState
  | [], st => .ok st
  | l :: r, st =>
    match processLine st l with
    | .error e => .error e
    | .ok st' => processAll r st'

inductive TErr where
  | typeError : TErr
  | parseFailure : TErr
deriving DecidableEq

/-- `fromText` (text.ts:46-399): run the loop over the logical lines and
throw `Unable to parse plan` when `root.Plan` is falsy at the end
(`if (!root.Plan)` — never assigned, or assigned a falsy value such as the
empty string). -/
def fromTextChars (text : Chars) : Except TErr PState :=
  match processAll (splitIntoLines text) initPS with
  | .error _ => .error .typeError
  | .ok st => if rootPlanTruthy st then .ok st else .error .parseFailure

/-- Claim C7, amended.  (i) When the line loop runs to completion (no
JavaScript exception), `fromText` fails with ParseFailure exactly when
`root.Plan` is falsy at the end: never assigned, or assigned a falsy value
— the check is the truthiness test `if (!root.Plan)`, so a line such as
`Plan: ms`, whose extra-branch value is the empty string, assigns
`root.Plan` and the parser still fails. (ii) A run that crashes surfaces
as a TypeError, not as ParseFailure. (iii) A node line processed while the
element stack is empty does attach the root plan: the built node (truthy,
an object) becomes `root.Plan` and the loop continues normally.  The
unrestricted claim is false in both directions (`C7_counterexample`):
node lines can match and attach under the `root.JIT` pseudo-frame with
`root.Plan` never set, and several line shapes (`SubPlan`/`CTE`/`Worker`
lines with an empty stack, malformed `Settings:`/`Options:`/`Timing:`
items) throw before the loop completes. -/
theorem C7_parse_failure :
    (∀ text st, processAll (splitIntoLines text) initPS = Except.ok st →
      (fromTextChars text = Except.error TErr.parseFailure ↔
        rootPlanTruthy st = false)) ∧
    (∀ text, processAll (splitIntoLines text) initPS = Except.error () →
      fromTextChars text = Except.error TErr.typeError) ∧
    (∀ st raw m, st.stack = [] →
      emptyM (strippedOf raw) = false → headerM (strippedOf raw) = false →
      nodeMatchOfLine (strippedOf raw) = some m →
      cteM (strippedOf raw) = Option.none →
      (subM (strippedOf raw)).isNone = true →
      processLine st raw = Except.ok
        { st with nodes := st.nodes ++ [buildNode m],
                  rootPlan := some (RootPlanV.nodeRef st.nodes.length),
                  stack := [(depthOf raw,
                    ⟨Target.nodeT st.nodes.length, some "subnode".data, Option.none⟩)] }) := by
  refine ⟨?_, ?_, ?_⟩
  · intro text st h
    rw [fromTextChars, h]
    cases hrp : rootPlanTruthy st with
    | false => simp [hrp]
    | true => simp [hrp]
  · intro text h
    rw [fromTextChars, h]
  · intro st raw m hstk hemp hhd hnm hcte hsub
    rw [processLine]
    rw [hemp, hhd]
    simp only [Bool.or_self, Bool.false_eq_true, if_false]
    rw [hnm, hcte]
    cases hs : subM (strippedOf raw) with
    | some p => rw [hs] at hsub; exact absurd hsub (by simp)
    | none =>
      simp only [nodeBranch, hstk, List.isEmpty_nil, if_true]

/-- Witness for `C7_parse_failure`: a lone node line on the empty initial
state becomes `root.Plan`. -/
theorem C7_parse_failure_witness :
    processLine initPS "Seq Scan on t  (cost=0.00..1.00 rows=1 width=4)".data
      = Except.ok
        { initPS with
            nodes := initPS.nodes
              ++ [buildNode ⟨"Seq Scan on t".data, NodeAlt.estOnly (0, 1, 1, 4)⟩],
            rootPlan := some (RootPlanV.nodeRef initPS.nodes.length),
            stack := [(depthOf "Seq Scan on t  (cost=0.00..1.00 rows=1 width=4)".data,
              ⟨Target.nodeT initPS.nodes.length, some "subnode".data, Option.none⟩)] } :=
  C7_parse_failure.2.2 initPS
    "Seq Scan on t  (cost=0.00..1.00 rows=1 width=4)".data
    ⟨"Seq Scan on t".data, NodeAlt.estOnly (0, 1, 1, 4)⟩
    rfl (by decide) (by decide) (by decide) (by decide) (by decide)

instance exceptDecEq {e a : Type} [DecidableEq e] [DecidableEq a] :
    DecidableEq (Except e a)
  | .error x, .error y =>
    if h : x = y then .isTrue (by rw [h]) else .isFalse (by simp [h])
  | .error _, .ok _ => .isFalse (by simp)
  | .ok _, .error _ => .isFalse (by simp)
  | .ok x, .ok y =>
    if h : x = y then .isTrue (by rw [h]) else .isFalse (by simp [h])

/-- Claim C7 is false as stated, in both directions.  First: under a
leading `JIT:` line the node line matches and is attached (to the
`root.JIT` pseudo-element), yet `root.Plan` stays null and the parser
fails with ParseFailure although a node line matched.  Second: a
`SubPlan 1` first line makes `_.last(elementsAtDepth)![1]` blow up on the
empty stack — the parser fails, but with a TypeError and not with
ParseFailure, without consuming the remaining lines.  Third: even "no
line ever assigned root.Plan" is not the right characterisation — the
extra line `Plan: ms` assigns `root.Plan` the empty string (`"ms"` with
the `ms` unit stripped), and `if (!root.Plan)` still throws ParseFailure
because the assigned value is falsy. -/
theorem C7_counterexample :
    fromTextChars "JIT:\n   Seq Scan on t  (cost=0.00..1.00 rows=1 width=4)".data
      = Except.error TErr.parseFailure ∧
    (nodeMatchOfLine (strippedOf "   Seq Scan on t  (cost=0.00..1.00 rows=1 width=4)".data)).isSome
      = true ∧
    fromTextChars "SubPlan 1".data = Except.error TErr.typeError ∧
    processAll (splitIntoLines "Plan: ms".data) initPS
      = Except.ok { initPS with rootPlan := some (RootPlanV.propv (TVal.str [])) } ∧
    fromTextChars "Plan: ms".data = Except.error TErr.parseFailure := by
  refine ⟨by decide, by decide, by decide, by decide, by decide⟩

end TextP

end
